import Mathlib

/-!
Verification of the in-memory B+-tree index (package `btree`).

The tree-level code (`btree.go`) is embedded faithfully below.  The concrete
page and pager implementation is not part of the sources (only the `Page`,
`PageIter`, `Pager` and `Key` interfaces in `pager.go` are), so those
operations are modelled from the specification, as indicated on each
definition.  Pages live in an arena (`pages : List Page`), page references
are integers indexing that arena, and failure ("panic") is modelled by the
`Err.fatal` constructor of an `Except` result; `Err.fuel` is a model
artifact marking exhaustion of recursion fuel and never occurs on
well-formed states.
-/

namespace Btr

/-- Byte strings: keys and values. -/
abbrev Bs := List Nat

/-- Modelled from the spec: `keyLess` is strict lexicographic byte ordering
(section 4.1, "binary search over real positions using lexicographic byte
ordering"); the implementation is not under `src/`. -/
def keyLess : Bs → Bs → Bool
  | [], [] => false
  | [], _ :: _ => true
  | _ :: _, [] => false
  | a :: as, b :: bb => if a < b then true else if b < a then false else keyLess as bb

/-- A key record: key bytes plus an integer reference (child page for
internal nodes, value-arena slot for leaves). -/
structure KeyRec where
  key : Bs
  ref : Int
  deriving Repr, DecidableEq

def dfltRec : KeyRec := ⟨[], -1⟩

/-- Modelled from the spec: a page is a fixed-capacity ordered container of
key records with a sibling pointer and, for internal nodes, a distinguished
"first" reference (section 3).  Leaf pages hold their real records at
positions `0..size-1`; internal pages hold the "first" reference at
position 0 and real records at positions `1..size-1` (the convention the
consistency checker in `btree.go` relies on). -/
structure Page where
  isLeaf : Bool
  first : Int
  next : Int
  recs : List KeyRec
  deriving Repr, DecidableEq

def dfltPage : Page := ⟨true, -1, -1, []⟩

/-- `Size()`: number of positions; an internal page with k real keys has
size k+1 because position 0 holds the "first" reference. -/
def Page.size (p : Page) : Nat :=
  if p.isLeaf then p.recs.length else p.recs.length + 1

/-- Modelled from the spec: ordered in-place insertion into the record list
(section 4.1 `Insert`); on a duplicate key the record is replaced, which
preserves strict ordering as the interface demands. -/
def insRecs (k : Bs) (v : Int) : List KeyRec → List KeyRec
  | [] => [⟨k, v⟩]
  | r :: rs =>
    if keyLess k r.key then ⟨k, v⟩ :: r :: rs
    else if k = r.key then ⟨k, v⟩ :: rs
    else r :: insRecs k v rs

/-- Modelled from the spec: `Insert(key, ref)` returns false (here `none`)
iff the page is at capacity `N`; otherwise places the record preserving
order. -/
def Page.insert (N : Nat) (p : Page) (k : Bs) (v : Int) : Option Page :=
  if N ≤ p.size then none else some { p with recs := insRecs k v p.recs }

def findEq (k : Bs) : List KeyRec → Option KeyRec
  | [] => none
  | r :: rs => if r.key = k then some r else findEq k rs

def findLt (k : Bs) : List KeyRec → Option KeyRec
  | [] => none
  | r :: rs =>
    if keyLess r.key k then
      some (match findLt k rs with | some x => x | none => r)
    else none

/-- Modelled from the spec: `Search(k)` returns the record if found, else
the greatest record whose key is `< k`; on an internal page where the query
is below all real keys it returns the synthetic position-0 record carrying
the "first" reference (section 4.1). -/
def Page.search (p : Page) (k : Bs) : Bool × KeyRec :=
  match findEq k p.recs with
  | some r => (true, r)
  | none =>
    match findLt k p.recs with
    | some r => (false, r)
    | none => (false, ⟨[], if p.isLeaf then -1 else p.first⟩)

/-- `GetKey(i)`: leaves index real records from 0; on internal pages
position 0 carries the "first" reference and no actual key. -/
def Page.getKey (p : Page) (i : Nat) : Bs × Int :=
  if p.isLeaf then ((p.recs.getD i dfltRec).key, (p.recs.getD i dfltRec).ref)
  else if i = 0 then ([], p.first)
  else ((p.recs.getD (i - 1) dfltRec).key, (p.recs.getD (i - 1) dfltRec).ref)

/-- Modelled from the spec: `Split` moves the upper half of the records to
the fresh page and returns the separator key (section 4.1).  For a full
leaf (N records) the first N/2 stay and the last N/2 move, the split key
being the first moved key; for a full internal page (N positions, N-1 real
records) the record at real index N/2-1 is promoted: its key is the split
key and its ref becomes the new page's "first" reference. -/
def Page.splitP (N : Nat) (p : Page) : Page × Page × Bs :=
  if p.isLeaf then
    ({ p with recs := p.recs.take (N / 2) },
     ⟨true, -1, -1, p.recs.drop (N / 2)⟩,
     ((p.recs.drop (N / 2)).headD dfltRec).key)
  else
    ({ p with recs := p.recs.take (N / 2 - 1) },
     ⟨false, (p.recs.getD (N / 2 - 1) dfltRec).ref, -1, p.recs.drop (N / 2)⟩,
     (p.recs.getD (N / 2 - 1) dfltRec).key)

/-- Does `p` start with the given byte string? -/
def hasPfx : Bs → Bs → Bool
  | [], _ => true
  | _ :: _, [] => false
  | a :: as, b :: bb => a = b && hasPfx as bb

/-- Modelled from the spec: the page iterator state is the suffix of the
record list positioned at the first real record whose key is `≥` the
search bytes (section 4.1 `Start`). -/
def pageStart (p : Page) (pfx : Bs) : List KeyRec :=
  p.recs.dropWhile (fun r => keyLess r.key pfx)

/-- Modelled from the spec: the page iterator yields records until the page
is exhausted and stops at the first key that does not start with the
search bytes (sections 4.1 and 4.9). -/
def pageIterNext (pfx : Bs) : List KeyRec → Option (Bs × Int) × List KeyRec
  | [] => (none, [])
  | r :: rs =>
    if hasPfx pfx r.key then (some (r.key, r.ref), rs)
    else (none, r :: rs)

/-- Errors: `fatal` models a Go panic with its message; `fuel` marks
recursion-fuel exhaustion (a model artifact, unreachable from well-formed
states). -/
inductive Err where
  | fatal (msg : String)
  | fuel
  deriving Repr, DecidableEq

deriving instance DecidableEq for Except

/-- The B+-tree: pager arena, log-structured value arena, root reference
and total key count.  `cap` is the per-page capacity (`ramPageSize`, 100
in the reference configuration; the spec fixes only that it is even). -/
structure Btree where
  cap : Nat
  pages : List Page
  values : List Bs
  root : Int
  size : Nat
  deriving Repr, DecidableEq

/-- Modelled from the spec: `Pager.Get` resolves a page reference through
the arena. -/
def getP (ps : List Page) (r : Int) : Page := ps.getD r.toNat dfltPage

def Btree.pg (b : Btree) (r : Int) : Page := getP b.pages r

def Btree.setPg (b : Btree) (r : Int) (p : Page) : Btree :=
  { b with pages := b.pages.set r.toNat p }

/-- Modelled from the spec: `Pager.New` allocates a fresh empty page with
`nextPage = -1` and hands out the next integer reference. -/
def Btree.newPg (b : Btree) (leaf : Bool) : Int × Btree :=
  ((b.pages.length : Int), { b with pages := b.pages ++ [⟨leaf, -1, -1, []⟩] })

/-- `NewInMemoryBtree`: an internal root whose "first" child is a single
empty leaf. -/
def newBtree (N : Nat) : Btree :=
  let b0 : Btree := ⟨N, [], [], 0, 0⟩
  let rn := b0.newPg false
  let b2 := { rn.2 with root := rn.1 }
  let ln := b2.newPg true
  let b4 := ln.2.setPg b2.root { (ln.2.pg b2.root) with first := ln.1 }
  b4

/-- `Btree.search`: top-down search recording the path of page references
from the root to the leaf (the loop is given fuel; `none` marks
exhaustion). -/
def searchLoop (b : Btree) (key : Bs) : Nat → Int → List Int → Option (Bool × KeyRec × List Int)
  | 0, _, _ => none
  | fuel + 1, ref, path =>
    let p := b.pg ref
    let s := p.search key
    if p.isLeaf then some (s.1, s.2, path)
    else searchLoop b key fuel s.2.ref (path ++ [s.2.ref])

def Btree.searchB (b : Btree) (key : Bs) : Option (Bool × KeyRec × List Int) :=
  searchLoop b key b.pages.length b.root [b.root]

def lastRef (l : List Int) : Int := l.getD (l.length - 1) 0

def parentRefOf (l : List Int) : Int := l.getD (l.length - 2) 0

/-- The page-splitting phase of `Btree.split`: allocate the sibling, halve
the page via `Split`, fix the sibling links and place the pending record
into the proper half.  Returns the new state, the separator key and the
new page's reference. -/
def splitPhase (b : Btree) (key : Bs) (ref : Int) (pageRef : Int) : Btree × Bs × Int :=
  let page := b.pg pageRef
  let np := b.newPg page.isLeaf
  let newPageRef := np.1
  let b1 := np.2
  let sp := page.splitP b.cap
  let splitKey := sp.2.2
  let b4 := (b1.setPg pageRef { sp.1 with next := newPageRef }).setPg newPageRef
    { sp.2.1 with next := page.next }
  let b5 :=
    if keyLess key splitKey then
      match (b4.pg pageRef).insert b.cap key ref with
      | some p' => b4.setPg pageRef p'
      | none => b4
    else
      match (b4.pg newPageRef).insert b.cap key ref with
      | some p' => b4.setPg newPageRef p'
      | none => b4
  (b5, splitKey, newPageRef)

/-- `Btree.split`: split the page at the path's tail, link siblings, place
the pending record, insert the separator into the parent and propagate,
promoting the root when the full parent is the current root (faithful to
`split` in `btree.go`, including the `insane` panic). -/
def splitGo : Nat → Btree → Bs → Int → List Int → Except Err Btree
  | 0, _, _, _, _ => .error .fuel
  | fuel + 1, b, key, ref, pageRefs =>
    if pageRefs.length < 2 then .error (.fatal "index out of range") else
    let parentRef := parentRefOf pageRefs
    let res := splitPhase b key ref (lastRef pageRefs)
    let b5 := res.1
    let splitKey := res.2.1
    let newPageRef := res.2.2
    match (b5.pg parentRef).insert b.cap splitKey newPageRef with
    | some par' => .ok (b5.setPg parentRef par')
    | none =>
      if parentRef = b5.root then
        if pageRefs.length ≠ 2 then .error (.fatal "insane")
        else
          let oldRootRef := b5.root
          let nr := b5.newPg false
          let newRootRef := nr.1
          let b7 := nr.2.setPg newRootRef { (nr.2.pg newRootRef) with first := oldRootRef }
          let b8 := { b7 with root := newRootRef }
          splitGo fuel b8 splitKey newPageRef [newRootRef, parentRef]
      else
        splitGo fuel b5 splitKey newPageRef pageRefs.dropLast

/-- The body of `Put` after the nil checks. -/
def putB (b : Btree) (key val : Bs) : Except Err (Bool × Btree) :=
  match b.searchB key with
  | none => .error .fuel
  | some (replaced, krec, pageRefs) =>
    if replaced then
      .ok (true, { b with values := b.values.set krec.ref.toNat val })
    else
      let vref : Int := (b.values.length : Int)
      let pageRef := lastRef pageRefs
      let page := b.pg pageRef
      let step : Except Err Btree :=
        match page.insert b.cap key vref with
        | some p' => .ok (b.setPg pageRef p')
        | none => splitGo (pageRefs.length + 1) b key vref pageRefs
      match step with
      | .error e => .error e
      | .ok b1 =>
        let b2 := { b1 with values := b1.values ++ [val] }
        .ok (false, { b2 with size := b2.size + 1 })

/-- `Put(key, value)`: panics on nil or empty key and on nil value, then
overwrites the found slot or inserts a fresh record (splitting as
needed). -/
def Btree.PutGo (b : Btree) (key val : Option Bs) : Except Err (Bool × Btree) :=
  match key, val with
  | some k, some v =>
    if k = [] then .error (.fatal "Illegal nil key or value") else putB b k v
  | _, _ => .error (.fatal "Illegal nil key or value")

/-- `Get(key)`: panics on nil or empty key; returns found plus the value
bytes (empty when absent, as Go returns a nil slice). -/
def Btree.GetGo (b : Btree) (key : Option Bs) : Except Err (Bool × Bs) :=
  match key with
  | none => .error (.fatal "Illegal key nil")
  | some k =>
    if k = [] then .error (.fatal "Illegal key nil") else
    match b.searchB k with
    | none => .error .fuel
    | some (ok, krec, _) =>
      .ok (ok, if ok then b.values.getD krec.ref.toNat [] else [])

/-- `Append(key, value)`: extend the found slot in place, otherwise fall
back to `Put`, which must report `replaced = false`. -/
def Btree.AppendGo (b : Btree) (key val : Option Bs) : Except Err Btree :=
  match key, val with
  | some k, some v =>
    if k = [] then .error (.fatal "Illegal nil key or value") else
    match b.searchB k with
    | none => .error .fuel
    | some (ok, krec, _) =>
      if ok then
        .ok { b with values := b.values.set krec.ref.toNat ((b.values.getD krec.ref.toNat []) ++ v) }
      else
        match putB b k v with
        | .error e => .error e
        | .ok (true, _) => .error (.fatal "Did not expect to have to replace the value")
        | .ok (false, b') => .ok b'
  | _, _ => .error (.fatal "Illegal nil key or value")

def Btree.SizeGo (b : Btree) : Nat := b.size

/-- The page-attaching phase of `Btree.appendPage`: allocate the fresh
right-edge page, link it as sibling, and seed it with the pending record
(leaf) or hoisted child (internal). -/
def appendPhase (b : Btree) (key : Bs) (ref : Int) (pageRef : Int) : Btree × Int :=
  let page := b.pg pageRef
  let np := b.newPg page.isLeaf
  let newPageRef := np.1
  let b1 := np.2
  let b2 := b1.setPg pageRef { page with next := newPageRef }
  let b3 :=
    if page.isLeaf then
      match (b2.pg newPageRef).insert b.cap key ref with
      | some p' => b2.setPg newPageRef p'
      | none => b2
    else b2.setPg newPageRef { (b2.pg newPageRef) with first := ref }
  (b3, newPageRef)

/-- `Btree.appendPage`: attach a fresh page on the right edge and insert
the caller-supplied key into the parent, recursing (with root promotion)
on a full parent (faithful to `appendPage` in `btree.go`). -/
def appendPageGo : Nat → Btree → Bs → Int → List Int → Except Err Btree
  | 0, _, _, _, _ => .error .fuel
  | fuel + 1, b, key, ref, pageRefs =>
    if pageRefs.length < 2 then .error (.fatal "index out of range") else
    let parentRef := parentRefOf pageRefs
    let res := appendPhase b key ref (lastRef pageRefs)
    let b3 := res.1
    let newPageRef := res.2
    match (b3.pg parentRef).insert b.cap key newPageRef with
    | some par' => .ok (b3.setPg parentRef par')
    | none =>
      if parentRef = b3.root then
        let nr := b3.newPg false
        let newRootRef := nr.1
        let b5 := nr.2.setPg newRootRef { (nr.2.pg newRootRef) with first := nr.2.root }
        let oldRootRef := b5.root
        let b6 := { b5 with root := newRootRef }
        appendPageGo fuel b6 key newPageRef [newRootRef, oldRootRef]
      else
        appendPageGo fuel b3 key newPageRef pageRefs.dropLast

/-- The rightmost descent of `PutNext`: follow the last child of every
internal page, failing fatally when a page's rightmost real key is not
less than the new key. -/
def pnLoop (b : Btree) (key : Bs) : Nat → Int → List Int → Except Err (Int × List Int)
  | 0, _, _ => .error .fuel
  | fuel + 1, ref, path =>
    let p := b.pg ref
    if p.isLeaf then .ok (ref, path)
    else
      let kr := p.getKey (p.size - 1)
      if keyLess kr.1 key = false then .error (.fatal "out of order put")
      else pnLoop b key fuel kr.2 (path ++ [kr.2])

/-- `PutNext(key, value)`: bulk-sorted insertion along the rightmost
spine. -/
def Btree.PutNextGo (b : Btree) (key val : Option Bs) : Except Err Btree :=
  match key, val with
  | some k, some v =>
    if k = [] then .error (.fatal "Illegal nil key or value") else
    match pnLoop b k b.pages.length b.root [b.root] with
    | .error e => .error e
    | .ok (leafRef, pageRefs) =>
      let vref : Int := (b.values.length : Int)
      let b1 := { b with values := b.values ++ [v] }
      match (b1.pg leafRef).insert b.cap k vref with
      | some p' => .ok { (b1.setPg leafRef p') with size := b1.size + 1 }
      | none =>
        match appendPageGo (pageRefs.length + 1) b1 k vref pageRefs with
        | .error e => .error e
        | .ok b2 => .ok { b2 with size := b2.size + 1 }
  | _, _ => .error (.fatal "Illegal nil key or value")

/-- Tree-level iterator state (`btreeIter`): search bytes, the current
page iterator (a record-list suffix), the current leaf page and the done
flag. -/
structure BIter where
  pfx : Bs
  iter : List KeyRec
  page : Page
  done : Bool
  deriving Repr, DecidableEq

/-- `Start(prefix)`: panics on a nil argument, descends as if searching
and hands the reached leaf's page iterator to the tree iterator. -/
def Btree.StartGo (b : Btree) (pfx : Option Bs) : Except Err BIter :=
  match pfx with
  | none => .error (.fatal "Illegal key nil")
  | some p =>
    match b.searchB p with
    | none => .error .fuel
    | some (_, _, pageRefs) =>
      let ref := lastRef pageRefs
      let page := b.pg ref
      .ok ⟨p, pageStart page p, page, false⟩

/-- `btreeIter.Next`: pull from the current page, else cross to the
sibling leaf and pull once, marking done at the end of the chain or when
the sibling yields nothing. -/
def iterNext (b : Btree) (it : BIter) : Option (Bs × Bs) × BIter :=
  if it.done then (none, it)
  else
    match pageIterNext it.pfx it.iter with
    | (some kr, rest) => (some (kr.1, b.values.getD kr.2.toNat []), { it with iter := rest })
    | (none, _) =>
      let n := it.page.next
      if n = -1 then (none, { it with done := true })
      else
        let pg := b.pg n
        let s := pageStart pg it.pfx
        match pageIterNext it.pfx s with
        | (none, s2) => (none, { it with page := pg, iter := s2, done := true })
        | (some kr, s2) =>
          (some (kr.1, b.values.getD kr.2.toNat []), { it with page := pg, iter := s2 })

/-- Run the iterator to exhaustion, collecting the yielded pairs. -/
def iterList (b : Btree) : Nat → BIter → List (Bs × Bs)
  | 0, _ => []
  | fuel + 1, it =>
    match iterNext b it with
    | (none, _) => []
    | (some kv, it') => kv :: iterList b fuel it'

/-- The leaf branch of `checkPage`: strict ordering from the empty key and
non-negative value references. -/
def checkLeafRecs : Bs → List KeyRec → Option String
  | _, [] => none
  | prev, r :: rs =>
    if keyLess prev r.key = false then some "Expect strict ordering"
    else if r.ref < 0 then some "value reference cannot be < 0"
    else checkLeafRecs r.key rs

/-- The internal-page loop of `checkPage`, with the recursive call on the
child passed in as `f`.  Faithful to the source: the comparison key `prevk`
is the position-0 key and is never updated inside the loop, and the parent
separator is only compared against this page's real keys (`checkMinKey`),
never against leaf records. -/
def checkKids (b : Btree) (f : Page → Bool → Bs → Int → Nat → Except Err (Option String))
    (checkMinKey : Bool) (minKey : Bs) (prevk : Bs) (depth : Nat) :
    List KeyRec → Except Err (Option String)
  | [] => .ok none
  | r :: rs =>
    if checkMinKey && (keyLess minKey r.key = false) then
      .ok (some "Expect parent key to be smaller or equal to all in referred to child page")
    else if keyLess prevk r.key = false then .ok (some "Expect strict ordering")
    else if r.ref < 0 then .ok (some "value reference cannot be < 0")
    else
      match f (b.pg r.ref) true r.key r.ref (depth + 1) with
      | .error e => .error e
      | .ok (some m) => .ok (some m)
      | .ok none => checkKids b f checkMinKey minKey prevk depth rs

/-- `checkPage`: recursively check sorting inside pages and child
references (faithful to `checkPage` in `btree.go`). -/
def checkPageGo (b : Btree) : Nat → Page → Bool → Bs → Int → Nat → Except Err (Option String)
  | 0, _, _, _, _, _ => .error .fuel
  | fuel + 1, page, checkMinKey, minKey, _, depth =>
    if page.isLeaf then .ok (checkLeafRecs [] page.recs)
    else
      let pk := page.getKey 0
      if pk.2 = -1 ∧ page.size > 1 then
        .ok (some "Expected internal node to refer to other pages")
      else checkKids b (checkPageGo b fuel) checkMinKey minKey pk.1 depth page.recs

/-- The iteration pass of `CheckConsistency`: full forward scan checking
non-empty keys, strict ascending order, and counting the records. -/
def ccLoop (b : Btree) : Nat → BIter → Bs → Nat → Except Err (Option String × Nat)
  | 0, _, _, _ => .error .fuel
  | fuel + 1, it, prev, count =>
    match iterNext b it with
    | (none, _) => .ok (none, count)
    | (some kv, it') =>
      if kv.1 = [] then .ok (some "Got empty key", count)
      else if keyLess prev kv.1 = false then .ok (some "Expect strict ordering", count)
      else ccLoop b fuel it' kv.1 (count + 1)

/-- Total number of records stored in leaf pages of the arena. -/
def allLeafRecs (ps : List Page) : List KeyRec :=
  ps.flatMap (fun p => if p.isLeaf then p.recs else [])

/-- `CheckConsistency`: the full-scan pass followed by the recursive
`checkPage` pass from the root. -/
def Btree.CheckConsistencyGo (b : Btree) : Except Err (Option String) :=
  match b.StartGo (some []) with
  | .error e => .error e
  | .ok it =>
    match ccLoop b ((allLeafRecs b.pages).length + b.pages.length + 2) it [] 0 with
    | .error e => .error e
    | .ok (some m, _) => .ok (some m)
    | .ok (none, count) =>
      if count ≠ b.size then .ok (some "count mismatch")
      else checkPageGo b b.pages.length (b.pg b.root) false [] 0 0

/-! ### Basic lemmas: arena access and the lexicographic order -/

theorem getP_set_self (ps : List Page) (i : Nat) (p : Page) (h : i < ps.length) :
    getP (ps.set i p) (i : Int) = p := by
  simp [getP, Int.toNat_natCast, List.getD_eq_getElem?_getD, List.getElem?_set_self, h]

theorem getP_set_ne (ps : List Page) (i : Nat) (p : Page) (s : Int) (h : i ≠ s.toNat) :
    getP (ps.set i p) s = getP ps s := by
  simp [getP, List.getD_eq_getElem?_getD, List.getElem?_set_ne h]

theorem getP_append_lt (ps qs : List Page) (s : Int) (h : s.toNat < ps.length) :
    getP (ps ++ qs) s = getP ps s := by
  simp [getP, List.getD_eq_getElem?_getD, List.getElem?_append_left h]

theorem getP_append_self (ps : List Page) (p : Page) :
    getP (ps ++ [p]) (ps.length : Int) = p := by
  simp [getP, List.getD_eq_getElem?_getD]

theorem keyLess_irrefl (a : Bs) : keyLess a a = false := by
  induction a with
  | nil => rfl
  | cons x xs ih => simp [keyLess, ih]

theorem keyLess_asymm {a b : Bs} (h : keyLess a b = true) : keyLess b a = false := by
  induction a generalizing b with
  | nil => cases b with
    | nil => simpa [keyLess] using h
    | cons y ys => simp [keyLess]
  | cons x xs ih =>
    cases b with
    | nil => simp [keyLess] at h
    | cons y ys =>
      by_cases hxy : x < y
      · have hyx : ¬ y < x := by omega
        simp [keyLess, hxy, hyx]
      · by_cases hyx : y < x
        · simp [keyLess, hxy, hyx] at h
        · have hx : x = y := by omega
          subst hx
          simp [keyLess, hxy] at h ⊢
          exact ih h

theorem keyLess_trans {a b c : Bs} (h1 : keyLess a b = true) (h2 : keyLess b c = true) :
    keyLess a c = true := by
  induction a generalizing b c with
  | nil =>
    cases c with
    | nil =>
      cases b with
      | nil => simpa [keyLess] using h1
      | cons y ys => simp [keyLess] at h2
    | cons z zs => simp [keyLess]
  | cons x xs ih =>
    cases b with
    | nil => simp [keyLess] at h1
    | cons y ys =>
      cases c with
      | nil => simp [keyLess] at h2
      | cons z zs =>
        by_cases hxy : x < y <;> by_cases hyz : y < z
        · have : x < z := by omega
          simp [keyLess, this]
        · by_cases hzy : z < y
          · simp [keyLess, hyz, hzy] at h2
          · have : y = z := by omega
            subst this
            simp [keyLess, hxy]
        · by_cases hyx : y < x
          · simp [keyLess, hxy, hyx] at h1
          · have : x = y := by omega
            subst this
            simp [keyLess, hyz]
        · by_cases hyx : y < x
          · simp [keyLess, hxy, hyx] at h1
          · by_cases hzy : z < y
            · simp [keyLess, hyz, hzy] at h2
            · have hx : x = y := by omega
              have hy : y = z := by omega
              subst hx; subst hy
              simp only [keyLess, if_neg hxy] at h1 h2 ⊢
              exact ih h1 h2

theorem keyLess_conn {a b : Bs} (h1 : keyLess a b = false) (h2 : keyLess b a = false) :
    a = b := by
  induction a generalizing b with
  | nil => cases b with
    | nil => rfl
    | cons y ys => simp [keyLess] at h1
  | cons x xs ih =>
    cases b with
    | nil => simp [keyLess] at h2
    | cons y ys =>
      by_cases hxy : x < y
      · simp [keyLess, hxy] at h1
      · by_cases hyx : y < x
        · simp [keyLess, hyx, hxy] at h2
        · have : x = y := by omega
          subst this
          simp only [keyLess, if_neg hxy] at h1 h2
          simp [ih h1 h2]

theorem keyLess_nil_left {k : Bs} (h : k ≠ []) : keyLess [] k = true := by
  cases k with
  | nil => exact absurd rfl h
  | cons x xs => rfl

theorem keyLess_nil_right (k : Bs) : keyLess k [] = false := by
  cases k <;> rfl

/-- Transitivity in mixed form: `a ≤ b < c` gives `a < c`. -/
theorem keyLess_le_lt {a b c : Bs} (h1 : keyLess b a = false) (h2 : keyLess b c = true) :
    keyLess a c = true := by
  by_cases hab : keyLess a b = true
  · exact keyLess_trans hab h2
  · have : a = b := keyLess_conn (by simpa using hab) h1
    simpa [this]

/-- Transitivity in mixed form: `a < b ≤ c` gives `a < c`. -/
theorem keyLess_lt_le {a b c : Bs} (h1 : keyLess a b = true) (h2 : keyLess c b = false) :
    keyLess a c = true := by
  by_cases hbc : keyLess b c = true
  · exact keyLess_trans h1 hbc
  · have : b = c := keyLess_conn (by simpa using hbc) h2
    simpa [← this]

theorem hasPfx_refl (p : Bs) : hasPfx p p = true := by
  induction p with
  | nil => rfl
  | cons x xs ih => simp [hasPfx, ih]

/-- A key that starts with `p` is not below `p`. -/
theorem hasPfx_not_lt {p k : Bs} (h : hasPfx p k = true) : keyLess k p = false := by
  induction p generalizing k with
  | nil => exact keyLess_nil_right k
  | cons x xs ih =>
    cases k with
    | nil => simp [hasPfx] at h
    | cons y ys =>
      simp only [hasPfx, Bool.and_eq_true, decide_eq_true_eq] at h
      obtain ⟨rfl, h2⟩ := h
      simp [keyLess, ih h2]

/-- Keys starting with `p` form an interval: a key `k ≥ p` that does not
start with `p` is above every key that does. -/
theorem hasPfx_interval {p k k' : Bs} (hk : keyLess k p = false) (hnp : hasPfx p k = false)
    (hk' : hasPfx p k' = true) : keyLess k' k = true := by
  induction p generalizing k k' with
  | nil => simp [hasPfx] at hnp
  | cons x xs ih =>
    cases k with
    | nil => simp [keyLess] at hk
    | cons y ys =>
      cases k' with
      | nil => simp [hasPfx] at hk'
      | cons z zs =>
        simp only [hasPfx, Bool.and_eq_true, decide_eq_true_eq] at hk'
        obtain ⟨rfl, hz⟩ := hk'
        by_cases hxy : x = y
        · subst hxy
          have hnp2 : hasPfx xs ys = false := by simpa [hasPfx] using hnp
          have hk2 : keyLess ys xs = false := by simpa [keyLess] using hk
          simp [keyLess, ih hk2 hnp2 hz]
        · by_cases hlt : x < y
          · simp [keyLess, hlt]
          · have : y < x := by omega
            simp [keyLess, this, hxy] at hk

/-! ### Well-formedness: bounded subtrees, reachability, leaf chain -/

/-- Is `k` strictly below the optional upper bound? -/
def inUpper (hi : Option Bs) (k : Bs) : Bool :=
  match hi with
  | none => true
  | some u => keyLess k u

/-- Upper bound for the first child: the first separator, else the page's
own bound. -/
def headHiK (rs : List KeyRec) (hi : Option Bs) : Option Bs :=
  match rs with
  | [] => hi
  | r :: _ => some r.key

def refOkP (ps : List Page) (r : Int) : Bool :=
  decide (0 ≤ r) && decide (r.toNat < ps.length)

/-- Leaf records: non-empty keys, keys in `[lo, hi)` (the first may equal
`lo`, subsequent strictly ascending), value refs in `[0, nv)`. -/
def leafStrict (nv : Nat) : Bs → Option Bs → List KeyRec → Bool
  | _, _, [] => true
  | prev, hi, r :: rest =>
    decide (r.key ≠ []) && keyLess prev r.key && inUpper hi r.key &&
    decide (0 ≤ r.ref) && decide (r.ref.toNat < nv) && leafStrict nv r.key hi rest

def leafRecsOk (nv : Nat) : Bs → Option Bs → List KeyRec → Bool
  | _, _, [] => true
  | lo, hi, r :: rest =>
    decide (r.key ≠ []) && !keyLess r.key lo && inUpper hi r.key &&
    decide (0 ≤ r.ref) && decide (r.ref.toNat < nv) && leafStrict nv r.key hi rest

/-- Children of an internal page: separators strictly ascending above `lo`,
below `hi`, each child a good subtree on its window. -/
def goodKidsAux (f : Int → Bs → Option Bs → Bool) : Bs → Option Bs → List KeyRec → Bool
  | _, _, [] => true
  | lo, hi, r :: rest =>
    keyLess lo r.key && inUpper hi r.key && f r.ref r.key (headHiK rest hi) &&
    goodKidsAux f r.key hi rest

/-- `goodT ps nv h ref lo hi`: the page graph below `ref` is a well-formed
subtree of height `h` whose keys lie in `[lo, hi)`. -/
def goodT (ps : List Page) (nv : Nat) : Nat → Int → Bs → Option Bs → Bool
  | 0, ref, lo, hi =>
    refOkP ps ref && (getP ps ref).isLeaf &&
    leafRecsOk nv lo hi (getP ps ref).recs
  | h + 1, ref, lo, hi =>
    refOkP ps ref && !(getP ps ref).isLeaf && decide (0 ≤ (getP ps ref).first) &&
    goodT ps nv h (getP ps ref).first lo (headHiK (getP ps ref).recs hi) &&
    goodKidsAux (goodT ps nv h) lo hi (getP ps ref).recs

/-- All page references in the subtree. -/
def reach (ps : List Page) : Nat → Int → List Int
  | 0, ref => [ref]
  | h + 1, ref =>
    if (getP ps ref).isLeaf then [ref]
    else ref :: (reach ps h (getP ps ref).first ++
      (getP ps ref).recs.flatMap (fun r => reach ps h r.ref))

/-- In-order list of leaf references of the subtree. -/
def leafRefs (ps : List Page) : Nat → Int → List Int
  | 0, ref => [ref]
  | h + 1, ref =>
    if (getP ps ref).isLeaf then [ref]
    else leafRefs ps h (getP ps ref).first ++
      (getP ps ref).recs.flatMap (fun r => leafRefs ps h r.ref)

/-- In-order list of leaf records of the subtree. -/
def recsUnder (ps : List Page) (h : Nat) (ref : Int) : List KeyRec :=
  (leafRefs ps h ref).flatMap (fun l => (getP ps l).recs)

/-- Leftmost leaf of the subtree. -/
def lml (ps : List Page) : Nat → Int → Int
  | 0, ref => ref
  | h + 1, ref =>
    if (getP ps ref).isLeaf then ref else lml ps h (getP ps ref).first

/-- Sibling links for a sequence of subtrees: each subtree's chain ends at
the leftmost leaf of the next, the last at `nxt`. -/
def linkedSeq (f : Int → Int → Bool) (g : Int → Int) : List Int → Int → Bool
  | [], _ => true
  | [c], nxt => f c nxt
  | c :: c2 :: cs, nxt => f c (g c2) && linkedSeq f g (c2 :: cs) nxt

/-- The leaf chain below `ref` is well linked and its last leaf points to
`nxt`. -/
def linkedB (ps : List Page) : Nat → Int → Int → Bool
  | 0, ref, nxt => (getP ps ref).next == nxt
  | h + 1, ref, nxt =>
    if (getP ps ref).isLeaf then (getP ps ref).next == nxt
    else linkedSeq (linkedB ps h) (lml ps h)
      ((getP ps ref).first :: (getP ps ref).recs.map (fun r => r.ref)) nxt

/-- Full well-formedness at root height `h+1`. -/
def WFh (b : Btree) (h : Nat) : Prop :=
  2 ≤ b.cap ∧ b.cap % 2 = 0 ∧
  goodT b.pages b.values.length (h + 1) b.root [] none = true ∧
  h + 2 ≤ b.pages.length ∧
  (reach b.pages (h + 1) b.root).Nodup ∧
  linkedB b.pages (h + 1) b.root (-1) = true ∧
  b.size = (recsUnder b.pages (h + 1) b.root).length ∧
  b.size = (allLeafRecs b.pages).length ∧
  (∀ p ∈ b.pages, p.size ≤ b.cap) ∧
  (∀ p ∈ b.pages, p.isLeaf = false → ∀ r ∈ p.recs, r.key ∈ (allLeafRecs b.pages).map (fun x => x.key)) ∧
  ((allLeafRecs b.pages).map (fun x => x.ref)).Nodup ∧
  (∀ r ∈ allLeafRecs b.pages, 0 ≤ r.ref ∧ r.ref.toNat < b.values.length) ∧
  (∀ l ∈ leafRefs b.pages (h + 1) b.root,
    (getP b.pages l).recs ≠ [] ∨ (leafRefs b.pages (h + 1) b.root).length = 1)

def WF (b : Btree) : Prop := ∃ h, WFh b h

/-- The abstract sorted association list of the tree. -/
def absL (b : Btree) (h : Nat) : List (Bs × Bs) :=
  (recsUnder b.pages (h + 1) b.root).map (fun r => (r.key, b.values.getD r.ref.toNat []))

instance (b : Btree) (h : Nat) : Decidable (WFh b h) := by
  unfold WFh
  exact inferInstance

/-- The rightmost root-to-leaf spine, following at each page the child
reference returned by `GetKey(Size()-1)` — the descent taken by
`PutNext`. -/
def rightSpine (ps : List Page) : Nat → Int → List Int
  | 0, r => [r]
  | h + 1, r => r :: rightSpine ps h ((getP ps r).getKey ((getP ps r).size - 1)).2

/-- The key of the last record of `A`, or `lo` when `A` is empty: the lower
bound the element after `A` must exceed in a sorted kid list. -/
def lastKeyD (lo : Bs) (A : List KeyRec) : Bs := (A.getLastD ⟨lo, 0⟩).key

/-! ### Frame lemmas -/

/-- Two arenas agree (as full pages) on a set of references. -/
def agreeOn (s : List Int) (ps ps' : List Page) : Prop :=
  ∀ x ∈ s, getP ps' x = getP ps x

theorem flatMapCongr {α β : Type} {l : List α} {f g : α → List β}
    (h : ∀ x ∈ l, f x = g x) : l.flatMap f = l.flatMap g := by
  induction l with
  | nil => rfl
  | cons a as ih =>
    simp only [List.flatMap_cons]
    rw [h a (by simp), ih (fun x hx => h x (by simp [hx]))]

theorem goodKidsAux_mono {f g : Int → Bs → Option Bs → Bool} {rs : List KeyRec}
    (hfg : ∀ r ∈ rs, ∀ k hi2, f r.ref k hi2 = true → g r.ref k hi2 = true) :
    ∀ lo hi, goodKidsAux f lo hi rs = true → goodKidsAux g lo hi rs = true := by
  induction rs with
  | nil => intro lo hi _; rfl
  | cons r rest ih =>
    intro lo hi hgk
    simp only [goodKidsAux, Bool.and_eq_true] at hgk ⊢
    refine ⟨⟨⟨hgk.1.1.1, hgk.1.1.2⟩, hfg r (by simp) _ _ hgk.1.2⟩,
      ih (fun x hx => hfg x (by simp [hx])) _ _ hgk.2⟩

theorem leafRefs_subset_reach (ps : List Page) :
    ∀ (h : Nat) (ref : Int), ∀ x ∈ leafRefs ps h ref, x ∈ reach ps h ref := by
  intro h
  induction h with
  | zero => intro ref x hx; simpa [leafRefs, reach] using hx
  | succ n ihn =>
    intro ref x hx
    by_cases hL : (getP ps ref).isLeaf = true
    · simpa [leafRefs, reach, hL] using hx
    · simp only [leafRefs, if_neg hL, List.mem_append, List.mem_flatMap] at hx
      simp only [reach, if_neg hL, List.mem_cons, List.mem_append, List.mem_flatMap]
      rcases hx with hx | ⟨r, hr, hx⟩
      · exact Or.inr (Or.inl (ihn _ x hx))
      · exact Or.inr (Or.inr ⟨r, hr, ihn _ x hx⟩)

/-- Frame lemma: the invariant machinery below `ref` only reads the pages
in `reach`; on agreement the structural values are unchanged and
well-formedness transfers to the (possibly longer) new arena. -/
theorem frame_agree {ps ps' : List Page} (hlen : ps.length ≤ ps'.length) :
    ∀ (h : Nat) (ref : Int), agreeOn (reach ps h ref) ps ps' →
      reach ps' h ref = reach ps h ref ∧
      leafRefs ps' h ref = leafRefs ps h ref ∧
      lml ps' h ref = lml ps h ref ∧
      (∀ nv lo hi, goodT ps nv h ref lo hi = true → goodT ps' nv h ref lo hi = true) ∧
      (∀ nxt, linkedB ps' h ref nxt = linkedB ps h ref nxt) ∧
      recsUnder ps' h ref = recsUnder ps h ref := by
  intro h
  induction h with
  | zero =>
    intro ref hag
    have he : getP ps' ref = getP ps ref := hag ref (by simp [reach])
    refine ⟨rfl, rfl, rfl, ?_, ?_, ?_⟩
    · intro nv lo hi hg
      simp only [goodT, Bool.and_eq_true, refOkP, decide_eq_true_eq] at hg ⊢
      exact ⟨⟨⟨hg.1.1.1, by omega⟩, by rw [he]; exact hg.1.2⟩, by rw [he]; exact hg.2⟩
    · intro nxt; simp [linkedB, he]
    · simp [recsUnder, leafRefs, he]
  | succ h ih =>
    intro ref hag
    have he : getP ps' ref = getP ps ref := by
      apply hag ref
      by_cases hl : (getP ps ref).isLeaf <;> simp [reach, hl]
    by_cases hl : (getP ps ref).isLeaf = true
    · refine ⟨by simp [reach, he, hl], by simp [leafRefs, he, hl], by simp [lml, he, hl],
        ?_, ?_, ?_⟩
      · intro nv lo hi hg
        simp only [goodT, Bool.and_eq_true] at hg
        simp [hl, hg.1.1.2] at hg
      · intro nxt; simp [linkedB, he, hl]
      · simp [recsUnder, leafRefs, he, hl]
    · have hsub : ∀ x ∈ reach ps h (getP ps ref).first ++
          (getP ps ref).recs.flatMap (fun r => reach ps h r.ref), getP ps' x = getP ps x := by
        intro x hx
        apply hag
        simp [reach, hl, hx]
      have hfirst := ih (getP ps ref).first (fun x hx => hsub x (by simp [hx]))
      have hkid : ∀ r ∈ (getP ps ref).recs,
          reach ps' h r.ref = reach ps h r.ref ∧
          leafRefs ps' h r.ref = leafRefs ps h r.ref ∧
          lml ps' h r.ref = lml ps h r.ref ∧
          (∀ nv lo hi, goodT ps nv h r.ref lo hi = true → goodT ps' nv h r.ref lo hi = true) ∧
          (∀ nxt, linkedB ps' h r.ref nxt = linkedB ps h r.ref nxt) ∧
          recsUnder ps' h r.ref = recsUnder ps h r.ref := by
        intro r hr
        apply ih
        intro x hx
        apply hsub
        simp only [List.mem_append, List.mem_flatMap]
        exact Or.inr ⟨r, hr, hx⟩
      have hl' : ¬ (getP ps' ref).isLeaf = true := by rw [he]; exact hl
      refine ⟨?_, ?_, ?_, ?_, ?_, ?_⟩
      · simp only [reach, he, if_neg hl]
        rw [hfirst.1]
        congr 2
        exact flatMapCongr (fun r hr => (hkid r hr).1)
      · simp only [leafRefs, he, if_neg hl]
        rw [hfirst.2.1]
        congr 1
        exact flatMapCongr (fun r hr => (hkid r hr).2.1)
      · simp only [lml, he, if_neg hl]
        exact hfirst.2.2.1
      · intro nv lo hi hg
        simp only [goodT, Bool.and_eq_true, refOkP, decide_eq_true_eq] at hg ⊢
        obtain ⟨⟨⟨⟨hA, hB⟩, hC⟩, hD⟩, hE⟩ := hg
        refine ⟨⟨⟨⟨⟨hA.1, ?_⟩, ?_⟩, ?_⟩, ?_⟩, ?_⟩
        · omega
        · rw [he]; exact hB
        · rw [he]; exact hC
        · rw [he]
          exact hfirst.2.2.2.1 nv lo (headHiK (getP ps ref).recs hi) hD
        · rw [he]
          exact goodKidsAux_mono (fun r hr k hi2 => (hkid r hr).2.2.2.1 nv k hi2) lo hi hE
      · intro nxt
        simp only [linkedB, he, if_neg hl, if_neg hl']
        have : ∀ (cs : List Int), (∀ c ∈ cs, (∀ n2, linkedB ps' h c n2 = linkedB ps h c n2) ∧
            lml ps' h c = lml ps h c) →
            ∀ n2, linkedSeq (linkedB ps' h) (lml ps' h) cs n2 =
              linkedSeq (linkedB ps h) (lml ps h) cs n2 := by
          intro cs
          induction cs with
          | nil => intro _ n2; rfl
          | cons c cs2 ih2 =>
            intro hcs n2
            cases cs2 with
            | nil => simpa [linkedSeq] using (hcs c (by simp)).1 n2
            | cons c2 cs3 =>
              simp only [linkedSeq]
              rw [(hcs c (by simp)).1, (hcs c2 (by simp)).2,
                ih2 (fun x hx => hcs x (by simp only [List.mem_cons] at hx ⊢; tauto)) n2]
        apply this
        intro c hc
        simp only [List.mem_cons] at hc
        rcases hc with rfl | hc
        · exact ⟨fun n2 => hfirst.2.2.2.2.1 n2, hfirst.2.2.1⟩
        · simp only [List.mem_map] at hc
          obtain ⟨r, hr, rfl⟩ := hc
          exact ⟨fun n2 => (hkid r hr).2.2.2.2.1 n2, (hkid r hr).2.2.1⟩
      · simp only [recsUnder]
        have h1 : leafRefs ps' (h+1) ref = leafRefs ps (h+1) ref := by
          simp only [leafRefs, he, if_neg hl]
          rw [hfirst.2.1]
          congr 1
          exact flatMapCongr (fun r hr => (hkid r hr).2.1)
        rw [h1]
        apply flatMapCongr
        intro l hlm
        rw [hag l (leafRefs_subset_reach ps (h+1) ref l hlm)]

/-! ### Bounds and sortedness under `goodT` -/

@[simp] theorem inUpper_none (k : Bs) : inUpper none k = true := rfl

@[simp] theorem inUpper_some (u : Bs) (k : Bs) : inUpper (some u) k = keyLess k u := rfl

/-- `a ≤ b` and `b` below the bound give `a` below the bound. -/
theorem inUpper_of_le {a b : Bs} {hi : Option Bs} (hle : keyLess b a = false)
    (hb : inUpper hi b = true) : inUpper hi a = true := by
  cases hi with
  | none => rfl
  | some u => exact keyLess_le_lt hle hb

/-- `a < b` and `b` below the bound give `a` below the bound. -/
theorem inUpper_of_lt {a b : Bs} {hi : Option Bs} (hlt : keyLess a b = true)
    (hb : inUpper hi b = true) : inUpper hi a = true :=
  inUpper_of_le (keyLess_asymm hlt) hb

theorem leafStrict_facts {nv : Nat} {hi : Option Bs} :
    ∀ {l : List KeyRec} {prev : Bs}, leafStrict nv prev hi l = true →
      (∀ r ∈ l, keyLess prev r.key = true ∧ inUpper hi r.key = true ∧ r.key ≠ [] ∧
        0 ≤ r.ref ∧ r.ref.toNat < nv) ∧
      List.Chain' (fun a b : KeyRec => keyLess a.key b.key = true) l := by
  intro l
  induction l with
  | nil => intro prev _; exact ⟨by simp, by simp⟩
  | cons r rest ih =>
    intro prev hls
    simp only [leafStrict, Bool.and_eq_true, decide_eq_true_eq] at hls
    obtain ⟨⟨⟨⟨⟨hne, hpl⟩, hup⟩, h0⟩, hnv⟩, hrest⟩ := hls
    obtain ⟨ihb, ihc⟩ := ih hrest
    constructor
    · intro x hx
      rcases List.mem_cons.1 hx with rfl | hx
      · exact ⟨hpl, hup, hne, h0, hnv⟩
      · obtain ⟨hx1, hx2, hx3, hx4, hx5⟩ := ihb x hx
        exact ⟨keyLess_trans hpl hx1, hx2, hx3, hx4, hx5⟩
    · rw [List.chain'_cons']
      refine ⟨?_, ihc⟩
      intro y hy
      exact (ihb y (List.mem_of_mem_head? hy)).1

theorem leafRecsOk_facts {nv : Nat} {hi : Option Bs} {lo : Bs} {l : List KeyRec}
    (h : leafRecsOk nv lo hi l = true) :
    (∀ r ∈ l, keyLess r.key lo = false ∧ inUpper hi r.key = true ∧ r.key ≠ [] ∧
      0 ≤ r.ref ∧ r.ref.toNat < nv) ∧
    List.Chain' (fun a b : KeyRec => keyLess a.key b.key = true) l := by
  cases l with
  | nil => exact ⟨by simp, by simp⟩
  | cons r rest =>
    simp only [leafRecsOk, Bool.and_eq_true, decide_eq_true_eq, Bool.not_eq_true'] at h
    obtain ⟨⟨⟨⟨⟨hne, hlo⟩, hup⟩, h0⟩, hnv⟩, hrest⟩ := h
    obtain ⟨ihb, ihc⟩ := leafStrict_facts hrest
    constructor
    · intro x hx
      rcases List.mem_cons.1 hx with rfl | hx
      · exact ⟨hlo, hup, hne, h0, hnv⟩
      · obtain ⟨hx1, hx2, hx3, hx4, hx5⟩ := ihb x hx
        refine ⟨?_, hx2, hx3, hx4, hx5⟩
        by_contra hc
        rw [Bool.not_eq_false] at hc
        have hxr : keyLess x.key r.key = true := keyLess_lt_le hc hlo
        simp [keyLess_asymm hxr] at hx1
    · rw [List.chain'_cons']
      refine ⟨?_, ihc⟩
      intro y hy
      exact (ihb y (List.mem_of_mem_head? hy)).1

theorem recsUnder_zero (ps : List Page) (ref : Int) :
    recsUnder ps 0 ref = (getP ps ref).recs := by
  simp [recsUnder, leafRefs]

theorem recsUnder_succ {ps : List Page} {ref : Int} (h : Nat)
    (hl : (getP ps ref).isLeaf = false) :
    recsUnder ps (h + 1) ref = recsUnder ps h (getP ps ref).first ++
      (getP ps ref).recs.flatMap (fun r => recsUnder ps h r.ref) := by
  simp only [recsUnder, leafRefs, hl, Bool.false_eq_true, if_false]
  rw [List.flatMap_append, List.flatMap_assoc]

theorem recsUnder_leaf {ps : List Page} {ref : Int} (h : Nat)
    (hl : (getP ps ref).isLeaf = true) :
    recsUnder ps h ref = (getP ps ref).recs := by
  cases h with
  | zero => simp [recsUnder, leafRefs]
  | succ n => simp [recsUnder, leafRefs, hl]

/-- Bounds and sortedness of the in-order record list of a good subtree. -/
theorem goodT_recsUnder {ps : List Page} {nv : Nat} :
    ∀ (h : Nat) (ref : Int) (lo : Bs) (hi : Option Bs), goodT ps nv h ref lo hi = true →
      (∀ x ∈ recsUnder ps h ref,
        keyLess x.key lo = false ∧ inUpper hi x.key = true ∧ x.key ≠ [] ∧
        0 ≤ x.ref ∧ x.ref.toNat < nv) ∧
      List.Chain' (fun a b : KeyRec => keyLess a.key b.key = true) (recsUnder ps h ref) := by
  intro h
  induction h with
  | zero =>
    intro ref lo hi hg
    simp only [goodT, Bool.and_eq_true] at hg
    rw [recsUnder_zero]
    exact leafRecsOk_facts hg.2
  | succ h ih =>
    intro ref lo hi hg
    simp only [goodT, Bool.and_eq_true, Bool.not_eq_true'] at hg
    obtain ⟨⟨⟨⟨hok, hlf⟩, hf0⟩, hfi⟩, hkids⟩ := hg
    have inner : ∀ (rs : List KeyRec) (lo2 : Bs),
        goodKidsAux (goodT ps nv h) lo2 hi rs = true →
        (∀ x ∈ rs.flatMap (fun r => recsUnder ps h r.ref),
          keyLess lo2 x.key = true ∧ inUpper hi x.key = true ∧ x.key ≠ [] ∧
          0 ≤ x.ref ∧ x.ref.toNat < nv) ∧
        List.Chain' (fun a b : KeyRec => keyLess a.key b.key = true)
          (rs.flatMap (fun r => recsUnder ps h r.ref)) ∧
        (∀ r1, rs.head? = some r1 →
          ∀ x ∈ rs.flatMap (fun r => recsUnder ps h r.ref), keyLess x.key r1.key = false) := by
      intro rs
      induction rs with
      | nil => intro lo2 _; exact ⟨by simp, by simp, by simp⟩
      | cons r rest ihr =>
        intro lo2 hgk
        simp only [goodKidsAux, Bool.and_eq_true] at hgk
        obtain ⟨⟨⟨hlo, hup⟩, hgr⟩, hrest⟩ := hgk
        obtain ⟨chb, chc⟩ := ih r.ref r.key (headHiK rest hi) hgr
        obtain ⟨rb, rc, rh⟩ := ihr r.key hrest
        have chunkUp : ∀ x ∈ recsUnder ps h r.ref, inUpper hi x.key = true := by
          intro x hx
          cases rest with
          | nil => exact (chb x hx).2.1
          | cons r2 rest2 =>
            have h2 : keyLess x.key r2.key = true := by
              have := (chb x hx).2.1
              simpa [headHiK] using this
            simp only [goodKidsAux, Bool.and_eq_true] at hrest
            exact inUpper_of_lt h2 hrest.1.1.2
        have memSplit : ∀ x ∈ (r :: rest).flatMap (fun r => recsUnder ps h r.ref),
            x ∈ recsUnder ps h r.ref ∨ x ∈ rest.flatMap (fun r => recsUnder ps h r.ref) := by
          intro x hx
          simpa using hx
        refine ⟨?_, ?_, ?_⟩
        · intro x hx
          rcases memSplit x hx with hx | hx
          · obtain ⟨hb1, _, hb3, hb4, hb5⟩ := chb x hx
            exact ⟨keyLess_lt_le hlo hb1, chunkUp x hx, hb3, hb4, hb5⟩
          · obtain ⟨hb1, hb2, hb3, hb4, hb5⟩ := rb x hx
            exact ⟨keyLess_trans hlo hb1, hb2, hb3, hb4, hb5⟩
        · simp only [List.flatMap_cons]
          rw [List.chain'_append]
          refine ⟨chc, rc, ?_⟩
          intro x hx y hy
          have hxm := List.mem_of_mem_getLast? hx
          have hym := List.mem_of_mem_head? hy
          cases rest with
          | nil => simp at hym
          | cons r2 rest2 =>
            have hx2 : keyLess x.key r2.key = true := by
              have := (chb x hxm).2.1
              simpa [headHiK] using this
            have hy2 : keyLess y.key r2.key = false := rh r2 rfl y hym
            exact keyLess_lt_le hx2 hy2
        · intro r1 hr1 x hx
          have : r1 = r := by simpa using hr1.symm
          subst this
          rcases memSplit x hx with hx | hx
          · exact (chb x hx).1
          · exact keyLess_asymm (rb x hx).1
    rw [recsUnder_succ h hlf]
    obtain ⟨kb, kc, kh⟩ := inner (getP ps ref).recs lo hkids
    obtain ⟨fb, fc⟩ := ih (getP ps ref).first lo (headHiK (getP ps ref).recs hi) hfi
    have fUp : ∀ x ∈ recsUnder ps h (getP ps ref).first, inUpper hi x.key = true := by
      intro x hx
      cases hrecs : (getP ps ref).recs with
      | nil =>
        have := (fb x hx).2.1
        rwa [hrecs] at this
      | cons r1 rest1 =>
        have h2 : keyLess x.key r1.key = true := by
          have := (fb x hx).2.1
          rw [hrecs] at this
          simpa [headHiK] using this
        rw [hrecs] at hkids
        simp only [goodKidsAux, Bool.and_eq_true] at hkids
        exact inUpper_of_lt h2 hkids.1.1.2
    constructor
    · intro x hx
      rcases List.mem_append.1 hx with hx | hx
      · obtain ⟨hb1, _, hb3, hb4, hb5⟩ := fb x hx
        exact ⟨hb1, fUp x hx, hb3, hb4, hb5⟩
      · obtain ⟨hb1, hb2, hb3, hb4, hb5⟩ := kb x hx
        exact ⟨keyLess_asymm hb1, hb2, hb3, hb4, hb5⟩
    · rw [List.chain'_append]
      refine ⟨fc, kc, ?_⟩
      intro x hx y hy
      have hxm := List.mem_of_mem_getLast? hx
      have hym := List.mem_of_mem_head? hy
      cases hrecs : (getP ps ref).recs with
      | nil =>
        rw [hrecs] at hy
        simp at hy
      | cons r1 rest1 =>
        have hx2 : keyLess x.key r1.key = true := by
          have := (fb x hxm).2.1
          rw [hrecs] at this
          simpa [headHiK] using this
        have hy2 : keyLess y.key r1.key = false := by
          apply kh r1
          · rw [hrecs]; rfl
          · exact hym
        exact keyLess_lt_le hx2 hy2

/-! ### Page search specifications -/

theorem findEq_none {k : Bs} : ∀ {rs : List KeyRec},
    findEq k rs = none ↔ ∀ r ∈ rs, r.key ≠ k := by
  intro rs
  induction rs with
  | nil => simp [findEq]
  | cons r rest ih =>
    by_cases hk : r.key = k
    · simp [findEq, hk]
    · simp [findEq, hk, ih]

theorem findEq_some {k : Bs} : ∀ {rs : List KeyRec} {r : KeyRec},
    findEq k rs = some r → r ∈ rs ∧ r.key = k := by
  intro rs
  induction rs with
  | nil => intro r h; simp [findEq] at h
  | cons x rest ih =>
    intro r h
    by_cases hk : x.key = k
    · simp only [findEq, if_pos hk, Option.some_inj] at h
      exact ⟨by simp [← h], by rw [← h]; exact hk⟩
    · simp only [findEq, if_neg hk] at h
      obtain ⟨h1, h2⟩ := ih h
      exact ⟨by simp [h1], h2⟩

theorem findLt_none {k : Bs} {r : KeyRec} {rest : List KeyRec} :
    findLt k (r :: rest) = none ↔ keyLess r.key k = false := by
  by_cases h : keyLess r.key k
  · simp [findLt, h]
  · simp only [Bool.not_eq_true] at h
    simp [findLt, h]

theorem findLt_decomp {k : Bs} : ∀ {rs : List KeyRec} {x : KeyRec},
    findLt k rs = some x →
    ∃ A B, rs = A ++ x :: B ∧ keyLess x.key k = true ∧
      (∀ a ∈ A, keyLess a.key k = true) ∧
      (∀ b1, B.head? = some b1 → keyLess b1.key k = false) := by
  intro rs
  induction rs with
  | nil => intro x h; simp [findLt] at h
  | cons r rest ih =>
    intro x h
    by_cases hr : keyLess r.key k
    · simp only [findLt, if_pos hr] at h
      cases hrest : findLt k rest with
      | some y =>
        rw [hrest] at h
        simp only [Option.some_inj] at h
        subst h
        obtain ⟨A, B, hAB, h1, h2, h3⟩ := ih hrest
        refine ⟨r :: A, B, by simp [hAB], h1, ?_, h3⟩
        intro a ha
        rcases List.mem_cons.1 ha with rfl | ha
        · exact hr
        · exact h2 a ha
      | none =>
        rw [hrest] at h
        simp only [Option.some_inj] at h
        subst h
        refine ⟨[], rest, by simp, hr, by simp, ?_⟩
        intro b1 hb1
        cases rest with
        | nil => simp at hb1
        | cons r2 rest2 =>
          simp only [List.head?_cons, Option.some_inj] at hb1
          subst hb1
          exact findLt_none.1 hrest
    · simp only [findLt, if_neg hr] at h
      simp at h

/-- Decomposition of the kid conditions at a chosen record. -/
theorem goodKidsAux_decomp {f : Int → Bs → Option Bs → Bool} :
    ∀ {A : List KeyRec} {lo : Bs} {hi : Option Bs} {x : KeyRec} {B : List KeyRec},
    goodKidsAux f lo hi (A ++ x :: B) = true →
    keyLess lo x.key = true ∧ inUpper hi x.key = true ∧
    f x.ref x.key (headHiK B hi) = true ∧ goodKidsAux f x.key hi B = true ∧
    (∀ a ∈ A, keyLess lo a.key = true ∧ keyLess a.key x.key = true) := by
  intro A
  induction A with
  | nil =>
    intro lo hi x B h
    simp only [List.nil_append, goodKidsAux, Bool.and_eq_true] at h
    exact ⟨h.1.1.1, h.1.1.2, by simpa using h.1.2, h.2, by simp⟩
  | cons a A2 ih =>
    intro lo hi x B h
    simp only [List.cons_append, goodKidsAux, Bool.and_eq_true] at h
    obtain ⟨⟨⟨hlo, hup⟩, hf⟩, hrest⟩ := h
    obtain ⟨h1, h2, h3, h4, h5⟩ := ih hrest
    refine ⟨keyLess_trans hlo h1, h2, h3, h4, ?_⟩
    intro y hy
    rcases List.mem_cons.1 hy with rfl | hy
    · exact ⟨hlo, h1⟩
    · obtain ⟨hy1, hy2⟩ := h5 y hy
      exact ⟨keyLess_trans hlo hy1, hy2⟩

/-- Bounds on the flattened kid records. -/
theorem kidsFlat_facts {ps : List Page} {nv : Nat} {h : Nat} {hi : Option Bs} :
    ∀ {rs : List KeyRec} {lo2 : Bs},
    goodKidsAux (goodT ps nv h) lo2 hi rs = true →
    (∀ x ∈ rs.flatMap (fun r => recsUnder ps h r.ref), keyLess lo2 x.key = true) ∧
    (∀ r1, rs.head? = some r1 →
      ∀ x ∈ rs.flatMap (fun r => recsUnder ps h r.ref), keyLess x.key r1.key = false) := by
  intro rs
  induction rs with
  | nil => intro lo2 _; exact ⟨by simp, by simp⟩
  | cons r rest ih =>
    intro lo2 hgk
    simp only [goodKidsAux, Bool.and_eq_true] at hgk
    obtain ⟨⟨⟨hlo, hup⟩, hgr⟩, hrest⟩ := hgk
    have chb := (goodT_recsUnder h r.ref r.key (headHiK rest hi) hgr).1
    obtain ⟨rb, rh⟩ := ih hrest
    have memSplit : ∀ x ∈ (r :: rest).flatMap (fun r => recsUnder ps h r.ref),
        x ∈ recsUnder ps h r.ref ∨ x ∈ rest.flatMap (fun r => recsUnder ps h r.ref) := by
      intro x hx; simpa using hx
    constructor
    · intro x hx
      rcases memSplit x hx with hx | hx
      · exact keyLess_lt_le hlo (chb x hx).1
      · exact keyLess_trans hlo (rb x hx)
    · intro r1 hr1 x hx
      have : r1 = r := by simpa using hr1.symm
      subst this
      rcases memSplit x hx with hx | hx
      · exact (chb x hx).1
      · exact keyLess_asymm (rb x hx)

/-- Relative position of the flattened records around a chosen kid. -/
theorem kidsFlat_split {ps : List Page} {nv : Nat} {h : Nat} {hi : Option Bs}
    {A : List KeyRec} {lo : Bs} {x : KeyRec} {B : List KeyRec}
    (hgk : goodKidsAux (goodT ps nv h) lo hi (A ++ x :: B) = true) :
    (∀ y ∈ A.flatMap (fun r => recsUnder ps h r.ref), keyLess y.key x.key = true) ∧
    (∀ y ∈ recsUnder ps h x.ref,
      keyLess y.key x.key = false ∧ inUpper (headHiK B hi) y.key = true) ∧
    (∀ y ∈ B.flatMap (fun r => recsUnder ps h r.ref), keyLess x.key y.key = true) := by
  obtain ⟨h1, h2, h3, h4, h5⟩ := goodKidsAux_decomp hgk
  refine ⟨?_, ?_, ?_⟩
  · intro y hy
    simp only [List.mem_flatMap] at hy
    obtain ⟨a, ha, hy⟩ := hy
    obtain ⟨A1, A2, rfl⟩ := List.append_of_mem ha
    have hgk2 : goodKidsAux (goodT ps nv h) lo hi (A1 ++ a :: (A2 ++ x :: B)) = true := by
      simpa using hgk
    obtain ⟨g1, g2, g3, g4, g5⟩ := goodKidsAux_decomp hgk2
    have yb := (goodT_recsUnder h a.ref a.key (headHiK (A2 ++ x :: B) hi) g3).1 y hy
    cases A2 with
    | nil =>
      have : headHiK ([] ++ x :: B) hi = some x.key := rfl
      rw [this] at yb
      exact yb.2.1
    | cons a2 A3 =>
      have hx2 : keyLess y.key a2.key = true := by
        have : headHiK ((a2 :: A3) ++ x :: B) hi = some a2.key := rfl
        rw [this] at yb
        exact yb.2.1
      have ha2x : keyLess a2.key x.key = true := (h5 a2 (by simp)).2
      exact keyLess_trans hx2 ha2x
  · intro y hy
    have := (goodT_recsUnder h x.ref x.key (headHiK B hi) h3).1 y hy
    exact ⟨this.1, this.2.1⟩
  · intro y hy
    simp only [List.mem_flatMap] at hy
    obtain ⟨bb, hb, hy⟩ := hy
    have hgk3 : goodKidsAux (goodT ps nv h) x.key hi B = true := h4
    have := (kidsFlat_facts hgk3).1 y (List.mem_flatMap.2 ⟨bb, hb, hy⟩)
    exact this

/-! ### The descent path predicate -/

def lastP (l : List Int) : Int := l.getLastD 0

theorem lastP_cons_cons (a b : Int) (l : List Int) : lastP (a :: b :: l) = lastP (b :: l) := by
  simp only [lastP, List.getLastD_cons]

/-- The page's child `c` sits in the page either as the "first" reference
or as a real record with key `lo2`; `(lo2, hi2)` is its key window. -/
def holeAt (p : Page) (lo : Bs) (hi : Option Bs) (c : Int) (lo2 : Bs) (hi2 : Option Bs) : Prop :=
  (c = p.first ∧ lo2 = lo ∧ hi2 = headHiK p.recs hi) ∨
  (∃ A B, p.recs = A ++ ⟨lo2, c⟩ :: B ∧ hi2 = headHiK B hi)

/-- `pathG ps nv key h path lo hi`: `path` is a good root-to-leaf descent
path for `key` through a subtree of height `h` over window `[lo, hi)`. -/
def pathG (ps : List Page) (nv : Nat) (key : Bs) : Nat → List Int → Bs → Option Bs → Prop
  | 0, path, lo, hi =>
    ∃ r, path = [r] ∧ goodT ps nv 0 r lo hi = true ∧
      keyLess key lo = false ∧ inUpper hi key = true
  | h + 1, path, lo, hi =>
    ∃ r c rest lo2 hi2, path = r :: c :: rest ∧
      refOkP ps r = true ∧ (getP ps r).isLeaf = false ∧ 0 ≤ (getP ps r).first ∧
      goodT ps nv h (getP ps r).first lo (headHiK (getP ps r).recs hi) = true ∧
      goodKidsAux (goodT ps nv h) lo hi (getP ps r).recs = true ∧
      keyLess key lo = false ∧ inUpper hi key = true ∧
      holeAt (getP ps r) lo hi c lo2 hi2 ∧
      goodT ps nv h c lo2 hi2 = true ∧
      keyLess key lo2 = false ∧ inUpper hi2 key = true ∧
      pathG ps nv key h (c :: rest) lo2 hi2

/-- A good descent prefix for `key`: like `pathG` but allowed to stop at
any height, the final node being a good subtree containing `key`'s
window. -/
def pathP (ps : List Page) (nv : Nat) (key : Bs) : Nat → List Int → Bs → Option Bs → Prop
  | h, [r], lo, hi =>
    goodT ps nv h r lo hi = true ∧ keyLess key lo = false ∧ inUpper hi key = true
  | h + 1, r :: c :: rest, lo, hi =>
    refOkP ps r = true ∧ (getP ps r).isLeaf = false ∧ 0 ≤ (getP ps r).first ∧
    goodT ps nv h (getP ps r).first lo (headHiK (getP ps r).recs hi) = true ∧
    goodKidsAux (goodT ps nv h) lo hi (getP ps r).recs = true ∧
    keyLess key lo = false ∧ inUpper hi key = true ∧
    ∃ lo2 hi2, holeAt (getP ps r) lo hi c lo2 hi2 ∧
      pathP ps nv key h (c :: rest) lo2 hi2
  | _, _, _, _ => False

theorem chunk_sub_top {ps : List Page} {ref : Int} {h : Nat} {x : KeyRec}
    (hlf : (getP ps ref).isLeaf = false) (hx : x ∈ (getP ps ref).recs) :
    ∀ y ∈ recsUnder ps h x.ref, y ∈ recsUnder ps (h + 1) ref := by
  intro y hy
  rw [recsUnder_succ h hlf]
  exact List.mem_append.2 (Or.inr (List.mem_flatMap.2 ⟨x, hx, hy⟩))

theorem first_sub_top {ps : List Page} {ref : Int} {h : Nat}
    (hlf : (getP ps ref).isLeaf = false) :
    ∀ y ∈ recsUnder ps h (getP ps ref).first, y ∈ recsUnder ps (h + 1) ref := by
  intro y hy
  rw [recsUnder_succ h hlf]
  exact List.mem_append.2 (Or.inl hy)

/-- Correctness of `searchLoop` on a good subtree: it returns whether the
key is present, the matching leaf record when it is, and a good descent
path; the reached leaf omits the key when absent. -/
theorem searchLoop_spec {b : Btree} {nv : Nat} {key : Bs} :
    ∀ (h : Nat) (fuel : Nat) (ref : Int) (lo : Bs) (hi : Option Bs) (acc : List Int),
    goodT b.pages nv h ref lo hi = true →
    keyLess key lo = false → inUpper hi key = true →
    h + 1 ≤ fuel →
    ∃ (tail : List Int) (mem : Bool) (rec : KeyRec),
      searchLoop b key fuel ref (acc ++ [ref]) = some (mem, rec, (acc ++ [ref]) ++ tail) ∧
      pathG b.pages nv key h (ref :: tail) lo hi ∧
      (mem = true ↔ key ∈ (recsUnder b.pages h ref).map (fun x => x.key)) ∧
      (mem = true → rec ∈ recsUnder b.pages h ref ∧ rec.key = key) ∧
      (mem = false → findEq key (getP b.pages (lastP (ref :: tail))).recs = none) := by
  intro h
  induction h with
  | zero =>
    intro fuel ref lo hi acc hg hklo hkhi hfuel
    obtain ⟨f, rfl⟩ : ∃ f, fuel = f + 1 := ⟨fuel - 1, by omega⟩
    have hconj := hg
    simp only [goodT, Bool.and_eq_true] at hconj
    have hlf : (getP b.pages ref).isLeaf = true := hconj.1.2
    refine ⟨[], (((b.pg ref).search key).1), (((b.pg ref).search key).2), ?_, ?_, ?_, ?_, ?_⟩
    · simp [searchLoop, Btree.pg, hlf]
    · show ∃ r, ([ref] : List Int) = [r] ∧ goodT b.pages nv 0 r lo hi = true ∧
        keyLess key lo = false ∧ inUpper hi key = true
      exact ⟨ref, rfl, hg, hklo, hkhi⟩
    · rw [recsUnder_zero]
      simp only [Btree.pg, Page.search]
      cases hfe : findEq key (getP b.pages ref).recs with
      | some r =>
        obtain ⟨hmem, hkeq⟩ := findEq_some hfe
        simp only [List.mem_map]
        exact ⟨fun _ => ⟨r, hmem, hkeq⟩, fun _ => by trivial⟩
      | none =>
        have := findEq_none.1 hfe
        cases hfl : findLt key (getP b.pages ref).recs <;>
          · simp only [List.mem_map]
            constructor
            · intro hfalse; simp at hfalse
            · rintro ⟨y, hy, hyk⟩; exact absurd hyk (this y hy)
    · intro hmem
      rw [recsUnder_zero]
      simp only [Btree.pg, Page.search] at hmem ⊢
      cases hfe : findEq key (getP b.pages ref).recs with
      | some r =>
        obtain ⟨h1, h2⟩ := findEq_some hfe
        simp only [hfe]
        exact ⟨h1, h2⟩
      | none =>
        rw [hfe] at hmem
        cases hfl : findLt key (getP b.pages ref).recs <;> rw [hfl] at hmem <;> simp at hmem
    · intro hmem
      simp only [Btree.pg, Page.search] at hmem
      cases hfe : findEq key (getP b.pages ref).recs with
      | some r => rw [hfe] at hmem; simp at hmem
      | none => simpa [lastP]
  | succ h ih =>
    intro fuel ref lo hi acc hg hklo hkhi hfuel
    obtain ⟨f, rfl⟩ : ∃ f, fuel = f + 1 := ⟨fuel - 1, by omega⟩
    have hconj := hg
    simp only [goodT, Bool.and_eq_true, Bool.not_eq_true'] at hconj
    obtain ⟨⟨⟨⟨hok, hlf⟩, hf0⟩, hfi⟩, hkids⟩ := hconj
    have hFlt := (goodT_recsUnder h (getP b.pages ref).first lo
      (headHiK (getP b.pages ref).recs hi) hfi).1
    -- analyse the page search
    have main : ∃ c lo2 hi2,
        ((b.pg ref).search key).2.ref = c ∧
        holeAt (getP b.pages ref) lo hi c lo2 hi2 ∧
        goodT b.pages nv h c lo2 hi2 = true ∧
        keyLess key lo2 = false ∧ inUpper hi2 key = true ∧
        (∀ y ∈ recsUnder b.pages (h + 1) ref, y.key = key → y ∈ recsUnder b.pages h c) ∧
        (∀ y ∈ recsUnder b.pages h c, y ∈ recsUnder b.pages (h + 1) ref) := by
      simp only [Btree.pg, Page.search]
      cases hfe : findEq key (getP b.pages ref).recs with
      | some x =>
        obtain ⟨hxm, hxk⟩ := findEq_some hfe
        obtain ⟨A, B, hAB⟩ := List.append_of_mem hxm
        have hkids2 : goodKidsAux (goodT b.pages nv h) lo hi (A ++ x :: B) = true := by
          rwa [hAB] at hkids
        obtain ⟨d1, d2, d3, d4, d5⟩ := goodKidsAux_decomp hkids2
        obtain ⟨s1, s2, s3⟩ := kidsFlat_split hkids2
        refine ⟨x.ref, x.key, headHiK B hi, rfl, ?_, d3, by rw [hxk]; exact keyLess_irrefl key, ?_, ?_, ?_⟩
        · exact Or.inr ⟨A, B, by rw [hAB], rfl⟩
        · cases B with
          | nil =>
            rw [← hxk]
            simpa [headHiK] using d2
          | cons b1 B2 =>
            simp only [goodKidsAux, Bool.and_eq_true] at d4
            simp only [headHiK, inUpper_some]
            rw [← hxk]
            exact d4.1.1.1
        · intro y hy hyk
          rw [recsUnder_succ h hlf] at hy
          rcases List.mem_append.1 hy with hy | hy
          · exfalso
            have hup := (hFlt y hy).2.1
            rw [hAB] at hup
            have : keyLess y.key x.key = true := by
              cases A with
              | nil => simpa [headHiK] using hup
              | cons a1 A2 =>
                have h1 : keyLess y.key a1.key = true := by simpa [headHiK] using hup
                exact keyLess_trans h1 (d5 a1 (by simp)).2
            rw [hyk, hxk] at this
            simp [keyLess_irrefl] at this
          · rw [hAB] at hy
            rw [List.flatMap_append, List.flatMap_cons] at hy
            rcases List.mem_append.1 hy with hy | hy
            · exfalso
              have := s1 y hy
              rw [hyk, hxk] at this
              simp [keyLess_irrefl] at this
            · rcases List.mem_append.1 hy with hy | hy
              · exact hy
              · exfalso
                have := s3 y hy
                rw [hyk, hxk] at this
                simp [keyLess_irrefl] at this
        · exact chunk_sub_top hlf hxm
      | none =>
        have hfen := findEq_none.1 hfe
        cases hfl : findLt key (getP b.pages ref).recs with
        | some x =>
          obtain ⟨A, B, hAB, hxlt, hAlt, hBge⟩ := findLt_decomp hfl
          have hkids2 : goodKidsAux (goodT b.pages nv h) lo hi (A ++ x :: B) = true := by
            rwa [hAB] at hkids
          obtain ⟨d1, d2, d3, d4, d5⟩ := goodKidsAux_decomp hkids2
          obtain ⟨s1, s2, s3⟩ := kidsFlat_split hkids2
          have hxne : x.key ≠ key := hfen x (by rw [hAB]; simp)
          refine ⟨x.ref, x.key, headHiK B hi, rfl, ?_, d3, keyLess_asymm hxlt, ?_, ?_, ?_⟩
          · exact Or.inr ⟨A, B, by rw [hAB], rfl⟩
          · cases B with
            | nil => simpa [headHiK] using hkhi
            | cons b1 B2 =>
              have hb1 : keyLess b1.key key = false := hBge b1 rfl
              have hb1ne : b1.key ≠ key := hfen b1 (by rw [hAB]; simp)
              simp only [headHiK, inUpper_some]
              by_cases hc : keyLess key b1.key = true
              · exact hc
              · exact absurd (keyLess_conn hb1 (by simpa using hc)) hb1ne
          · intro y hy hyk
            rw [recsUnder_succ h hlf] at hy
            rcases List.mem_append.1 hy with hy | hy
            · exfalso
              have hup := (hFlt y hy).2.1
              rw [hAB] at hup
              have : keyLess y.key key = true := by
                cases A with
                | nil =>
                  have : keyLess y.key x.key = true := by simpa [headHiK] using hup
                  exact keyLess_trans this hxlt
                | cons a1 A2 =>
                  have h1 : keyLess y.key a1.key = true := by simpa [headHiK] using hup
                  exact keyLess_trans h1 (hAlt a1 (by simp))
              rw [hyk] at this
              simp [keyLess_irrefl] at this
            · rw [hAB] at hy
              rw [List.flatMap_append, List.flatMap_cons] at hy
              rcases List.mem_append.1 hy with hy | hy
              · exfalso
                have := keyLess_trans (s1 y hy) hxlt
                rw [hyk] at this
                simp [keyLess_irrefl] at this
              · rcases List.mem_append.1 hy with hy | hy
                · exact hy
                · exfalso
                  cases B with
                  | nil => simp at hy
                  | cons b1 B2 =>
                    have hyb : keyLess y.key b1.key = false := by
                      have hkf : goodKidsAux (goodT b.pages nv h) x.key hi (b1 :: B2) = true := d4
                      exact (kidsFlat_facts hkf).2 b1 rfl y hy
                    have hb1 : keyLess b1.key key = false := hBge b1 rfl
                    have hb1ne : b1.key ≠ key := hfen b1 (by rw [hAB]; simp)
                    have hkb1 : keyLess key b1.key = true := by
                      by_cases hc : keyLess key b1.key = true
                      · exact hc
                      · exact absurd (keyLess_conn hb1 (by simpa using hc)) hb1ne
                    have : keyLess key y.key = true := keyLess_lt_le hkb1 hyb
                    rw [hyk] at this
                    simp [keyLess_irrefl] at this
          · exact chunk_sub_top hlf (by rw [hAB]; simp)
        | none =>
          refine ⟨(getP b.pages ref).first, lo, headHiK (getP b.pages ref).recs hi, by simp [hlf],
            Or.inl ⟨rfl, rfl, rfl⟩, hfi, hklo, ?_, ?_, first_sub_top hlf⟩
          · cases hrecs : (getP b.pages ref).recs with
            | nil => simpa [headHiK, hrecs] using hkhi
            | cons r1 rest1 =>
              have hr1 : keyLess r1.key key = false := by
                rw [hrecs] at hfl
                exact findLt_none.1 hfl
              have hr1ne : r1.key ≠ key := hfen r1 (by rw [hrecs]; simp)
              simp only [headHiK, inUpper_some]
              by_cases hc : keyLess key r1.key = true
              · exact hc
              · exact absurd (keyLess_conn hr1 (by simpa using hc)) hr1ne
          · intro y hy hyk
            rw [recsUnder_succ h hlf] at hy
            rcases List.mem_append.1 hy with hy | hy
            · exact hy
            · exfalso
              cases hrecs : (getP b.pages ref).recs with
              | nil => rw [hrecs] at hy; simp at hy
              | cons r1 rest1 =>
                rw [hrecs] at hy hkids
                have hyr : keyLess y.key r1.key = false := (kidsFlat_facts hkids).2 r1 rfl y hy
                have hr1 : keyLess r1.key key = false := by
                  rw [hrecs] at hfl
                  exact findLt_none.1 hfl
                have hr1ne : r1.key ≠ key := hfen r1 (by rw [hrecs]; simp)
                have hklt : keyLess key r1.key = true := by
                  by_cases hc : keyLess key r1.key = true
                  · exact hc
                  · exact absurd (keyLess_conn hr1 (by simpa using hc)) hr1ne
                have : keyLess key y.key = true := keyLess_lt_le hklt hyr
                rw [hyk] at this
                simp [keyLess_irrefl] at this
    obtain ⟨c, lo2, hi2, hcref, hhole, hgc, hklo2, hkhi2, hE1, hE2⟩ := main
    have ihr := ih f c lo2 hi2 (acc ++ [ref]) hgc hklo2 hkhi2 (by omega)
    obtain ⟨tail2, mem, rec, hrun, hpath, hiff, hrec, hleaf⟩ := ihr
    refine ⟨c :: tail2, mem, rec, ?_, ?_, ?_, ?_, ?_⟩
    · have : searchLoop b key (f+1) ref (acc ++ [ref]) =
          searchLoop b key f ((b.pg ref).search key).2.ref ((acc ++ [ref]) ++ [((b.pg ref).search key).2.ref]) := by
        simp only [searchLoop]
        rw [if_neg]
        simp only [Btree.pg]
        rw [hlf]
        simp
      rw [this, hcref, hrun]
      simp
    · refine ⟨ref, c, tail2, lo2, hi2, rfl, hok, hlf, by simpa using hf0, hfi,
        hkids, hklo, hkhi, hhole, hgc, hklo2, hkhi2, hpath⟩
    · rw [hiff]
      constructor
      · intro hmem
        simp only [List.mem_map] at hmem ⊢
        obtain ⟨y, hy, hyk⟩ := hmem
        exact ⟨y, hE2 y hy, hyk⟩
      · intro hmem
        simp only [List.mem_map] at hmem ⊢
        obtain ⟨y, hy, hyk⟩ := hmem
        exact ⟨y, hE1 y hy hyk, hyk⟩
    · intro hm
      obtain ⟨h1, h2⟩ := hrec hm
      exact ⟨hE2 rec h1, h2⟩
    · intro hm
      rw [lastP_cons_cons]
      exact hleaf hm

/-! ### Inserting a fresh record into a leaf -/

instance keyRecTrans : IsTrans KeyRec (fun a b : KeyRec => keyLess a.key b.key = true) :=
  ⟨fun _ _ _ hab hbc => keyLess_trans hab hbc⟩

theorem insRecs_decomp {k : Bs} {v : Int} :
    ∀ {rs : List KeyRec},
    (∀ x ∈ rs, x.key ≠ k) →
    List.Chain' (fun a b : KeyRec => keyLess a.key b.key = true) rs →
    ∃ X Y, rs = X ++ Y ∧ insRecs k v rs = X ++ ⟨k, v⟩ :: Y ∧
      (∀ a ∈ X, keyLess a.key k = true) ∧ (∀ c ∈ Y, keyLess k c.key = true) := by
  intro rs
  induction rs with
  | nil => intro _ _; exact ⟨[], [], rfl, rfl, by simp, by simp⟩
  | cons r rest ih =>
    intro hfresh hchain
    by_cases h1 : keyLess k r.key = true
    · refine ⟨[], r :: rest, rfl, by simp [insRecs, h1], by simp, ?_⟩
      intro c hc
      rcases List.mem_cons.1 hc with rfl | hc
      · exact h1
      · have hp := List.chain'_iff_pairwise.1 hchain
        exact keyLess_trans h1 ((List.pairwise_cons.1 hp).1 c hc)
    · have hne : ¬ k = r.key := fun he => hfresh r (by simp) he.symm
      have h2 : keyLess r.key k = true := by
        by_cases hc : keyLess r.key k = true
        · exact hc
        · exact absurd (keyLess_conn (by simpa using h1) (by simpa using hc)) hne
      obtain ⟨X, Y, hXY, hins, hX, hY⟩ :=
        ih (fun x hx => hfresh x (by simp [hx])) (List.chain'_cons'.1 hchain).2
      refine ⟨r :: X, Y, by simp [hXY], ?_, ?_, hY⟩
      · simp only [insRecs]
        rw [if_neg h1, if_neg hne]
        simp [hins]
      · intro a ha
        rcases List.mem_cons.1 ha with rfl | ha
        · exact h2
        · exact hX a ha

theorem leafStrict_mono_nv {nv nv' : Nat} (hnv : nv ≤ nv') {hi : Option Bs} :
    ∀ {rs : List KeyRec} {prev : Bs}, leafStrict nv prev hi rs = true →
      leafStrict nv' prev hi rs = true := by
  intro rs
  induction rs with
  | nil => intro prev _; rfl
  | cons r rest ih =>
    intro prev h
    simp only [leafStrict, Bool.and_eq_true, decide_eq_true_eq] at h ⊢
    exact ⟨⟨⟨⟨⟨h.1.1.1.1.1, h.1.1.1.1.2⟩, h.1.1.1.2⟩, h.1.1.2⟩, by omega⟩, ih h.2⟩

theorem leafStrict_insert {nv nv' : Nat} {hi : Option Bs} {k : Bs} {v : Int}
    (hnv : nv ≤ nv') (hk : k ≠ []) (hkhi : inUpper hi k = true)
    (hv0 : 0 ≤ v) (hvlt : v.toNat < nv') :
    ∀ {rs : List KeyRec} {prev : Bs}, leafStrict nv prev hi rs = true →
    keyLess prev k = true →
    (∀ x ∈ rs, x.key ≠ k) →
    leafStrict nv' prev hi (insRecs k v rs) = true := by
  intro rs
  induction rs with
  | nil =>
    intro prev _ hpk _
    simp [insRecs, leafStrict, hk, hkhi, hv0, hvlt, hpk]
  | cons r rest ih =>
    intro prev h hpk hfresh
    simp only [leafStrict, Bool.and_eq_true, decide_eq_true_eq] at h
    obtain ⟨⟨⟨⟨⟨hne, hprev⟩, hup⟩, h0⟩, hlt⟩, hrest⟩ := h
    by_cases h1 : keyLess k r.key = true
    · simp only [insRecs, if_pos h1, leafStrict, Bool.and_eq_true, decide_eq_true_eq]
      exact ⟨⟨⟨⟨⟨by simpa using hk, hpk⟩, hkhi⟩, hv0⟩, hvlt⟩,
        ⟨⟨⟨⟨⟨hne, h1⟩, hup⟩, h0⟩, by omega⟩, leafStrict_mono_nv hnv hrest⟩⟩
    · have hne2 : ¬ k = r.key := fun he => hfresh r (by simp) he.symm
      have h2 : keyLess r.key k = true := by
        by_cases hc : keyLess r.key k = true
        · exact hc
        · exact absurd (keyLess_conn (by simpa using h1) (by simpa using hc)) hne2
      simp only [insRecs]
      rw [if_neg h1, if_neg hne2]
      simp only [leafStrict, Bool.and_eq_true, decide_eq_true_eq]
      exact ⟨⟨⟨⟨⟨hne, hprev⟩, hup⟩, h0⟩, by omega⟩,
        ih hrest h2 (fun x hx => hfresh x (by simp [hx]))⟩

theorem leafRecsOk_insert {nv nv' : Nat} {hi : Option Bs} {lo k : Bs} {v : Int}
    (hnv : nv ≤ nv') (hk : k ≠ []) (hklo : keyLess k lo = false)
    (hkhi : inUpper hi k = true) (hv0 : 0 ≤ v) (hvlt : v.toNat < nv')
    {rs : List KeyRec} (h : leafRecsOk nv lo hi rs = true)
    (hfresh : ∀ x ∈ rs, x.key ≠ k) :
    leafRecsOk nv' lo hi (insRecs k v rs) = true := by
  cases rs with
  | nil =>
    simp [insRecs, leafRecsOk, leafStrict, hk, hklo, hkhi, hv0, hvlt]
  | cons r rest =>
    simp only [leafRecsOk, Bool.and_eq_true, decide_eq_true_eq, Bool.not_eq_true'] at h
    obtain ⟨⟨⟨⟨⟨hne, hlo⟩, hup⟩, h0⟩, hlt⟩, hrest⟩ := h
    by_cases h1 : keyLess k r.key = true
    · simp only [insRecs, if_pos h1, leafRecsOk, Bool.and_eq_true, decide_eq_true_eq,
        Bool.not_eq_true']
      refine ⟨⟨⟨⟨⟨by simpa using hk, hklo⟩, hkhi⟩, hv0⟩, hvlt⟩, ?_⟩
      simp only [leafStrict, Bool.and_eq_true, decide_eq_true_eq]
      exact ⟨⟨⟨⟨⟨hne, h1⟩, hup⟩, h0⟩, by omega⟩, leafStrict_mono_nv hnv hrest⟩
    · have hne2 : ¬ k = r.key := fun he => hfresh r (by simp) he.symm
      have h2 : keyLess r.key k = true := by
        by_cases hc : keyLess r.key k = true
        · exact hc
        · exact absurd (keyLess_conn (by simpa using h1) (by simpa using hc)) hne2
      simp only [insRecs]
      rw [if_neg h1, if_neg hne2]
      simp only [leafRecsOk, Bool.and_eq_true, decide_eq_true_eq, Bool.not_eq_true']
      exact ⟨⟨⟨⟨⟨hne, hlo⟩, hup⟩, h0⟩, by omega⟩,
        leafStrict_insert hnv hk hkhi hv0 hvlt hrest h2
          (fun x hx => hfresh x (by simp [hx]))⟩

theorem leafRecsOk_mono_nv {nv nv' : Nat} (hnv : nv ≤ nv') {hi : Option Bs} {lo : Bs}
    {rs : List KeyRec} (h : leafRecsOk nv lo hi rs = true) :
    leafRecsOk nv' lo hi rs = true := by
  cases rs with
  | nil => rfl
  | cons r rest =>
    simp only [leafRecsOk, Bool.and_eq_true, decide_eq_true_eq] at h ⊢
    exact ⟨⟨⟨⟨⟨h.1.1.1.1.1, h.1.1.1.1.2⟩, h.1.1.1.2⟩, h.1.1.2⟩, by omega⟩,
      leafStrict_mono_nv hnv h.2⟩

/-- `goodT` is monotone in the size of the value arena. -/
theorem goodT_mono_nv {ps : List Page} {nv nv' : Nat} (hnv : nv ≤ nv') :
    ∀ (h : Nat) (ref : Int) (lo : Bs) (hi : Option Bs),
    goodT ps nv h ref lo hi = true → goodT ps nv' h ref lo hi = true := by
  intro h
  induction h with
  | zero =>
    intro ref lo hi hg
    simp only [goodT, Bool.and_eq_true] at hg ⊢
    exact ⟨⟨hg.1.1, hg.1.2⟩, leafRecsOk_mono_nv hnv hg.2⟩
  | succ h ih =>
    intro ref lo hi hg
    simp only [goodT, Bool.and_eq_true] at hg ⊢
    exact ⟨⟨⟨⟨hg.1.1.1.1, hg.1.1.1.2⟩, hg.1.1.2⟩, ih _ _ _ hg.1.2⟩,
      goodKidsAux_mono (fun r _ k hi2 => ih r.ref k hi2) _ _ hg.2⟩

/-! ### Structural stability under leaf-record updates -/

theorem length_set_eq (ps : List Page) (i : Nat) (p : Page) :
    (ps.set i p).length = ps.length := List.length_set ps i p

/-- Replacing the record list of a leaf page changes neither reachability,
nor the leaf sequence, nor the chain structure. -/
theorem setLeaf_struct {ps : List Page} {i : Nat} {pnew : Page}
    (hlt : i < ps.length)
    (hleaf : (getP ps (i : Int)).isLeaf = true)
    (hnl : pnew.isLeaf = true) (hnn : pnew.next = (getP ps (i : Int)).next) :
    ∀ (h : Nat) (ref : Int),
      reach (ps.set i pnew) h ref = reach ps h ref ∧
      leafRefs (ps.set i pnew) h ref = leafRefs ps h ref ∧
      lml (ps.set i pnew) h ref = lml ps h ref ∧
      (∀ nxt, linkedB (ps.set i pnew) h ref nxt = linkedB ps h ref nxt) := by
  have hget : ∀ x : Int, getP (ps.set i pnew) x = if x.toNat = i then pnew else getP ps x := by
    intro x
    by_cases hx : x.toNat = i
    · rw [if_pos hx]
      simp [getP, List.getD_eq_getElem?_getD, hx, List.getElem?_set_self, hlt]
    · rw [if_neg hx, getP_set_ne ps i pnew x (fun he => hx he.symm)]
  have hleafFlag : ∀ x : Int, (getP (ps.set i pnew) x).isLeaf = (getP ps x).isLeaf := by
    intro x
    rw [hget]
    by_cases hx : x.toNat = i
    · rw [if_pos hx, hnl]
      have : getP ps x = getP ps (i : Int) := by simp [getP, hx]
      rw [this, hleaf]
    · rw [if_neg hx]
  have hnext : ∀ x : Int, (getP (ps.set i pnew) x).next = (getP ps x).next := by
    intro x
    rw [hget]
    by_cases hx : x.toNat = i
    · rw [if_pos hx, hnn]
      have : getP ps x = getP ps (i : Int) := by simp [getP, hx]
      rw [this]
    · rw [if_neg hx]
  have hintern : ∀ x : Int, (getP ps x).isLeaf = false →
      getP (ps.set i pnew) x = getP ps x := by
    intro x hx
    rw [hget, if_neg]
    intro he
    have hpe : getP ps x = getP ps (i : Int) := by simp [getP, he]
    rw [hpe, hleaf] at hx
    simp at hx
  intro h
  induction h with
  | zero =>
    intro ref
    exact ⟨rfl, rfl, rfl, fun nxt => by simp [linkedB, hnext]⟩
  | succ h ih =>
    intro ref
    by_cases hl : (getP ps ref).isLeaf = true
    · refine ⟨?_, ?_, ?_, ?_⟩
      · simp [reach, hleafFlag, hl]
      · simp [leafRefs, hleafFlag, hl]
      · simp [lml, hleafFlag, hl]
      · intro nxt
        simp [linkedB, hleafFlag, hl, hnext]
    · have hl' : (getP ps ref).isLeaf = false := by simpa using hl
      have heq := hintern ref hl'
      refine ⟨?_, ?_, ?_, ?_⟩
      · simp only [reach, heq, hl', Bool.false_eq_true, if_false]
        rw [(ih (getP ps ref).first).1]
        congr 2
        exact flatMapCongr (fun r _ => (ih r.ref).1)
      · simp only [leafRefs, heq, hl', Bool.false_eq_true, if_false]
        rw [(ih (getP ps ref).first).2.1]
        congr 1
        exact flatMapCongr (fun r _ => (ih r.ref).2.1)
      · simp only [lml, heq, hl', Bool.false_eq_true, if_false]
        exact (ih (getP ps ref).first).2.2.1
      · intro nxt
        simp only [linkedB, heq, hl', Bool.false_eq_true, if_false]
        have hseq : ∀ (cs : List Int) (n2 : Int),
            linkedSeq (linkedB (ps.set i pnew) h) (lml (ps.set i pnew) h) cs n2 =
            linkedSeq (linkedB ps h) (lml ps h) cs n2 := by
          intro cs
          induction cs with
          | nil => intro n2; rfl
          | cons c cs2 ih2 =>
            intro n2
            cases cs2 with
            | nil => simp [linkedSeq, (ih c).2.2.2]
            | cons c2 cs3 =>
              simp only [linkedSeq]
              rw [(ih c).2.2.2, (ih c2).2.2.1, ih2]
        exact hseq _ nxt

/-- Every reference reachable in a good subtree is a valid arena index. -/
theorem reach_ok {ps : List Page} {nv : Nat} :
    ∀ (h : Nat) (ref : Int) (lo : Bs) (hi : Option Bs), goodT ps nv h ref lo hi = true →
    ∀ x ∈ reach ps h ref, 0 ≤ x ∧ x.toNat < ps.length := by
  intro h
  induction h with
  | zero =>
    intro ref lo hi hg x hx
    simp only [reach, List.mem_singleton] at hx
    subst hx
    simp only [goodT, Bool.and_eq_true, refOkP, decide_eq_true_eq] at hg
    exact hg.1.1
  | succ h ih =>
    intro ref lo hi hg x hx
    simp only [goodT, Bool.and_eq_true, refOkP, decide_eq_true_eq, Bool.not_eq_true'] at hg
    obtain ⟨⟨⟨⟨hok, hlf⟩, _⟩, hfi⟩, hkids⟩ := hg
    rw [reach, if_neg (by simp [hlf])] at hx
    rcases List.mem_cons.1 hx with rfl | hx
    · exact hok
    · rcases List.mem_append.1 hx with hx | hx
      · exact ih _ _ _ hfi x hx
      · simp only [List.mem_flatMap] at hx
        obtain ⟨r, hr, hx⟩ := hx
        obtain ⟨A, B, hAB⟩ := List.append_of_mem hr
        have hkids2 := hkids
        rw [hAB] at hkids2
        obtain ⟨_, _, d3, _, _⟩ := goodKidsAux_decomp hkids2
        exact ih _ _ _ d3 x hx

/-- The end of a good descent path lies in the subtree's reachable set. -/
theorem pathG_last_mem {ps : List Page} {nv : Nat} {key : Bs} :
    ∀ (h : Nat) (path : List Int) (lo : Bs) (hi : Option Bs) (r2 : Int),
    pathG ps nv key h path lo hi → path.head? = some r2 →
    lastP path ∈ reach ps h r2 := by
  intro h
  induction h with
  | zero =>
    intro path lo hi r2 hp hh
    obtain ⟨r, rfl, _⟩ := hp
    simp only [List.head?_cons, Option.some_inj] at hh
    subst hh
    simp [lastP, reach]
  | succ h ih =>
    intro path lo hi r2 hp hh
    obtain ⟨r, c, rest, lo2, hi2, rfl, hok, hlf, hf0, hfi, hkids, _, _, hhole, hgc, _, _, hsub⟩ := hp
    simp only [List.head?_cons, Option.some_inj] at hh
    subst hh
    have hmem := ih (c :: rest) lo2 hi2 c hsub rfl
    rw [lastP_cons_cons]
    rw [reach, if_neg (by simp [hlf])]
    rcases hhole with ⟨hc, _, _⟩ | ⟨A, B, hAB, _⟩
    · rw [← hc]
      exact List.mem_cons.2 (Or.inr (List.mem_append.2 (Or.inl hmem)))
    · refine List.mem_cons.2 (Or.inr (List.mem_append.2 (Or.inr ?_)))
      simp only [List.mem_flatMap]
      exact ⟨⟨lo2, c⟩, by rw [hAB]; simp, hmem⟩

/-- Rebuilding the kid conditions after replacing the subtree of one kid. -/
theorem goodKidsAux_rebuild {f g : Int → Bs → Option Bs → Bool} :
    ∀ {A : List KeyRec} {lo : Bs} {hi : Option Bs} {x : KeyRec} {B : List KeyRec},
    goodKidsAux f lo hi (A ++ x :: B) = true →
    (∀ a ∈ A, ∀ k hi2, f a.ref k hi2 = true → g a.ref k hi2 = true) →
    g x.ref x.key (headHiK B hi) = true →
    (∀ bb ∈ B, ∀ k hi2, f bb.ref k hi2 = true → g bb.ref k hi2 = true) →
    goodKidsAux g lo hi (A ++ x :: B) = true := by
  intro A
  induction A with
  | nil =>
    intro lo hi x B h hA hx hB
    simp only [List.nil_append, goodKidsAux, Bool.and_eq_true] at h ⊢
    exact ⟨⟨⟨h.1.1.1, h.1.1.2⟩, hx⟩, goodKidsAux_mono hB _ _ h.2⟩
  | cons a A2 ih =>
    intro lo hi x B h hA hx hB
    simp only [List.cons_append, goodKidsAux, Bool.and_eq_true] at h ⊢
    refine ⟨⟨⟨h.1.1.1, ?_⟩, ?_⟩, ih h.2 (fun y hy => hA y (by simp [hy])) hx hB⟩
    · exact h.1.1.2
    · have : headHiK (A2 ++ x :: B) hi = headHiK (A2 ++ x :: B) hi := rfl
      exact hA a (by simp) _ _ h.1.2

theorem getP_set_self2 (ps : List Page) (r : Int) (p : Page) (h0 : 0 ≤ r)
    (hlt : r.toNat < ps.length) : getP (ps.set r.toNat p) r = p := by
  simp [getP, List.getD_eq_getElem?_getD, List.getElem?_set_self, hlt]

theorem goodKidsAux_mem {f : Int → Bs → Option Bs → Bool} {lo : Bs} {hi : Option Bs}
    {rs : List KeyRec} (h : goodKidsAux f lo hi rs = true) :
    ∀ x ∈ rs, ∃ hiw, f x.ref x.key hiw = true := by
  intro x hx
  obtain ⟨A, B, rfl⟩ := List.append_of_mem hx
  obtain ⟨_, _, d3, _, _⟩ := goodKidsAux_decomp h
  exact ⟨headHiK B hi, d3⟩

theorem agree_of_set {ps ps' : List Page} {ℓ : Int} {pn : Page}
    (hps' : ps' = ps.set ℓ.toNat pn) (hl0 : 0 ≤ ℓ) (S : List Int)
    (hdis : ℓ ∉ S) (hpos : ∀ y ∈ S, 0 ≤ y) : agreeOn S ps ps' := by
  intro y hy
  rw [hps']
  apply getP_set_ne
  intro he
  have hy0 := hpos y hy
  have : y = ℓ := by omega
  exact hdis (this ▸ hy)

/-- Inserting a fresh key record into the leaf at the end of a good descent
path preserves well-formedness and splices the record into the in-order
record list at its sorted position. -/
theorem pathG_insert {ps ps' : List Page} {nv nv' : Nat} {key : Bs} {v : Int} {ℓ : Int}
    (hnv : nv ≤ nv') (hv0 : 0 ≤ v) (hvlt : v.toNat < nv') (hkey : key ≠ []) :
    ∀ (h : Nat) (path : List Int) (lo : Bs) (hi : Option Bs) (r2 : Int),
    pathG ps nv key h path lo hi →
    path.head? = some r2 →
    (reach ps h r2).Nodup →
    ℓ = lastP path →
    ps' = ps.set ℓ.toNat { getP ps ℓ with recs := insRecs key v (getP ps ℓ).recs } →
    findEq key (getP ps ℓ).recs = none →
    goodT ps' nv' h r2 lo hi = true ∧
    ∃ L R, recsUnder ps h r2 = L ++ R ∧
      recsUnder ps' h r2 = L ++ ⟨key, v⟩ :: R ∧
      (∀ a ∈ L, keyLess a.key key = true) ∧ (∀ c2 ∈ R, keyLess key c2.key = true) := by
  intro h
  induction h with
  | zero =>
    intro path lo hi r hp hh _ hℓ hps' hfresh
    obtain ⟨r0, rfl, hg, hklo, hkhi⟩ := hp
    obtain rfl : r = r0 := by
      simp only [List.head?_cons, Option.some_inj] at hh
      exact hh.symm
    have hlr : ℓ = r := by simpa [lastP] using hℓ
    rw [hlr] at hps' hfresh
    have hgc := hg
    simp only [goodT, Bool.and_eq_true, refOkP, decide_eq_true_eq] at hgc
    obtain ⟨⟨⟨h0, hlt⟩, hlf⟩, hlr⟩ := hgc
    have hpg : getP ps' r = { getP ps r with recs := insRecs key v (getP ps r).recs } := by
      rw [hps']
      exact getP_set_self2 ps r _ h0 hlt
    obtain ⟨hbnd, hchain⟩ := leafRecsOk_facts hlr
    have hfr : ∀ x ∈ (getP ps r).recs, x.key ≠ key := findEq_none.1 hfresh
    constructor
    · simp only [goodT, Bool.and_eq_true, refOkP, decide_eq_true_eq]
      refine ⟨⟨⟨h0, ?_⟩, ?_⟩, ?_⟩
      · rw [hps', length_set_eq]
        exact hlt
      · rw [hpg]
        exact hlf
      · rw [hpg]
        exact leafRecsOk_insert hnv hkey hklo hkhi hv0 hvlt hlr hfr
    · obtain ⟨X, Y, hXY, hins, hX, hY⟩ := insRecs_decomp hfr hchain
      refine ⟨X, Y, ?_, ?_, hX, hY⟩
      · rw [recsUnder_zero, hXY]
      · rw [recsUnder_zero, hpg]
        exact hins
  | succ h ih =>
    intro path lo hi r hp hh hnd hℓ hps' hfresh
    obtain ⟨r0, c, rest, lo2, hi2, rfl, hok, hlf, hf0, hfi, hkids, hklo, hkhi, hhole,
      hgc, hklo2, hkhi2, hsub⟩ := hp
    obtain rfl : r = r0 := by
      simp only [List.head?_cons, Option.some_inj] at hh
      exact hh.symm
    have hℓ' : ℓ = lastP (c :: rest) := by rw [hℓ, lastP_cons_cons]
    have hokP : 0 ≤ r ∧ r.toNat < ps.length := by
      simpa [refOkP, decide_eq_true_eq] using hok
    have hlmem : ℓ ∈ reach ps h c := by
      rw [hℓ']
      exact pathG_last_mem h (c :: rest) lo2 hi2 c hsub rfl
    have hl0 : 0 ≤ ℓ := (reach_ok h c lo2 hi2 hgc ℓ hlmem).1
    have hndt := hnd
    rw [reach, if_neg (by simp [hlf])] at hndt
    rw [List.nodup_cons] at hndt
    obtain ⟨hrnot, hndTail⟩ := hndt
    have hltail : ℓ ∈ reach ps h (getP ps r).first ++
        (getP ps r).recs.flatMap (fun r3 => reach ps h r3.ref) := by
      rcases hhole with ⟨hc, _, _⟩ | ⟨A, B, hAB, _⟩
      · exact List.mem_append.2 (Or.inl (hc ▸ hlmem))
      · refine List.mem_append.2 (Or.inr ?_)
        simp only [List.mem_flatMap]
        exact ⟨⟨lo2, c⟩, by rw [hAB]; simp, hlmem⟩
    have hrℓ : r ≠ ℓ := fun he => hrnot (he ▸ hltail)
    have hpr : getP ps' r = getP ps r := by
      rw [hps']
      apply getP_set_ne
      intro he
      have : r = ℓ := by omega
      exact hrℓ this
    have hlen' : ps.length ≤ ps'.length := by
      rw [hps', length_set_eq]
    have hlfps' : (getP ps' r).isLeaf = false := by rw [hpr]; exact hlf
    rcases hhole with ⟨hc, hlo2e, hhi2e⟩ | ⟨A, B, hAB, hhi2e⟩
    · -- the hole is the "first" child
      subst hc
      obtain rfl : lo = lo2 := hlo2e.symm
      obtain ⟨hndF, hndK, hdisjF⟩ := List.nodup_append.1 hndTail
      obtain ⟨hgood', L2, R2, hOld, hNew, hL2, hR2⟩ :=
        ih ((getP ps r).first :: rest) lo hi2 (getP ps r).first hsub rfl hndF hℓ' hps' hfresh
      have hframe : ∀ x ∈ (getP ps r).recs,
          (∀ nv0 k hiw, goodT ps nv0 h x.ref k hiw = true → goodT ps' nv0 h x.ref k hiw = true) ∧
          recsUnder ps' h x.ref = recsUnder ps h x.ref := by
        intro x hxm
        obtain ⟨hiw, hgx⟩ := goodKidsAux_mem hkids x hxm
        have hag : agreeOn (reach ps h x.ref) ps ps' := by
          apply agree_of_set hps' hl0
          · intro hin
            exact hdisjF hlmem (List.mem_flatMap.2 ⟨x, hxm, hin⟩)
          · intro y hy
            exact (reach_ok h x.ref _ _ hgx y hy).1
        have hfr2 := frame_agree hlen' h x.ref hag
        exact ⟨fun nv0 k hiw2 => hfr2.2.2.2.1 nv0 k hiw2, hfr2.2.2.2.2.2⟩
      constructor
      · simp only [goodT, Bool.and_eq_true, refOkP, decide_eq_true_eq]
        refine ⟨⟨⟨⟨⟨hokP.1, ?_⟩, ?_⟩, ?_⟩, ?_⟩, ?_⟩
        · rw [hps', length_set_eq]
          exact hokP.2
        · rw [hpr]
          simp [hlf]
        · rw [hpr]
          simpa using hf0
        · rw [hpr, ← hhi2e]
          exact hgood'
        · rw [hpr]
          exact goodKidsAux_mono
            (fun x hxm k hiw hgx => goodT_mono_nv hnv h x.ref k hiw ((hframe x hxm).1 nv k hiw hgx))
            lo hi hkids
      · have hrecs' : recsUnder ps' (h+1) r =
            recsUnder ps' h (getP ps r).first ++
            (getP ps r).recs.flatMap (fun x => recsUnder ps' h x.ref) := by
          have hrw := @recsUnder_succ ps' r h hlfps'
          rw [hrw, hpr]
        have hK : (getP ps r).recs.flatMap (fun x => recsUnder ps' h x.ref) =
            (getP ps r).recs.flatMap (fun x => recsUnder ps h x.ref) :=
          flatMapCongr (fun x hxm => (hframe x hxm).2)
        refine ⟨L2, R2 ++ (getP ps r).recs.flatMap (fun x => recsUnder ps h x.ref),
          ?_, ?_, hL2, ?_⟩
        · rw [recsUnder_succ h hlf, hOld, List.append_assoc]
        · rw [hrecs', hK, hNew]
          simp [List.append_assoc]
        · intro c2 hc2
          rcases List.mem_append.1 hc2 with hc2 | hc2
          · exact hR2 c2 hc2
          · cases hrecs : (getP ps r).recs with
            | nil =>
              rw [hrecs] at hc2
              simp at hc2
            | cons r1 rest1 =>
              rw [hrecs] at hkids hc2
              have hy := (kidsFlat_facts hkids).2 r1 rfl c2 hc2
              have hkr1 : keyLess key r1.key = true := by
                rw [hhi2e, hrecs] at hkhi2
                simpa [headHiK] using hkhi2
              exact keyLess_lt_le hkr1 hy
    · -- the hole is a real record
      have hkids2 : goodKidsAux (goodT ps nv h) lo hi (A ++ ⟨lo2, c⟩ :: B) = true := by
        rw [← hAB]
        exact hkids
      obtain ⟨d1, d2, d3, d4, d5⟩ := goodKidsAux_decomp hkids2
      have hndTail2 := hndTail
      rw [hAB, List.flatMap_append, List.flatMap_cons] at hndTail2
      obtain ⟨hndF, hndRest, hdisjF⟩ := List.nodup_append.1 hndTail2
      obtain ⟨hndFA, hndRest2, hdisjFA⟩ := List.nodup_append.1 hndRest
      obtain ⟨hndC, hndFB, hdisjC⟩ := List.nodup_append.1 hndRest2
      obtain ⟨hgood', L2, R2, hOld, hNew, hL2, hR2⟩ :=
        ih (c :: rest) lo2 hi2 c hsub rfl hndC hℓ' hps' hfresh
      have hframeF : ∀ nv0 k hiw, goodT ps nv0 h (getP ps r).first k hiw = true →
          goodT ps' nv0 h (getP ps r).first k hiw = true := by
        have hag : agreeOn (reach ps h (getP ps r).first) ps ps' := by
          apply agree_of_set hps' hl0
          · intro hin
            exact hdisjF hin (List.mem_append.2 (Or.inr (List.mem_append.2 (Or.inl hlmem))))
          · intro y hy
            exact (reach_ok h _ _ _ hfi y hy).1
        exact fun nv0 k hiw => (frame_agree hlen' h (getP ps r).first hag).2.2.2.1 nv0 k hiw
      have hFeq : recsUnder ps' h (getP ps r).first = recsUnder ps h (getP ps r).first := by
        have hag : agreeOn (reach ps h (getP ps r).first) ps ps' := by
          apply agree_of_set hps' hl0
          · intro hin
            exact hdisjF hin (List.mem_append.2 (Or.inr (List.mem_append.2 (Or.inl hlmem))))
          · intro y hy
            exact (reach_ok h _ _ _ hfi y hy).1
        exact (frame_agree hlen' h (getP ps r).first hag).2.2.2.2.2
      have hframeA : ∀ x ∈ A,
          (∀ nv0 k hiw, goodT ps nv0 h x.ref k hiw = true → goodT ps' nv0 h x.ref k hiw = true) ∧
          recsUnder ps' h x.ref = recsUnder ps h x.ref := by
        intro x hxm
        obtain ⟨hiw, hgx⟩ := goodKidsAux_mem hkids2 x (List.mem_append.2 (Or.inl hxm))
        have hag : agreeOn (reach ps h x.ref) ps ps' := by
          apply agree_of_set hps' hl0
          · intro hin
            exact hdisjFA (List.mem_flatMap.2 ⟨x, hxm, hin⟩)
              (List.mem_append.2 (Or.inl hlmem))
          · intro y hy
            exact (reach_ok h x.ref _ _ hgx y hy).1
        have hfr2 := frame_agree hlen' h x.ref hag
        exact ⟨fun nv0 k hiw2 => hfr2.2.2.2.1 nv0 k hiw2, hfr2.2.2.2.2.2⟩
      have hframeB : ∀ x ∈ B,
          (∀ nv0 k hiw, goodT ps nv0 h x.ref k hiw = true → goodT ps' nv0 h x.ref k hiw = true) ∧
          recsUnder ps' h x.ref = recsUnder ps h x.ref := by
        intro x hxm
        obtain ⟨hiw, hgx⟩ := goodKidsAux_mem hkids2 x (List.mem_append.2 (Or.inr (by simp [hxm])))
        have hag : agreeOn (reach ps h x.ref) ps ps' := by
          apply agree_of_set hps' hl0
          · intro hin
            exact hdisjC hlmem (List.mem_flatMap.2 ⟨x, hxm, hin⟩)
          · intro y hy
            exact (reach_ok h x.ref _ _ hgx y hy).1
        have hfr2 := frame_agree hlen' h x.ref hag
        exact ⟨fun nv0 k hiw2 => hfr2.2.2.2.1 nv0 k hiw2, hfr2.2.2.2.2.2⟩
      constructor
      · simp only [goodT, Bool.and_eq_true, refOkP, decide_eq_true_eq]
        refine ⟨⟨⟨⟨⟨hokP.1, ?_⟩, ?_⟩, ?_⟩, ?_⟩, ?_⟩
        · rw [hps', length_set_eq]
          exact hokP.2
        · rw [hpr]
          simp [hlf]
        · rw [hpr]
          simpa using hf0
        · rw [hpr]
          exact goodT_mono_nv hnv h _ _ _ (hframeF nv lo (headHiK (getP ps r).recs hi) hfi)
        · rw [hpr, hAB]
          apply goodKidsAux_rebuild hkids2
          · intro a ha k hiw hga
            exact goodT_mono_nv hnv h a.ref k hiw ((hframeA a ha).1 nv k hiw hga)
          · rw [← hhi2e]
            exact hgood'
          · intro bb hb k hiw hgb
            exact goodT_mono_nv hnv h bb.ref k hiw ((hframeB bb hb).1 nv k hiw hgb)
      · have hKA : A.flatMap (fun x => recsUnder ps' h x.ref) =
            A.flatMap (fun x => recsUnder ps h x.ref) :=
          flatMapCongr (fun x hxm => (hframeA x hxm).2)
        have hKB : B.flatMap (fun x => recsUnder ps' h x.ref) =
            B.flatMap (fun x => recsUnder ps h x.ref) :=
          flatMapCongr (fun x hxm => (hframeB x hxm).2)
        have hrecs' : recsUnder ps' (h+1) r =
            recsUnder ps h (getP ps r).first ++
            (A.flatMap (fun x => recsUnder ps h x.ref) ++
              ((L2 ++ ⟨key, v⟩ :: R2) ++ B.flatMap (fun x => recsUnder ps h x.ref))) := by
          have hrw := @recsUnder_succ ps' r h hlfps'
          rw [hrw, hpr, hFeq, hAB, List.flatMap_append, List.flatMap_cons, hKA, hKB, hNew]
        have hrecsOld : recsUnder ps (h+1) r =
            recsUnder ps h (getP ps r).first ++
            (A.flatMap (fun x => recsUnder ps h x.ref) ++
              ((L2 ++ R2) ++ B.flatMap (fun x => recsUnder ps h x.ref))) := by
          rw [recsUnder_succ h hlf, hAB, List.flatMap_append, List.flatMap_cons, hOld]
        have hFlt : ∀ y ∈ recsUnder ps h (getP ps r).first, keyLess y.key key = true := by
          intro y hy
          have hup := ((goodT_recsUnder h _ lo (headHiK (getP ps r).recs hi) hfi).1 y hy).2.1
          rw [hAB] at hup
          have hylt : keyLess y.key lo2 = true := by
            cases A with
            | nil => simpa [headHiK] using hup
            | cons a1 A2 =>
              have h1 : keyLess y.key a1.key = true := by simpa [headHiK] using hup
              exact keyLess_trans h1 (d5 a1 (by simp)).2
          exact keyLess_lt_le hylt hklo2
        have hKAlt : ∀ y ∈ A.flatMap (fun x => recsUnder ps h x.ref),
            keyLess y.key key = true := by
          intro y hy
          exact keyLess_lt_le ((kidsFlat_split hkids2).1 y hy) hklo2
        have hKBgt : ∀ y ∈ B.flatMap (fun x => recsUnder ps h x.ref),
            keyLess key y.key = true := by
          intro y hy
          cases B with
          | nil => simp at hy
          | cons b1 B2 =>
            have hyge := (kidsFlat_facts d4).2 b1 rfl y hy
            have hkb1 : keyLess key b1.key = true := by
              rw [hhi2e] at hkhi2
              simpa [headHiK] using hkhi2
            exact keyLess_lt_le hkb1 hyge
        refine ⟨recsUnder ps h (getP ps r).first ++
            (A.flatMap (fun x => recsUnder ps h x.ref) ++ L2),
          R2 ++ B.flatMap (fun x => recsUnder ps h x.ref), ?_, ?_, ?_, ?_⟩
        · rw [hrecsOld]
          simp [List.append_assoc]
        · rw [hrecs']
          simp [List.append_assoc]
        · intro a ha
          rcases List.mem_append.1 ha with ha | ha
          · exact hFlt a ha
          · rcases List.mem_append.1 ha with ha | ha
            · exact hKAlt a ha
            · exact hL2 a ha
        · intro c2 hc2
          rcases List.mem_append.1 hc2 with hc2 | hc2
          · exact hR2 c2 hc2
          · exact hKBgt c2 hc2

/-! ### State-access lemmas for the tree operations -/

@[simp] theorem setPg_cap (b : Btree) (r : Int) (p : Page) : (b.setPg r p).cap = b.cap := rfl

@[simp] theorem setPg_root (b : Btree) (r : Int) (p : Page) : (b.setPg r p).root = b.root := rfl

@[simp] theorem setPg_values (b : Btree) (r : Int) (p : Page) :
    (b.setPg r p).values = b.values := rfl

@[simp] theorem setPg_size (b : Btree) (r : Int) (p : Page) : (b.setPg r p).size = b.size := rfl

@[simp] theorem setPg_pages (b : Btree) (r : Int) (p : Page) :
    (b.setPg r p).pages = b.pages.set r.toNat p := rfl

@[simp] theorem newPg_fst (b : Btree) (l : Bool) : (b.newPg l).1 = (b.pages.length : Int) := rfl

@[simp] theorem newPg_cap (b : Btree) (l : Bool) : (b.newPg l).2.cap = b.cap := rfl

@[simp] theorem newPg_root (b : Btree) (l : Bool) : (b.newPg l).2.root = b.root := rfl

@[simp] theorem newPg_values (b : Btree) (l : Bool) : (b.newPg l).2.values = b.values := rfl

@[simp] theorem newPg_size (b : Btree) (l : Bool) : (b.newPg l).2.size = b.size := rfl

@[simp] theorem newPg_pages (b : Btree) (l : Bool) :
    (b.newPg l).2.pages = b.pages ++ [⟨l, -1, -1, []⟩] := rfl

theorem pg_setPg_ne (b : Btree) (r s : Int) (p : Page) (h : r.toNat ≠ s.toNat) :
    (b.setPg r p).pg s = b.pg s :=
  getP_set_ne b.pages r.toNat p s h

theorem pg_setPg_self (b : Btree) (r : Int) (p : Page) (h0 : 0 ≤ r)
    (hlt : r.toNat < b.pages.length) : (b.setPg r p).pg r = p :=
  getP_set_self2 b.pages r p h0 hlt

theorem pg_newPg_old (b : Btree) (l : Bool) (s : Int) (h : s.toNat < b.pages.length) :
    (b.newPg l).2.pg s = b.pg s :=
  getP_append_lt b.pages [⟨l, -1, -1, []⟩] s h

theorem pg_newPg_new (b : Btree) (l : Bool) :
    (b.newPg l).2.pg (b.pages.length : Int) = ⟨l, -1, -1, []⟩ :=
  getP_append_self b.pages ⟨l, -1, -1, []⟩

/-- `Insert` fails exactly on a full page. -/
theorem insert_none_iff (N : Nat) (p : Page) (k : Bs) (v : Int) :
    p.insert N k v = none ↔ N ≤ p.size := by
  by_cases h : N ≤ p.size
  · simp [Page.insert, h]
  · simp [Page.insert, h]

theorem insert_some (N : Nat) (p : Page) (k : Bs) (v : Int) (h : p.size < N) :
    p.insert N k v = some { p with recs := insRecs k v p.recs } := by
  simp [Page.insert, Nat.not_le.2 h]

theorem getP_append_ne (ps : List Page) (x : Page) (s : Int) (h : s.toNat ≠ ps.length) :
    getP (ps ++ [x]) s = getP ps s := by
  by_cases hlt : s.toNat < ps.length
  · exact getP_append_lt ps [x] s hlt
  · have h1 : ps.length ≤ s.toNat := by omega
    have h2 : (ps ++ [x]).length ≤ s.toNat := by simp; omega
    simp [getP, List.getD_eq_getElem?_getD, List.getElem?_eq_none (by omega : ps.length ≤ s.toNat),
      List.getElem?_eq_none h2]

theorem matchIns_shape (b4 : Btree) (t : Int) (cap : Nat) (k : Bs) (r : Int) :
    ∃ ps2, (match (b4.pg t).insert cap k r with
        | some p' => b4.setPg t p'
        | none => b4) = { b4 with pages := ps2 } ∧
      ps2.length = b4.pages.length ∧
      (∀ s : Int, s.toNat ≠ t.toNat → getP ps2 s = b4.pg s) := by
  cases hins : (b4.pg t).insert cap k r with
  | some p' =>
    refine ⟨b4.pages.set t.toNat p', rfl, by simp, ?_⟩
    intro s hs
    exact getP_set_ne _ _ _ _ (fun he => hs he.symm)
  | none => exact ⟨b4.pages, rfl, rfl, fun s _ => rfl⟩

/-- Shape of the splitting phase: only the target page and the fresh page
are touched, one page is appended, and the returned separator and new
reference are as computed from the pre-state. -/
theorem splitPhase_facts (b : Btree) (key : Bs) (ref : Int) (q : Int) :
    ∃ ps', (splitPhase b key ref q).1 = { b with pages := ps' } ∧
      ps'.length = b.pages.length + 1 ∧
      (splitPhase b key ref q).2.1 = ((b.pg q).splitP b.cap).2.2 ∧
      (splitPhase b key ref q).2.2 = (b.pages.length : Int) ∧
      (∀ s : Int, s.toNat ≠ q.toNat → s.toNat ≠ b.pages.length →
        getP ps' s = b.pg s) := by
  have hL' : ∀ s : Int, s.toNat ≠ b.pages.length →
      ((b.pages.length : Int)).toNat ≠ s.toNat := by
    intro s hs
    simp
    omega
  unfold splitPhase
  simp only [newPg_fst]
  by_cases hkl : keyLess key ((b.pg q).splitP b.cap).2.2 = true
  · rw [if_pos hkl]
    split
    · rename_i p' hins
      refine ⟨_, rfl, ?_, trivial, trivial, ?_⟩
      · simp
      · intro s hs1 hs2
        have hq' : q.toNat ≠ s.toNat := fun he => hs1 he.symm
        simp only [setPg_pages, newPg_pages]
        rw [getP_set_ne _ _ _ _ hq', getP_set_ne _ _ _ _ (hL' s hs2),
          getP_set_ne _ _ _ _ hq', getP_append_ne _ _ _ hs2]
        rfl
    · refine ⟨_, rfl, ?_, trivial, trivial, ?_⟩
      · simp
      · intro s hs1 hs2
        have hq' : q.toNat ≠ s.toNat := fun he => hs1 he.symm
        simp only [setPg_pages, newPg_pages]
        rw [getP_set_ne _ _ _ _ (hL' s hs2), getP_set_ne _ _ _ _ hq',
          getP_append_ne _ _ _ hs2]
        rfl
  · rw [if_neg hkl]
    split
    · rename_i p' hins
      refine ⟨_, rfl, ?_, trivial, trivial, ?_⟩
      · simp
      · intro s hs1 hs2
        have hq' : q.toNat ≠ s.toNat := fun he => hs1 he.symm
        simp only [setPg_pages, newPg_pages]
        rw [getP_set_ne _ _ _ _ (hL' s hs2), getP_set_ne _ _ _ _ (hL' s hs2),
          getP_set_ne _ _ _ _ hq', getP_append_ne _ _ _ hs2]
        rfl
    · refine ⟨_, rfl, ?_, trivial, trivial, ?_⟩
      · simp
      · intro s hs1 hs2
        have hq' : q.toNat ≠ s.toNat := fun he => hs1 he.symm
        simp only [setPg_pages, newPg_pages]
        rw [getP_set_ne _ _ _ _ (hL' s hs2), getP_set_ne _ _ _ _ hq',
          getP_append_ne _ _ _ hs2]
        rfl

/-- Shape of the page-attaching phase of `appendPage`: only the right-edge
page and the fresh page are touched, one page is appended, and the new
reference is the pre-state arena size. -/
theorem appendPhase_facts (b : Btree) (key : Bs) (ref : Int) (q : Int) :
    ∃ ps', (appendPhase b key ref q).1 = { b with pages := ps' } ∧
      ps'.length = b.pages.length + 1 ∧
      (appendPhase b key ref q).2 = (b.pages.length : Int) ∧
      (∀ s : Int, s.toNat ≠ q.toNat → s.toNat ≠ b.pages.length →
        getP ps' s = b.pg s) := by
  have hL' : ∀ s : Int, s.toNat ≠ b.pages.length →
      ((b.pages.length : Int)).toNat ≠ s.toNat := by
    intro s hs
    simp
    omega
  unfold appendPhase
  simp only [newPg_fst]
  by_cases hleaf : (b.pg q).isLeaf = true
  · rw [if_pos hleaf]
    split
    · rename_i p' hins
      refine ⟨_, rfl, ?_, trivial, ?_⟩
      · simp
      · intro s hs1 hs2
        have hq' : q.toNat ≠ s.toNat := fun he => hs1 he.symm
        simp only [setPg_pages, newPg_pages]
        rw [getP_set_ne _ _ _ _ (hL' s hs2), getP_set_ne _ _ _ _ hq',
          getP_append_ne _ _ _ hs2]
        rfl
    · refine ⟨_, rfl, ?_, trivial, ?_⟩
      · simp
      · intro s hs1 hs2
        have hq' : q.toNat ≠ s.toNat := fun he => hs1 he.symm
        simp only [setPg_pages, newPg_pages]
        rw [getP_set_ne _ _ _ _ hq', getP_append_ne _ _ _ hs2]
        rfl
  · rw [if_neg hleaf]
    refine ⟨_, rfl, ?_, trivial, ?_⟩
    · simp
    · intro s hs1 hs2
      have hq' : q.toNat ≠ s.toNat := fun he => hs1 he.symm
      simp only [setPg_pages, newPg_pages]
      rw [getP_set_ne _ _ _ _ (hL' s hs2), getP_set_ne _ _ _ _ hq',
        getP_append_ne _ _ _ hs2]
      rfl

/-- C8: when split propagation reaches a full parent that is the current
root, `split` fails fatally with "insane" unless the recorded path has
length exactly 2; when it does, a fresh internal root whose "first"
reference is the old root is allocated, the tree's root reference moves to
it, and the recursion continues with exactly the two-element path
`[newRoot, oldRoot]`. -/
theorem split_root_promotion (b : Btree) (key : Bs) (ref : Int) (fuel : Nat)
    (pageRefs : List Int)
    (hlen : 2 ≤ pageRefs.length)
    (hpar : parentRefOf pageRefs = b.root)
    (hne1 : b.root.toNat ≠ (lastRef pageRefs).toNat)
    (hne2 : b.root.toNat ≠ b.pages.length)
    (hfull : b.cap ≤ (b.pg b.root).size) :
    (pageRefs.length ≠ 2 →
      splitGo (fuel + 1) b key ref pageRefs = .error (.fatal "insane")) ∧
    (pageRefs.length = 2 →
      ∃ b8, splitGo (fuel + 1) b key ref pageRefs =
          splitGo fuel b8 ((b.pg (lastRef pageRefs)).splitP b.cap).2.2
            ((b.pages.length : Int)) [((b.pages.length + 1 : Nat) : Int), b.root] ∧
        b8.root = ((b.pages.length + 1 : Nat) : Int) ∧
        b8.pg b8.root = ⟨false, b.root, -1, []⟩ ∧
        b8.cap = b.cap) := by
  obtain ⟨ps', hb5, hplen, hsk, hnpr, hpgf⟩ := splitPhase_facts b key ref (lastRef pageRefs)
  have hroot5 : (splitPhase b key ref (lastRef pageRefs)).1.root = b.root := by rw [hb5]
  have hpp : (splitPhase b key ref (lastRef pageRefs)).1.pg (parentRefOf pageRefs) =
      b.pg b.root := by
    rw [hb5, hpar]
    exact hpgf b.root hne1 hne2
  have hins : ((splitPhase b key ref (lastRef pageRefs)).1.pg (parentRefOf pageRefs)).insert b.cap
      ((splitPhase b key ref (lastRef pageRefs)).2.1)
      ((splitPhase b key ref (lastRef pageRefs)).2.2) = none := by
    rw [hpp]
    exact (insert_none_iff _ _ _ _).2 hfull
  constructor
  · intro h2
    simp only [splitGo]
    rw [if_neg (by omega : ¬ pageRefs.length < 2)]
    split
    · rename_i par' hmatch
      rw [hins] at hmatch
      simp at hmatch
    · rw [hroot5, if_pos hpar, if_pos h2]
  · intro h2
    simp only [splitGo]
    rw [if_neg (by omega : ¬ pageRefs.length < 2)]
    split
    · rename_i par' hmatch
      rw [hins] at hmatch
      simp at hmatch
    · rw [hroot5, if_pos hpar, if_neg (by omega : ¬ pageRefs.length ≠ 2)]
      rw [hsk, hnpr, hb5, hpar]
      simp only [newPg_fst]
      rw [hplen]
      refine ⟨_, rfl, ?_, ?_, rfl⟩
      · rfl
      · simp only [Btree.pg, setPg_pages, newPg_pages]
        rw [getP_set_self2 _ _ _ (by omega)
          (by simp only [List.length_append, List.length_singleton, Int.toNat_natCast, hplen]; omega)]
        have hfresh : getP (ps' ++ [(⟨false, -1, -1, []⟩ : Page)])
            ((b.pages.length + 1 : Nat) : Int) = ⟨false, -1, -1, []⟩ := by
          have h := getP_append_self ps' (⟨false, -1, -1, []⟩ : Page)
          rw [hplen] at h
          exact h
        rw [hfresh]

/-- Witness for the root-promotion theorem on a concrete capacity-2 tree
whose root is full. -/
theorem split_root_promotion_witness :
    2 ≤ ([0, 1] : List Int).length ∧
    parentRefOf [0, 1] =
      (⟨2, [⟨false, 1, -1, [⟨[5], 2⟩]⟩, ⟨true, -1, -1, []⟩, ⟨true, -1, -1, []⟩],
        [], 0, 0⟩ : Btree).root ∧
    (⟨2, [⟨false, 1, -1, [⟨[5], 2⟩]⟩, ⟨true, -1, -1, []⟩, ⟨true, -1, -1, []⟩],
        [], 0, 0⟩ : Btree).cap ≤
      ((⟨2, [⟨false, 1, -1, [⟨[5], 2⟩]⟩, ⟨true, -1, -1, []⟩, ⟨true, -1, -1, []⟩],
        [], 0, 0⟩ : Btree).pg 0).size ∧
    (∃ b8, splitGo (3 + 1)
        (⟨2, [⟨false, 1, -1, [⟨[5], 2⟩]⟩, ⟨true, -1, -1, []⟩, ⟨true, -1, -1, []⟩],
          [], 0, 0⟩ : Btree) [7] 5 [0, 1] =
        splitGo 3 b8
          (((⟨2, [⟨false, 1, -1, [⟨[5], 2⟩]⟩, ⟨true, -1, -1, []⟩, ⟨true, -1, -1, []⟩],
            [], 0, 0⟩ : Btree).pg (lastRef [0, 1])).splitP 2).2.2
          ((3 : Nat) : Int) [((3 + 1 : Nat) : Int), 0] ∧
      b8.root = ((3 + 1 : Nat) : Int) ∧
      b8.pg b8.root = ⟨false, 0, -1, []⟩ ∧
      b8.cap = 2) :=
  ⟨by decide, by decide, by decide,
    (split_root_promotion
      (⟨2, [⟨false, 1, -1, [⟨[5], 2⟩]⟩, ⟨true, -1, -1, []⟩, ⟨true, -1, -1, []⟩],
        [], 0, 0⟩ : Btree) [7] 5 3 [0, 1]
      (by decide) (by decide) (by decide) (by decide) (by decide)).2 (by decide)⟩

/-- C7: refuted by a concrete tree.  The recursive `checkPage` pass accepts
(returns no violation for) an internal root whose separator keys `[5], [3]`
are not strictly ascending, and one of whose leaf children holds the key
`[2]`, strictly below its parent separator `[5]`: the loop never advances
the comparison key `prevk` past the position-0 key, and the leaf branch
ignores the parent separator entirely. -/
theorem checkPage_accepts_inconsistent_tree :
    checkPageGo
      (⟨100, [⟨false, 1, -1, [⟨[5], 2⟩, ⟨[3], 3⟩]⟩, ⟨true, -1, 2, [⟨[1], 0⟩]⟩,
        ⟨true, -1, 3, [⟨[2], 1⟩]⟩, ⟨true, -1, -1, [⟨[4], 2⟩]⟩], [], 0, 3⟩ : Btree) 4
      ((⟨100, [⟨false, 1, -1, [⟨[5], 2⟩, ⟨[3], 3⟩]⟩, ⟨true, -1, 2, [⟨[1], 0⟩]⟩,
        ⟨true, -1, 3, [⟨[2], 1⟩]⟩, ⟨true, -1, -1, [⟨[4], 2⟩]⟩], [], 0, 3⟩ : Btree).pg 0)
      false [] 0 0 = .ok none ∧
    ((⟨100, [⟨false, 1, -1, [⟨[5], 2⟩, ⟨[3], 3⟩]⟩, ⟨true, -1, 2, [⟨[1], 0⟩]⟩,
        ⟨true, -1, 3, [⟨[2], 1⟩]⟩, ⟨true, -1, -1, [⟨[4], 2⟩]⟩], [], 0, 3⟩ : Btree).pg 0).isLeaf
      = false ∧
    ((⟨100, [⟨false, 1, -1, [⟨[5], 2⟩, ⟨[3], 3⟩]⟩, ⟨true, -1, 2, [⟨[1], 0⟩]⟩,
        ⟨true, -1, 3, [⟨[2], 1⟩]⟩, ⟨true, -1, -1, [⟨[4], 2⟩]⟩], [], 0, 3⟩ : Btree).pg 0).recs.map
      (fun r => r.key) = [[5], [3]] ∧
    keyLess [5] [3] = false ∧
    ((⟨100, [⟨false, 1, -1, [⟨[5], 2⟩, ⟨[3], 3⟩]⟩, ⟨true, -1, 2, [⟨[1], 0⟩]⟩,
        ⟨true, -1, 3, [⟨[2], 1⟩]⟩, ⟨true, -1, -1, [⟨[4], 2⟩]⟩], [], 0, 3⟩ : Btree).pg 2).isLeaf
      = true ∧
    (⟨[2], 1⟩ : KeyRec) ∈
      ((⟨100, [⟨false, 1, -1, [⟨[5], 2⟩, ⟨[3], 3⟩]⟩, ⟨true, -1, 2, [⟨[1], 0⟩]⟩,
        ⟨true, -1, 3, [⟨[2], 1⟩]⟩, ⟨true, -1, -1, [⟨[4], 2⟩]⟩], [], 0, 3⟩ : Btree).pg 2).recs ∧
    keyLess [2] [5] = true := by
  decide

theorem recsGetD_last : ∀ (l : List KeyRec) (d : KeyRec),
    l.getD (l.length - 1) d = l.getLastD d
  | [], _ => rfl
  | [_], _ => rfl
  | a :: b :: t, d => by
    have ih := recsGetD_last (b :: t) d
    simp only [List.length_cons, Nat.add_sub_cancel] at ih ⊢
    simpa [List.getLastD] using ih

/-- The last child of a good internal page is itself good on the window
`[lastKey, hi)`, and no record key on the page exceeds the last one. -/
theorem goodKidsAux_last {f : Int → Bs → Option Bs → Bool} {lo : Bs} {hi : Option Bs}
    {rs : List KeyRec} (hne : rs ≠ []) (hg : goodKidsAux f lo hi rs = true) :
    f (rs.getLastD dfltRec).ref (rs.getLastD dfltRec).key hi = true ∧
    (∀ a ∈ rs, keyLess (rs.getLastD dfltRec).key a.key = false) := by
  obtain ⟨A, x, hAx⟩ : ∃ A x, rs = A ++ [x] :=
    ⟨rs.dropLast, rs.getLast hne, (List.dropLast_append_getLast hne).symm⟩
  subst hAx
  have hd := @goodKidsAux_decomp f A lo hi x [] hg
  have hlast : (A ++ [x]).getLastD dfltRec = x := by
    simp [List.getLastD_concat]
  rw [hlast]
  refine ⟨hd.2.2.1, ?_⟩
  intro a ha
  rcases List.mem_append.1 ha with ha | ha
  · exact keyLess_asymm (hd.2.2.2.2 a ha).2
  · simp only [List.mem_singleton] at ha
    subst ha
    exact keyLess_irrefl _

/-- One internal step of the `PutNext` descent. -/
theorem pnLoop_step_internal {b : Btree} {key : Bs} {fl : Nat} {r : Int} {path : List Int}
    (hnl : (b.pg r).isLeaf = false) :
    pnLoop b key (fl + 1) r path =
      (if keyLess ((b.pg r).getKey ((b.pg r).size - 1)).1 key = false
       then .error (.fatal "out of order put")
       else pnLoop b key fl ((b.pg r).getKey ((b.pg r).size - 1)).2
         (path ++ [((b.pg r).getKey ((b.pg r).size - 1)).2])) := by
  simp only [pnLoop]
  rw [if_neg (by simp [hnl])]

/-- If an internal page somewhere on the rightmost spine of a good subtree
carries a record key `≥ key`, the `PutNext` descent aborts with the
out-of-order panic. -/
theorem pnLoop_spine_error {b : Btree} {key : Bs} {nv : Nat} (hkey : key ≠ []) :
    ∀ (h fuel : Nat) (r : Int) (lo : Bs) (path : List Int),
    goodT b.pages nv h r lo none = true →
    h + 1 ≤ fuel →
    (∃ s ∈ rightSpine b.pages h r, (getP b.pages s).isLeaf = false ∧
      ∃ rec ∈ (getP b.pages s).recs, keyLess rec.key key = false) →
    pnLoop b key fuel r path = .error (.fatal "out of order put") := by
  intro h
  induction h with
  | zero =>
    intro fuel r lo path hg _ hmem
    simp only [goodT, Bool.and_eq_true] at hg
    obtain ⟨s, hs, hint, _⟩ := hmem
    simp only [rightSpine, List.mem_singleton] at hs
    subst hs
    rw [hg.1.2] at hint
    cases hint
  | succ h ih =>
    intro fuel r lo path hg hfuel hmem
    simp only [goodT, Bool.and_eq_true] at hg
    obtain ⟨⟨⟨⟨href, hnl⟩, hf0⟩, hgf⟩, hkids⟩ := hg
    have hnl' : (getP b.pages r).isLeaf = false := by simpa using hnl
    obtain ⟨fl, rfl⟩ : ∃ fl, fuel = fl + 1 := ⟨fuel - 1, by omega⟩
    obtain ⟨s, hs, hsint, rec, hrec, hreck⟩ := hmem
    rw [pnLoop_step_internal hnl']
    simp only [Btree.pg]
    rcases hrecs : (getP b.pages r).recs with _ | ⟨r0, rest⟩
    · have hkr : (getP b.pages r).getKey ((getP b.pages r).size - 1) =
          ([], (getP b.pages r).first) := by
        simp [Page.getKey, Page.size, hnl', hrecs]
      rw [hkr]
      rw [if_neg (by simp [keyLess_nil_left hkey])]
      rcases List.mem_cons.1 (by simpa only [rightSpine, hkr] using hs) with rfl | hs2
      · rw [hrecs] at hrec
        cases hrec
      · refine ih fl _ lo _ ?_ (by omega) ⟨s, hs2, hsint, rec, hrec, hreck⟩
        rw [hrecs] at hgf
        exact hgf
    · have hkr : (getP b.pages r).getKey ((getP b.pages r).size - 1) =
          (((r0 :: rest).getLastD dfltRec).key, ((r0 :: rest).getLastD dfltRec).ref) := by
        have h1 : (getP b.pages r).size - 1 = rest.length + 1 := by
          simp [Page.size, hnl', hrecs]
        have h2 := recsGetD_last (r0 :: rest) dfltRec
        simp only [List.length_cons, Nat.add_sub_cancel] at h2
        rw [h1]
        unfold Page.getKey
        rw [if_neg (by simp [hnl']), if_neg (by omega), hrecs, Nat.add_sub_cancel, h2]
      rw [hrecs] at hkids
      have hlastKids := goodKidsAux_last (by simp) hkids
      rw [hkr]
      by_cases hchk : keyLess ((r0 :: rest).getLastD dfltRec).key key = false
      · rw [if_pos hchk]
      · rw [if_neg hchk]
        have hchk' : keyLess ((r0 :: rest).getLastD dfltRec).key key = true := by
          revert hchk
          cases keyLess ((r0 :: rest).getLastD dfltRec).key key <;> simp
        apply ih fl _ _ _ hlastKids.1 (by omega)
        rcases List.mem_cons.1 (by simpa only [rightSpine, hkr] using hs) with rfl | hs2
        · exfalso
          have h1 : keyLess ((r0 :: rest).getLastD dfltRec).key rec.key = false :=
            hlastKids.2 rec (hrecs ▸ hrec)
          have h2 : keyLess rec.key key = true := keyLess_le_lt h1 hchk'
          rw [hreck] at h2
          cases h2
        · exact ⟨s, hs2, hsint, rec, hrec, hreck⟩

/-- After a root promotion the next `split` call, on the two-element path
`[newRoot, oldRoot]`, inserts the separator into the fresh root and
returns. -/
theorem splitGo_two_ne_fuel (fl2 : Nat) (B : Btree) (SK : Bs) (NP NR oldR : Int)
    (hNRne1 : NR.toNat ≠ oldR.toNat)
    (hNRne2 : NR.toNat ≠ B.pages.length)
    (hsize : (B.pg NR).size < B.cap) :
    splitGo (fl2 + 1) B SK NP [NR, oldR] ≠ .error .fuel := by
  simp only [splitGo]
  rw [if_neg (by simp : ¬ (([NR, oldR] : List Int).length < 2))]
  have hlast : lastRef [NR, oldR] = oldR := by
    simp [lastRef]
  have hpar2 : parentRefOf [NR, oldR] = NR := by
    simp [parentRefOf]
  rw [hlast, hpar2]
  obtain ⟨ps2, hb2, hplen2, hsk2, hnpr2, hpgf2⟩ := splitPhase_facts B SK NP oldR
  have hppg : (splitPhase B SK NP oldR).1.pg NR = B.pg NR := by
    rw [hb2]
    exact hpgf2 NR hNRne1 hNRne2
  split
  · rename_i par2 hins2
    simp
  · rename_i hins2
    exfalso
    rw [hppg, insert_none_iff] at hins2
    omega

/-- `split` with fuel one past the path length never exhausts its fuel:
each recursive call drops the last path element, except a root promotion,
which recurses once on `[newRoot, oldRoot]` and then succeeds. -/
theorem splitGo_no_fuel :
    ∀ (fuel : Nat) (b : Btree) (key : Bs) (ref : Int) (pageRefs : List Int),
    2 ≤ b.cap → 0 ≤ b.root → b.root.toNat < b.pages.length →
    pageRefs.length + 1 ≤ fuel →
    splitGo fuel b key ref pageRefs ≠ .error .fuel := by
  intro fuel
  induction fuel with
  | zero =>
    intro b key ref pageRefs _ _ _ hfuel
    omega
  | succ fl ih =>
    intro b key ref pageRefs hcap hr0 hrlt hfuel
    simp only [splitGo]
    by_cases hlen : pageRefs.length < 2
    · rw [if_pos hlen]
      simp
    · rw [if_neg hlen]
      obtain ⟨ps', hb5, hplen, hsk, hnpr, hpgf⟩ := splitPhase_facts b key ref (lastRef pageRefs)
      split
      · rename_i par' hins
        simp
      · rename_i hins
        by_cases hpr : parentRefOf pageRefs = (splitPhase b key ref (lastRef pageRefs)).1.root
        · rw [if_pos hpr]
          by_cases h2 : pageRefs.length ≠ 2
          · rw [if_pos h2]
            simp
          · rw [if_neg h2]
            obtain ⟨fl2, rfl⟩ : ∃ fl2, fl = fl2 + 1 := ⟨fl - 1, by omega⟩
            have hpar : parentRefOf pageRefs = b.root := by
              rw [hpr, hb5]
            rw [hsk, hnpr, hb5, hpar]
            simp only [newPg_fst]
            rw [hplen]
            apply splitGo_two_ne_fuel
            · simp
              omega
            · simp only [setPg_pages, newPg_pages, List.length_set, List.length_append,
                List.length_singleton, Int.toNat_natCast, hplen]
              omega
            · simp only [Btree.pg, setPg_pages, newPg_pages]
              rw [getP_set_self2 _ _ _ (by omega)
                (by simp only [List.length_append, List.length_singleton,
                  Int.toNat_natCast, hplen]; omega)]
              have hfresh : getP (ps' ++ [(⟨false, -1, -1, []⟩ : Page)])
                  ((b.pages.length + 1 : Nat) : Int) = ⟨false, -1, -1, []⟩ := by
                have hx := getP_append_self ps' (⟨false, -1, -1, []⟩ : Page)
                rw [hplen] at hx
                exact hx
              rw [hfresh]
              simp only [Page.size]
              simp
              omega
        · rw [if_neg hpr]
          apply ih
          · rw [hb5]
            exact hcap
          · rw [hb5]
            exact hr0
          · rw [hb5]
            show b.root.toNat < ps'.length
            omega
          · have hdl : pageRefs.dropLast.length = pageRefs.length - 1 :=
              List.length_dropLast _
            omega

/-- After a root promotion the next `appendPage` call, on the two-element
path `[newRoot, oldRoot]`, inserts the hoisted key into the fresh root and
returns. -/
theorem appendGo_two_ne_fuel (fl2 : Nat) (B : Btree) (K : Bs) (RF NR oldR : Int)
    (hNRne1 : NR.toNat ≠ oldR.toNat)
    (hNRne2 : NR.toNat ≠ B.pages.length)
    (hsize : (B.pg NR).size < B.cap) :
    appendPageGo (fl2 + 1) B K RF [NR, oldR] ≠ .error .fuel := by
  simp only [appendPageGo]
  rw [if_neg (by simp : ¬ (([NR, oldR] : List Int).length < 2))]
  have hlast : lastRef [NR, oldR] = oldR := by
    simp [lastRef]
  have hpar2 : parentRefOf [NR, oldR] = NR := by
    simp [parentRefOf]
  rw [hlast, hpar2]
  obtain ⟨ps2, hb2, hplen2, hnpr2, hpgf2⟩ := appendPhase_facts B K RF oldR
  have hppg : (appendPhase B K RF oldR).1.pg NR = B.pg NR := by
    rw [hb2]
    exact hpgf2 NR hNRne1 hNRne2
  split
  · rename_i par2 hins2
    simp
  · rename_i hins2
    exfalso
    rw [hppg, insert_none_iff] at hins2
    omega

/-- `appendPage` with fuel one past the path length never exhausts its
fuel: each recursive call drops the last path element, except a root
promotion, which recurses once on `[newRoot, oldRoot]` and then
succeeds. -/
theorem appendGo_no_fuel :
    ∀ (fuel : Nat) (b : Btree) (key : Bs) (ref : Int) (pageRefs : List Int),
    2 ≤ b.cap → 0 ≤ b.root → b.root.toNat < b.pages.length →
    pageRefs.length + 1 ≤ fuel →
    appendPageGo fuel b key ref pageRefs ≠ .error .fuel := by
  intro fuel
  induction fuel with
  | zero =>
    intro b key ref pageRefs _ _ _ hfuel
    omega
  | succ fl ih =>
    intro b key ref pageRefs hcap hr0 hrlt hfuel
    simp only [appendPageGo]
    by_cases hlen : pageRefs.length < 2
    · rw [if_pos hlen]
      simp
    · rw [if_neg hlen]
      obtain ⟨ps', hb3, hplen, hnpr, hpgf⟩ := appendPhase_facts b key ref (lastRef pageRefs)
      split
      · rename_i par' hins
        simp
      · rename_i hins
        by_cases hpr : parentRefOf pageRefs = (appendPhase b key ref (lastRef pageRefs)).1.root
        · rw [if_pos hpr]
          obtain ⟨fl2, rfl⟩ : ∃ fl2, fl = fl2 + 1 := ⟨fl - 1, by omega⟩
          rw [hnpr, hb3]
          simp only [newPg_fst, setPg_root, newPg_root]
          rw [hplen]
          apply appendGo_two_ne_fuel
          · simp
            omega
          · simp only [setPg_pages, newPg_pages, List.length_set, List.length_append,
              List.length_singleton, Int.toNat_natCast, hplen]
            omega
          · simp only [Btree.pg, setPg_pages, newPg_pages]
            rw [getP_set_self2 _ _ _ (by omega)
              (by simp only [List.length_append, List.length_singleton,
                Int.toNat_natCast, hplen]; omega)]
            have hfresh : getP (ps' ++ [(⟨false, -1, -1, []⟩ : Page)])
                ((b.pages.length + 1 : Nat) : Int) = ⟨false, -1, -1, []⟩ := by
              have hx := getP_append_self ps' (⟨false, -1, -1, []⟩ : Page)
              rw [hplen] at hx
              exact hx
            rw [hfresh]
            simp only [Page.size]
            simp
            omega
        · rw [if_neg hpr]
          apply ih
          · rw [hb3]
            exact hcap
          · rw [hb3]
            exact hr0
          · rw [hb3]
            show b.root.toNat < ps'.length
            omega
          · have hdl : pageRefs.dropLast.length = pageRefs.length - 1 :=
              List.length_dropLast _
            omega

/-- C10: with fuel one past the recorded path length — the budget the
callers `Put` and `PutNext` grant — the recursive `split` and `appendPage`
procedures never exhaust their fuel: every recursive call drops the last
path element, except a root promotion, which recurses once on the
two-element path `[newRoot, oldRoot]` whose freshly allocated empty root
accepts the insert and ends the recursion. -/
theorem split_appendPage_terminate (b : Btree) (key : Bs) (ref : Int) (pageRefs : List Int)
    (hcap : 2 ≤ b.cap) (hr0 : 0 ≤ b.root) (hrlt : b.root.toNat < b.pages.length) :
    splitGo (pageRefs.length + 1) b key ref pageRefs ≠ .error .fuel ∧
    appendPageGo (pageRefs.length + 1) b key ref pageRefs ≠ .error .fuel :=
  ⟨splitGo_no_fuel _ b key ref pageRefs hcap hr0 hrlt (le_refl _),
   appendGo_no_fuel _ b key ref pageRefs hcap hr0 hrlt (le_refl _)⟩

/-- Witness for the termination theorem on the fresh tree and the path its
own search records. -/
theorem split_appendPage_terminate_witness :
    2 ≤ (newBtree 100).cap ∧ 0 ≤ (newBtree 100).root ∧
    (newBtree 100).root.toNat < (newBtree 100).pages.length ∧
    (splitGo (([0, 1] : List Int).length + 1) (newBtree 100) [5] 0 [0, 1] ≠ .error .fuel ∧
     appendPageGo (([0, 1] : List Int).length + 1) (newBtree 100) [5] 0 [0, 1] ≠ .error .fuel) :=
  ⟨by decide, by decide, by decide,
    split_appendPage_terminate (newBtree 100) [5] 0 [0, 1] (by decide) (by decide) (by decide)⟩

/-- C6 counterexample: on a fresh capacity-100 tree, `PutNext [98]` then
`PutNext [97]` succeeds and inserts the out-of-order key `[97]` instead of
failing fatally: no internal page on the rightmost spine carries a
separator `≥ [97]`, so the descent's per-page check never fires. -/
theorem putNext_accepts_out_of_order_key :
    ∃ b1 b2 : Btree,
      (newBtree 100).PutNextGo (some [98]) (some [1]) = .ok b1 ∧
      b1.PutNextGo (some [97]) (some [2]) = .ok b2 ∧
      keyLess [98] [97] = false ∧
      b1.GetGo (some [98]) = .ok (true, [1]) ∧
      b2.GetGo (some [97]) = .ok (true, [2]) ∧
      b2.GetGo (some [98]) = .ok (true, [1]) := by
  refine ⟨_, _, rfl, rfl, by decide, ?_, ?_, ?_⟩ <;> decide

/-- C6 (amended): on a well-formed tree, `PutNext` with a non-empty key
fails fatally with "out of order put" whenever some internal page on the
rightmost spine carries a separator `≥` the key — the check fires only on
separators hoisted into internal pages, not on the keys still sitting in
the rightmost leaf. -/
theorem putNext_out_of_order_fatal (b : Btree) (h : Nat) (k v : Bs)
    (hwf : WFh b h) (hk : k ≠ [])
    (hmem : ∃ s ∈ rightSpine b.pages (h + 1) b.root, (getP b.pages s).isLeaf = false ∧
      ∃ rec ∈ (getP b.pages s).recs, keyLess rec.key k = false) :
    b.PutNextGo (some k) (some v) = .error (.fatal "out of order put") := by
  obtain ⟨-, -, hgood, hlen, -⟩ := hwf
  have hpn := pnLoop_spine_error hk (h + 1) b.pages.length b.root [] [b.root] hgood
    (by omega) hmem
  simp only [Btree.PutNextGo]
  rw [if_neg hk, hpn]

/-- Witness for the amended out-of-order theorem on a concrete well-formed
height-1 tree whose root separator is `[5]` and the offending key `[4]`. -/
theorem putNext_out_of_order_fatal_witness :
    WFh (⟨2, [⟨false, 1, -1, [⟨[5], 2⟩]⟩, ⟨true, -1, 2, [⟨[3], 0⟩]⟩,
        ⟨true, -1, -1, [⟨[5], 1⟩]⟩], [[10], [20]], 0, 2⟩ : Btree) 0 ∧
    ([4] : Bs) ≠ [] ∧
    (⟨2, [⟨false, 1, -1, [⟨[5], 2⟩]⟩, ⟨true, -1, 2, [⟨[3], 0⟩]⟩,
        ⟨true, -1, -1, [⟨[5], 1⟩]⟩], [[10], [20]], 0, 2⟩ : Btree).PutNextGo
      (some [4]) (some [7]) = .error (.fatal "out of order put") :=
  ⟨by decide, by decide,
    putNext_out_of_order_fatal
      (⟨2, [⟨false, 1, -1, [⟨[5], 2⟩]⟩, ⟨true, -1, 2, [⟨[3], 0⟩]⟩,
        ⟨true, -1, -1, [⟨[5], 1⟩]⟩], [[10], [20]], 0, 2⟩ : Btree) 0 [4] [7]
      (by decide) (by decide)
      ⟨0, by decide, by decide, ⟨[5], 2⟩, by decide, by decide⟩⟩

/-! ### Kid-list surgery: splitting and rejoining sorted child lists -/

theorem headHiK_append (A : List KeyRec) (x : KeyRec) (B : List KeyRec) (hi : Option Bs) :
    headHiK (A ++ x :: B) hi = headHiK A (some x.key) := by
  cases A <;> rfl

theorem lastKeyD_cons (lo : Bs) (a : KeyRec) (A : List KeyRec) :
    lastKeyD lo (a :: A) = lastKeyD a.key A := by
  cases A with
  | nil => rfl
  | cons b A' => simp only [lastKeyD, List.getLastD_cons]

theorem lastKeyD_ge {f : Int → Bs → Option Bs → Bool} {hi : Option Bs} :
    ∀ {rs : List KeyRec} {lo : Bs}, goodKidsAux f lo hi rs = true →
    keyLess (lastKeyD lo rs) lo = false := by
  intro rs
  induction rs with
  | nil =>
    intro lo _
    simp [lastKeyD, keyLess_irrefl]
  | cons r rest ih =>
    intro lo hg
    simp only [goodKidsAux, Bool.and_eq_true] at hg
    obtain ⟨⟨⟨hlt, _⟩, _⟩, hrest⟩ := hg
    rw [lastKeyD_cons]
    have h1 : keyLess (lastKeyD r.key rest) r.key = false := ih hrest
    exact keyLess_asymm (keyLess_lt_le hlt h1)

/-- Splitting the kid conditions at a distinguished record: the prefix is
good on the narrowed window up to the record's key, and the suffix above
it. -/
theorem goodKidsAux_split2 {f : Int → Bs → Option Bs → Bool} :
    ∀ {A : List KeyRec} {lo : Bs} {hi : Option Bs} {x : KeyRec} {B : List KeyRec},
    goodKidsAux f lo hi (A ++ x :: B) = true ↔
      (goodKidsAux f lo (some x.key) A = true ∧
       keyLess (lastKeyD lo A) x.key = true ∧
       inUpper hi x.key = true ∧
       f x.ref x.key (headHiK B hi) = true ∧
       goodKidsAux f x.key hi B = true) := by
  intro A
  induction A with
  | nil =>
    intro lo hi x B
    simp only [List.nil_append, goodKidsAux, Bool.and_eq_true, lastKeyD, List.getLastD]
    constructor
    · rintro ⟨⟨⟨h1, h2⟩, h3⟩, h4⟩
      exact ⟨trivial, h1, h2, h3, h4⟩
    · rintro ⟨-, h1, h2, h3, h4⟩
      exact ⟨⟨⟨h1, h2⟩, h3⟩, h4⟩
  | cons a A2 ih =>
    intro lo hi x B
    simp only [List.cons_append, List.append_eq, goodKidsAux, Bool.and_eq_true, headHiK_append, lastKeyD_cons]
    constructor
    · rintro ⟨⟨⟨h1, h2⟩, h3⟩, h4⟩
      obtain ⟨g1, g2, g3, g4, g5⟩ := ih.1 h4
      have hax : keyLess a.key x.key = true :=
        keyLess_le_lt (lastKeyD_ge g1) g2
      exact ⟨⟨⟨⟨h1, by simpa using hax⟩, h3⟩, g1⟩, g2, g3, g4, g5⟩
    · rintro ⟨⟨⟨⟨h1, h2⟩, h3⟩, g1⟩, g2, g3, g4, g5⟩
      have hax : keyLess a.key x.key = true := by simpa using h2
      refine ⟨⟨⟨h1, inUpper_of_lt hax g3⟩, h3⟩, ih.2 ⟨g1, g2, g3, g4, g5⟩⟩

/-- `Insert` with a key strictly between two sorted blocks splices the
record exactly between them. -/
theorem insRecs_sorted_mid {k : Bs} {v : Int} :
    ∀ {A B : List KeyRec},
    (∀ a ∈ A, keyLess a.key k = true) →
    (∀ r1, B.head? = some r1 → keyLess k r1.key = true) →
    insRecs k v (A ++ B) = A ++ ⟨k, v⟩ :: B := by
  intro A
  induction A with
  | nil =>
    intro B _ hB
    cases B with
    | nil => rfl
    | cons b bs =>
      simp only [List.nil_append, insRecs]
      rw [if_pos (hB b rfl)]
  | cons a A2 ih =>
    intro B hA hB
    have hak : keyLess a.key k = true := hA a (by simp)
    simp only [List.cons_append, List.append_eq, insRecs]
    rw [if_neg (by simp [keyLess_asymm hak]),
      if_neg (fun he => by rw [he] at hak; rw [keyLess_irrefl] at hak; cases hak),
      ih (fun y hy => hA y (by simp [hy])) hB]

/-- Inserting a key below the right block stays in the left block. -/
theorem insRecs_append_left {k : Bs} {v : Int} {B : List KeyRec}
    (hB : ∀ r1, B.head? = some r1 → keyLess k r1.key = true) :
    ∀ (A : List KeyRec), insRecs k v (A ++ B) = insRecs k v A ++ B := by
  intro A
  induction A with
  | nil =>
    cases B with
    | nil => rfl
    | cons b bs =>
      simp only [List.nil_append, insRecs]
      rw [if_pos (hB b rfl)]
      rfl
  | cons a A2 ih =>
    simp only [List.cons_append, List.append_eq, insRecs]
    by_cases h1 : keyLess k a.key = true
    · rw [if_pos h1, if_pos h1]
      rfl
    · rw [if_neg h1, if_neg h1]
      by_cases h2 : k = a.key
      · rw [if_pos h2, if_pos h2]
        rfl
      · rw [if_neg h2, if_neg h2, ih]
        rfl

/-- Inserting a key above the left block stays in the right block. -/
theorem insRecs_append_right {k : Bs} {v : Int} {B : List KeyRec} :
    ∀ {A : List KeyRec}, (∀ a ∈ A, keyLess a.key k = true) →
    insRecs k v (A ++ B) = A ++ insRecs k v B := by
  intro A
  induction A with
  | nil => intro _; rfl
  | cons a A2 ih =>
    intro hA
    have hak : keyLess a.key k = true := hA a (by simp)
    simp only [List.cons_append, List.append_eq, insRecs]
    rw [if_neg (by simp [keyLess_asymm hak]),
      if_neg (fun he => by rw [he] at hak; rw [keyLess_irrefl] at hak; cases hak),
      ih (fun y hy => hA y (by simp [hy]))]

/-- Splitting a strict leaf chain at a distinguished record. -/
theorem leafStrict_split {nv : Nat} :
    ∀ {l1 : List KeyRec} {prev : Bs} {hi : Option Bs} {x : KeyRec} {l2 : List KeyRec},
    leafStrict nv prev hi (l1 ++ x :: l2) = true →
    leafStrict nv prev (some x.key) l1 = true ∧
    decide (x.key ≠ []) = true ∧ inUpper hi x.key = true ∧
    decide (0 ≤ x.ref) = true ∧ decide (x.ref.toNat < nv) = true ∧
    leafStrict nv x.key hi l2 = true ∧
    (∀ a ∈ l1, keyLess a.key x.key = true) ∧
    keyLess prev x.key = true := by
  intro l1
  induction l1 with
  | nil =>
    intro prev hi x l2 hl
    simp only [List.nil_append, leafStrict, Bool.and_eq_true] at hl
    obtain ⟨⟨⟨⟨⟨hk, hpx⟩, hup⟩, hr0⟩, hrlt⟩, hch⟩ := hl
    exact ⟨rfl, hk, hup, hr0, hrlt, hch, by simp, hpx⟩
  | cons a l1' ih =>
    intro prev hi x l2 hl
    simp only [List.cons_append, List.append_eq, leafStrict, Bool.and_eq_true] at hl
    obtain ⟨⟨⟨⟨⟨hk, hpa⟩, hup⟩, hr0⟩, hrlt⟩, hch⟩ := hl
    obtain ⟨s1, s2, s3, s4, s5, s6, s7, s8⟩ := ih hch
    refine ⟨?_, s2, s3, s4, s5, s6, ?_, keyLess_trans hpa s8⟩
    · simp only [leafStrict, Bool.and_eq_true]
      exact ⟨⟨⟨⟨⟨hk, hpa⟩, by simpa using s8⟩, hr0⟩, hrlt⟩, s1⟩
    · intro y hy
      rcases List.mem_cons.1 hy with rfl | hy2
      · exact s8
      · exact s7 y hy2

/-- Splitting a good leaf record list at a nonempty suffix: the prefix is
good up to the suffix's first key, the suffix good from it. -/
theorem leafRecsOk_append_split {nv : Nat} :
    ∀ {l1 : List KeyRec} {lo : Bs} {hi : Option Bs} {x : KeyRec} {l2 : List KeyRec},
    leafRecsOk nv lo hi (l1 ++ x :: l2) = true →
    leafRecsOk nv lo (some x.key) l1 = true ∧
    leafRecsOk nv x.key hi (x :: l2) = true ∧
    (∀ a ∈ l1, keyLess a.key x.key = true) := by
  intro l1
  cases l1 with
  | nil =>
    intro lo hi x l2 hl
    simp only [List.nil_append, leafRecsOk, Bool.and_eq_true] at hl
    obtain ⟨⟨⟨⟨⟨hk, hlo⟩, hup⟩, hr0⟩, hrlt⟩, hch⟩ := hl
    refine ⟨rfl, ?_, by simp⟩
    simp only [leafRecsOk, Bool.and_eq_true]
    exact ⟨⟨⟨⟨⟨hk, by simp [keyLess_irrefl]⟩, hup⟩, hr0⟩, hrlt⟩, hch⟩
  | cons a l1' =>
    intro lo hi x l2 hl
    simp only [List.cons_append, List.append_eq, leafRecsOk, Bool.and_eq_true] at hl
    obtain ⟨⟨⟨⟨⟨hk, hlo⟩, hup⟩, hr0⟩, hrlt⟩, hch⟩ := hl
    obtain ⟨s1, s2, s3, s4, s5, s6, s7, s8⟩ := leafStrict_split hch
    refine ⟨?_, ?_, ?_⟩
    · simp only [leafRecsOk, Bool.and_eq_true]
      exact ⟨⟨⟨⟨⟨hk, hlo⟩, by simpa using s8⟩, hr0⟩, hrlt⟩, s1⟩
    · simp only [leafRecsOk, Bool.and_eq_true]
      exact ⟨⟨⟨⟨⟨s2, by simp [keyLess_irrefl]⟩, s3⟩, s4⟩, s5⟩, s6⟩
    · intro y hy
      rcases List.mem_cons.1 hy with rfl | hy2
      · exact s8
      · exact s7 y hy2

theorem self_mem_reach (ps : List Page) : ∀ (h : Nat) (r : Int), r ∈ reach ps h r := by
  intro h r
  cases h with
  | zero => simp [reach]
  | succ h =>
    by_cases hl : (getP ps r).isLeaf = true
    · simp [reach, hl]
    · rw [reach, if_neg hl]
      simp

theorem first_reach_sub {ps : List Page} {h : Nat} {r : Int}
    (hl : (getP ps r).isLeaf = false) :
    ∀ x ∈ reach ps h (getP ps r).first, x ∈ reach ps (h + 1) r := by
  intro x hx
  rw [reach, if_neg (by simp [hl])]
  exact List.mem_cons.2 (Or.inr (List.mem_append.2 (Or.inl hx)))

theorem kid_reach_sub {ps : List Page} {h : Nat} {r : Int} {k : KeyRec}
    (hl : (getP ps r).isLeaf = false) (hk : k ∈ (getP ps r).recs) :
    ∀ x ∈ reach ps h k.ref, x ∈ reach ps (h + 1) r := by
  intro x hx
  rw [reach, if_neg (by simp [hl])]
  exact List.mem_cons.2 (Or.inr (List.mem_append.2 (Or.inr
    (List.mem_flatMap.2 ⟨k, hk, hx⟩))))

/-- Two arenas agreeing on a subtree's reachable set give it identical
structure: reachability, leaf order, leftmost leaf, chain and content. -/
theorem agree_struct {ps ps' : List Page} :
    ∀ (h : Nat) (r : Int), agreeOn (reach ps h r) ps ps' →
      reach ps' h r = reach ps h r ∧
      leafRefs ps' h r = leafRefs ps h r ∧
      lml ps' h r = lml ps h r ∧
      (∀ nxt, linkedB ps' h r nxt = linkedB ps h r nxt) ∧
      recsUnder ps' h r = recsUnder ps h r := by
  intro h
  induction h with
  | zero =>
    intro r hag
    have hr : getP ps' r = getP ps r := hag r (self_mem_reach ps 0 r)
    exact ⟨rfl, rfl, rfl, fun nxt => by simp [linkedB, hr],
      by simp [recsUnder, leafRefs, hr]⟩
  | succ h ih =>
    intro r hag
    have hr : getP ps' r = getP ps r := hag r (self_mem_reach ps (h + 1) r)
    by_cases hl : (getP ps r).isLeaf = true
    · refine ⟨?_, ?_, ?_, ?_, ?_⟩
      · rw [reach, reach, hr, hl]
        simp
      · rw [leafRefs, leafRefs, hr, hl]
        simp
      · rw [lml, lml, hr, hl]
        simp
      · intro nxt
        rw [linkedB, linkedB, hr, hl]
        simp
      · simp [recsUnder, leafRefs, hr, hl]
    · have hl' : (getP ps r).isLeaf = false := by simpa using hl
      have hagF : agreeOn (reach ps h (getP ps r).first) ps ps' := fun x hx =>
        hag x (first_reach_sub hl' x hx)
      have hagK : ∀ k ∈ (getP ps r).recs, agreeOn (reach ps h k.ref) ps ps' :=
        fun k hk x hx => hag x (kid_reach_sub hl' hk x hx)
      have ihF := ih (getP ps r).first hagF
      have ihK := fun k hk => ih (KeyRec.ref k) (hagK k hk)
      refine ⟨?_, ?_, ?_, ?_, ?_⟩
      · rw [reach, reach, hr, if_neg (by simp [hl']), if_neg (by simp [hl'])]
        rw [ihF.1]
        congr 2
        exact flatMapCongr (fun k hk => (ihK k hk).1)
      · rw [leafRefs, leafRefs, hr, if_neg (by simp [hl']), if_neg (by simp [hl'])]
        rw [ihF.2.1]
        congr 1
        exact flatMapCongr (fun k hk => (ihK k hk).2.1)
      · rw [lml, lml, hr, if_neg (by simp [hl']), if_neg (by simp [hl'])]
        exact ihF.2.2.1
      · intro nxt
        rw [linkedB, linkedB, hr, if_neg (by simp [hl']), if_neg (by simp [hl'])]
        -- the kid chain: linkedSeq over the same reference list
        have hseq : ∀ (cs : List Int), (∀ x ∈ cs, x = (getP ps r).first ∨
            ∃ k ∈ (getP ps r).recs, x = k.ref) → ∀ n2,
            linkedSeq (linkedB ps' h) (lml ps' h) cs n2 =
            linkedSeq (linkedB ps h) (lml ps h) cs n2 := by
          intro cs
          induction cs with
          | nil => intro _ n2; rfl
          | cons c0 cs2 ih2 =>
            intro hcs n2
            have hc0 : ∀ n3, linkedB ps' h c0 n3 = linkedB ps h c0 n3 := by
              rcases hcs c0 (by simp) with rfl | ⟨k, hk, rfl⟩
              · exact ihF.2.2.2.1
              · exact (ihK k hk).2.2.2.1
            cases cs2 with
            | nil => simp [linkedSeq, hc0]
            | cons c2 cs3 =>
              have hc2l : lml ps' h c2 = lml ps h c2 := by
                rcases hcs c2 (by simp) with rfl | ⟨k, hk, rfl⟩
                · exact ihF.2.2.1
                · exact (ihK k hk).2.2.1
              simp only [linkedSeq]
              rw [hc0, hc2l, ih2 (fun x hx => hcs x (List.mem_cons_of_mem c0 hx))]
        apply hseq
        intro x hx
        rcases List.mem_cons.1 hx with rfl | hx2
        · exact Or.inl rfl
        · right
          obtain ⟨k, hk, rfl⟩ := List.mem_map.1 hx2
          exact ⟨k, hk, rfl⟩
      · have hlf : leafRefs ps' (h + 1) r = leafRefs ps (h + 1) r := by
          rw [leafRefs, leafRefs, hr, if_neg (by simp [hl']), if_neg (by simp [hl'])]
          rw [ihF.2.1]
          congr 1
          exact flatMapCongr (fun k hk => (ihK k hk).2.1)
        rw [recsUnder, recsUnder, hlf]
        apply flatMapCongr
        intro l hl2
        -- l is a leaf ref of the subtree, hence in the reachable set
        have hlr : l ∈ reach ps (h + 1) r := leafRefs_subset_reach ps (h + 1) r l hl2
        rw [hag l hlr]

theorem pathP_sub_reach {ps : List Page} {nv : Nat} {key : Bs} :
    ∀ (h : Nat) (path : List Int) (lo : Bs) (hi : Option Bs) (r0 : Int),
    pathP ps nv key h path lo hi → path.head? = some r0 →
    ∀ x ∈ path, x ∈ reach ps h r0 := by
  intro h
  induction h with
  | zero =>
    intro path lo hi r0 hp hh x hx
    cases path with
    | nil => cases hx
    | cons r rest =>
      cases rest with
      | nil =>
        simp only [List.head?_cons, Option.some_inj] at hh
        subst hh
        simp only [List.mem_singleton] at hx
        subst hx
        exact self_mem_reach ps 0 x
      | cons c rest2 => cases hp
  | succ h ih =>
    intro path lo hi r0 hp hh x hx
    cases path with
    | nil => cases hx
    | cons r rest =>
      simp only [List.head?_cons, Option.some_inj] at hh
      subst hh
      cases rest with
      | nil =>
        simp only [List.mem_singleton] at hx
        subst hx
        exact self_mem_reach ps (h + 1) x
      | cons c rest2 =>
        obtain ⟨hok, hlf, hf0, hgf, hkids, hklo, hkhi, lo2, hi2, hhole, hsub⟩ := hp
        rcases List.mem_cons.1 hx with rfl | hx2
        · exact self_mem_reach ps (h + 1) x
        · have hxc := ih (c :: rest2) lo2 hi2 c hsub rfl x hx2
          rcases hhole with ⟨hc, -, -⟩ | ⟨A, B, hAB, -⟩
          · rw [hc] at hxc
            exact first_reach_sub hlf x hxc
          · exact @kid_reach_sub ps h r ⟨lo2, c⟩ hlf (by rw [hAB]; simp) x hxc

theorem reach_first_sublist {ps : List Page} {h : Nat} {r : Int}
    (hl : (getP ps r).isLeaf = false) :
    (reach ps h (getP ps r).first).Sublist (reach ps (h + 1) r) := by
  rw [reach, if_neg (by simp [hl])]
  exact ((List.sublist_append_left _ _).trans (List.sublist_cons_self _ _))

theorem reach_kid_sublist {ps : List Page} {h : Nat} {r : Int} {k : KeyRec}
    (hl : (getP ps r).isLeaf = false) (hk : k ∈ (getP ps r).recs) :
    (reach ps h k.ref).Sublist (reach ps (h + 1) r) := by
  rw [reach, if_neg (by simp [hl])]
  refine List.Sublist.trans ?_ ((List.sublist_append_right _ _).trans
    (List.sublist_cons_self _ _))
  obtain ⟨A, B, hAB⟩ := List.append_of_mem hk
  rw [hAB, List.flatMap_append, List.flatMap_cons]
  exact (List.sublist_append_left _ _).trans (List.sublist_append_right _ _)

theorem pathP_nodup {ps : List Page} {nv : Nat} {key : Bs} :
    ∀ (h : Nat) (path : List Int) (lo : Bs) (hi : Option Bs) (r0 : Int),
    pathP ps nv key h path lo hi → path.head? = some r0 →
    (reach ps h r0).Nodup → path.Nodup := by
  intro h
  induction h with
  | zero =>
    intro path lo hi r0 hp hh hnd
    cases path with
    | nil => simp
    | cons r rest =>
      cases rest with
      | nil => simp
      | cons c rest2 => cases hp
  | succ h ih =>
    intro path lo hi r0 hp hh hnd
    cases path with
    | nil => simp
    | cons r rest =>
      simp only [List.head?_cons, Option.some_inj] at hh
      subst hh
      cases rest with
      | nil => simp
      | cons c rest2 =>
        obtain ⟨hok, hlf, hf0, hgf, hkids, hklo, hkhi, lo2, hi2, hhole, hsub⟩ := hp
        have hsubl : (reach ps h c).Sublist (reach ps (h + 1) r) := by
          rcases hhole with ⟨hc, -, -⟩ | ⟨A, B, hAB, -⟩
          · rw [hc]
            exact reach_first_sublist hlf
          · exact @reach_kid_sublist ps h r ⟨lo2, c⟩ hlf (by rw [hAB]; simp)
        have hndc : (reach ps h c).Nodup := hsubl.nodup hnd
        refine List.nodup_cons.2 ⟨?_, ih (c :: rest2) lo2 hi2 c hsub rfl hndc⟩
        intro hr0mem
        have hmem : r ∈ reach ps h c :=
          pathP_sub_reach h (c :: rest2) lo2 hi2 c hsub rfl r hr0mem
        -- r heads its own reach list; the tail contains the child reach
        have : r ∈ (reach ps h (getP ps r).first ++
            (getP ps r).recs.flatMap (fun k => reach ps h k.ref)) := by
          rcases hhole with ⟨hc, -, -⟩ | ⟨A, B, hAB, -⟩
          · exact List.mem_append.2 (Or.inl (hc ▸ hmem))
          · exact List.mem_append.2 (Or.inr (List.mem_flatMap.2 ⟨⟨lo2, c⟩, by rw [hAB]; simp, hmem⟩))
        have hnd2 := hnd
        rw [reach, if_neg (by simp [hlf]), List.nodup_cons] at hnd2
        exact hnd2.1 this

theorem pathP_dropLast {ps : List Page} {nv : Nat} {key : Bs} :
    ∀ (h : Nat) (path : List Int) (lo : Bs) (hi : Option Bs),
    pathP ps nv key h path lo hi → 2 ≤ path.length →
    pathP ps nv key h path.dropLast lo hi := by
  intro h
  induction h with
  | zero =>
    intro path lo hi hp hlen
    cases path with
    | nil => simp at hlen
    | cons r rest =>
      cases rest with
      | nil => simp at hlen
      | cons c rest2 => cases hp
  | succ h ih =>
    intro path lo hi hp hlen
    cases path with
    | nil => simp at hlen
    | cons r rest =>
      cases rest with
      | nil => simp at hlen
      | cons c rest2 =>
        obtain ⟨hok, hlf, hf0, hgf, hkids, hklo, hkhi, lo2, hi2, hhole, hsub⟩ := hp
        cases rest2 with
        | nil =>
          show pathP ps nv key (h + 1) [r] lo hi
          refine ⟨?_, hklo, hkhi⟩
          simp only [goodT, Bool.and_eq_true]
          exact ⟨⟨⟨⟨hok, by simp [hlf]⟩, by simpa using hf0⟩, hgf⟩, hkids⟩
        | cons c2 rest3 =>
          show pathP ps nv key (h + 1) (r :: c :: (c2 :: rest3).dropLast) lo hi
          exact ⟨hok, hlf, hf0, hgf, hkids, hklo, hkhi, lo2, hi2, hhole,
            ih (c :: c2 :: rest3) lo2 hi2 hsub (by simp)⟩

theorem pathP_head_good {ps : List Page} {nv : Nat} {key : Bs} :
    ∀ {h : Nat} {path : List Int} {lo : Bs} {hi : Option Bs} {r0 : Int},
    pathP ps nv key h path lo hi → path.head? = some r0 →
    goodT ps nv h r0 lo hi = true := by
  intro h path lo hi r0 hp hh
  cases path with
  | nil => cases hh
  | cons r rest =>
    simp only [List.head?_cons, Option.some_inj] at hh
    subst hh
    cases rest with
    | nil =>
      cases h with
      | zero => exact hp.1
      | succ h2 => exact hp.1
    | cons c rest2 =>
      cases h with
      | zero => cases hp
      | succ h2 =>
        obtain ⟨hok, hlf, hf0, hgf, hkids, -, -, -, -, -, -⟩ := hp
        simp only [goodT, Bool.and_eq_true]
        exact ⟨⟨⟨⟨hok, by simp [hlf]⟩, by simpa using hf0⟩, hgf⟩, hkids⟩

theorem pathP_last_reach_sub {ps : List Page} {nv : Nat} {key : Bs} :
    ∀ (h : Nat) (path : List Int) (lo : Bs) (hi : Option Bs) (r0 : Int) (hw : Nat),
    pathP ps nv key h path lo hi → path.head? = some r0 →
    h = hw + (path.length - 1) →
    ∀ x ∈ reach ps hw (lastP path), x ∈ reach ps h r0 := by
  intro h
  induction h with
  | zero =>
    intro path lo hi r0 hw hp hh hlenh x hx
    cases path with
    | nil => cases hh
    | cons r rest =>
      simp only [List.head?_cons, Option.some_inj] at hh
      subst hh
      cases rest with
      | nil =>
        have : hw = 0 := by simpa using hlenh.symm
        subst this
        simpa [lastP] using hx
      | cons c rest2 => cases hp
  | succ h ih =>
    intro path lo hi r0 hw hp hh hlenh x hx
    cases path with
    | nil => cases hh
    | cons r rest =>
      simp only [List.head?_cons, Option.some_inj] at hh
      subst hh
      cases rest with
      | nil =>
        have : hw = h + 1 := by simpa using hlenh.symm
        subst this
        simpa [lastP] using hx
      | cons c rest2 =>
        obtain ⟨hok, hlf, hf0, hgf, hkids, hklo, hkhi, lo2, hi2, hhole, hsub⟩ := hp
        have hlast : lastP (r :: c :: rest2) = lastP (c :: rest2) := lastP_cons_cons _ _ _
        rw [hlast] at hx
        have hx2 := ih (c :: rest2) lo2 hi2 c hw hsub rfl (by simp at hlenh ⊢; omega) x hx
        rcases hhole with ⟨hc, -, -⟩ | ⟨A, B, hAB, -⟩
        · rw [hc] at hx2
          exact first_reach_sub hlf x hx2
        · exact @kid_reach_sub ps h r ⟨lo2, c⟩ hlf (by rw [hAB]; simp) x hx2

/-- Replacing the subtree at the end of a good descent prefix: if the
replacement preserves goodness on every window, content, leftmost leaf and
chain, and splices exactly one fresh reference into the reachable set, the
same holds at the top of the path, and the path itself stays good. -/
theorem pathSwap {psA psB : List Page} {nv : Nat} {key0 : Bs} {w cNew : Int} {hw : Nat}
    (hlen : psA.length ≤ psB.length)
    (hframeOut : ∀ s : Int, 0 ≤ s → s.toNat < psA.length → s ∉ reach psA hw w →
      getP psB s = getP psA s)
    (hGw : ∀ lo2 hi2, goodT psA nv hw w lo2 hi2 = true → goodT psB nv hw w lo2 hi2 = true)
    (hCw : recsUnder psB hw w = recsUnder psA hw w)
    (hRw : ∃ X Y, reach psA hw w = X ++ Y ∧ reach psB hw w = X ++ cNew :: Y)
    (hLw : lml psB hw w = lml psA hw w)
    (hKw : ∀ nxt, linkedB psA hw w nxt = true → linkedB psB hw w nxt = true) :
    ∀ (h : Nat) (path : List Int) (lo : Bs) (hi : Option Bs) (r0 : Int),
    pathP psA nv key0 h path lo hi → path.head? = some r0 → lastP path = w →
    h = hw + (path.length - 1) →
    (reach psA h r0).Nodup →
    pathP psB nv key0 h path lo hi ∧
    recsUnder psB h r0 = recsUnder psA h r0 ∧
    (∃ X Y, reach psA h r0 = X ++ Y ∧ reach psB h r0 = X ++ cNew :: Y) ∧
    lml psB h r0 = lml psA h r0 ∧
    (∀ nxt, linkedB psA h r0 nxt = true → linkedB psB h r0 nxt = true) := by
  intro h
  induction h with
  | zero =>
    intro path lo hi r0 hp hh hlast hlenh hnd
    cases path with
    | nil => cases hh
    | cons r rest =>
      simp only [List.head?_cons, Option.some_inj] at hh
      subst hh
      cases rest with
      | nil =>
        simp only [lastP, List.getLastD] at hlast
        subst hlast
        have hw0 : hw = 0 := by simpa using hlenh.symm
        subst hw0
        obtain ⟨hg, hklo, hkhi⟩ := hp
        exact ⟨⟨hGw lo hi hg, hklo, hkhi⟩, hCw, hRw, hLw, hKw⟩
      | cons c rest2 => cases hp
  | succ h ih =>
    intro path lo hi r0 hp hh hlast hlenh hnd
    cases path with
    | nil => cases hh
    | cons r rest =>
      simp only [List.head?_cons, Option.some_inj] at hh
      subst hh
      cases rest with
      | nil =>
        simp only [lastP, List.getLastD] at hlast
        subst hlast
        have hw0 : hw = h + 1 := by simpa using hlenh.symm
        subst hw0
        obtain ⟨hg, hklo, hkhi⟩ := hp
        exact ⟨⟨hGw lo hi hg, hklo, hkhi⟩, hCw, hRw, hLw, hKw⟩
      | cons c rest2 =>
        obtain ⟨hok, hlf, hf0, hgf, hkids, hklo, hkhi, lo2, hi2, hhole, hsub⟩ := hp
        have hlast2 : lastP (c :: rest2) = w := by
          rw [← lastP_cons_cons r]
          exact hlast
        have hlenh2 : h = hw + ((c :: rest2).length - 1) := by
          simp at hlenh ⊢
          omega
        -- the child subtree reach is a duplicate-free sublist
        have hsubl : (reach psA h c).Sublist (reach psA (h + 1) r) := by
          rcases hhole with ⟨hc, -, -⟩ | ⟨A, B, hAB, -⟩
          · rw [hc]
            exact reach_first_sublist hlf
          · exact @reach_kid_sublist psA h r ⟨lo2, c⟩ hlf (by rw [hAB]; simp)
        have hndc : (reach psA h c).Nodup := hsubl.nodup hnd
        have ihc := ih (c :: rest2) lo2 hi2 c hsub rfl hlast2 hlenh2 hndc
        -- w's old subtree lies inside the child's reach
        have hwsub : ∀ x ∈ reach psA hw w, x ∈ reach psA h c := by
          intro x hx
          rw [← hlast2] at hx
          exact pathP_last_reach_sub h (c :: rest2) lo2 hi2 c hw hsub rfl hlenh2 x hx
        -- the top page is outside the replaced subtree
        have hrout : r ∉ reach psA hw w := by
          intro hmem
          have h1 : r ∈ reach psA h c := hwsub r hmem
          have hnd2 := hnd
          rw [reach, if_neg (by simp [hlf]), List.nodup_cons] at hnd2
          apply hnd2.1
          rcases hhole with ⟨hc, -, -⟩ | ⟨A, B, hAB, -⟩
          · exact List.mem_append.2 (Or.inl (hc ▸ h1))
          · exact List.mem_append.2 (Or.inr (List.mem_flatMap.2 ⟨⟨lo2, c⟩, by rw [hAB]; simp, h1⟩))
        have hrok : 0 ≤ r ∧ r.toNat < psA.length := by
          simpa [refOkP, Bool.and_eq_true] using hok
        have hre : getP psB r = getP psA r := hframeOut r hrok.1 hrok.2 hrout
        -- disjointness: any other kid subtree of r avoids w's old subtree
        have hndTail : (reach psA h (getP psA r).first ++
            (getP psA r).recs.flatMap (fun k => reach psA h k.ref)).Nodup ∧
            r ∉ (reach psA h (getP psA r).first ++
            (getP psA r).recs.flatMap (fun k => reach psA h k.ref)) := by
          have hnd2 := hnd
          rw [reach, if_neg (by simp [hlf]), List.nodup_cons] at hnd2
          exact ⟨hnd2.2, hnd2.1⟩
        have hrefB : refOkP psB r = true := by
          simp only [refOkP, Bool.and_eq_true, decide_eq_true_eq]
          exact ⟨hrok.1, by omega⟩
        have hvalF : ∀ y ∈ reach psA h (getP psA r).first, 0 ≤ y ∧ y.toNat < psA.length :=
          reach_ok h _ _ _ hgf
        have hvalK : ∀ k ∈ (getP psA r).recs, ∀ y ∈ reach psA h k.ref,
            0 ≤ y ∧ y.toNat < psA.length := by
          intro k hk
          obtain ⟨hiw, hg⟩ := goodKidsAux_mem hkids k hk
          exact reach_ok h _ _ _ hg
        have hagOf : ∀ (X : Int), (∀ y ∈ reach psA h X, 0 ≤ y ∧ y.toNat < psA.length) →
            (∀ y ∈ reach psA h X, y ∉ reach psA h c) →
            agreeOn (reach psA h X) psA psB := by
          intro X hval hdis y hy
          exact hframeOut y (hval y hy).1 (hval y hy).2
            (fun hmem => hdis y hy (hwsub y hmem))
        have hseqT : ∀ (cs : List Int),
            (∀ X ∈ cs, (∀ n2, linkedB psA h X n2 = true → linkedB psB h X n2 = true) ∧
              lml psB h X = lml psA h X) →
            ∀ n2, linkedSeq (linkedB psA h) (lml psA h) cs n2 = true →
              linkedSeq (linkedB psB h) (lml psB h) cs n2 = true := by
          intro cs
          induction cs with
          | nil => intro _ n2 _; rfl
          | cons c0 cs2 ih2 =>
            intro hfacts n2 hchain
            cases cs2 with
            | nil =>
              simp only [linkedSeq] at hchain ⊢
              exact (hfacts c0 (by simp)).1 n2 hchain
            | cons c1 cs3 =>
              simp only [linkedSeq, Bool.and_eq_true] at hchain ⊢
              refine ⟨?_, ih2 (fun X hX => hfacts X (List.mem_cons_of_mem c0 hX)) n2 hchain.2⟩
              rw [(hfacts c1 (by simp)).2]
              exact (hfacts c0 (by simp)).1 _ hchain.1
        have hcgoodB : goodT psB nv h c lo2 hi2 = true := pathP_head_good ihc.1 rfl
        rcases hhole with ⟨hcf, hlo2, hhi2⟩ | ⟨A2, B2, hAB, hhi2⟩
        · -- the hole child is the "first" reference
          subst hlo2
          have hdisK : ∀ k ∈ (getP psA r).recs, ∀ y ∈ reach psA h k.ref,
              y ∉ reach psA h c := by
            intro k hk y hy hyc
            have hdis := List.disjoint_of_nodup_append hndTail.1
            exact hdis (hcf ▸ hyc) (List.mem_flatMap.2 ⟨k, hk, hy⟩)
          have hagK : ∀ k ∈ (getP psA r).recs, agreeOn (reach psA h k.ref) psA psB :=
            fun k hk => hagOf k.ref (hvalK k hk) (hdisK k hk)
          have hfrK := fun k hk => frame_agree hlen h (KeyRec.ref k) (hagK k hk)
          refine ⟨?_, ?_, ?_, ?_, ?_⟩
          · refine ⟨hrefB, by rw [hre]; exact hlf, by rw [hre]; exact hf0, ?_, ?_,
              hklo, hkhi, lo2, hi2, ?_, ihc.1⟩
            · rw [hre, ← hcf, ← hhi2]
              exact hcgoodB
            · rw [hre]
              exact goodKidsAux_mono
                (fun k hk kk hii hg => (hfrK k hk).2.2.2.1 nv kk hii hg) _ _ hkids
            · exact Or.inl ⟨by rw [hre, ← hcf], rfl, by rw [hre, hhi2]⟩
          · rw [recsUnder_succ h (by rw [hre]; exact hlf), recsUnder_succ h hlf, hre, ← hcf]
            rw [ihc.2.1]
            congr 1
            exact flatMapCongr (fun k hk => (hfrK k hk).2.2.2.2.2)
          · obtain ⟨X, Y, e1, e2⟩ := ihc.2.2.1
            refine ⟨r :: X, Y ++ (getP psA r).recs.flatMap (fun k => reach psA h k.ref),
              ?_, ?_⟩
            · rw [reach, if_neg (by simp [hlf]), ← hcf, e1]
              simp [List.append_assoc]
            · rw [reach, if_neg (by simp [hre, hlf]), hre, ← hcf, e2]
              have : (getP psA r).recs.flatMap (fun k => reach psB h k.ref) =
                  (getP psA r).recs.flatMap (fun k => reach psA h k.ref) :=
                flatMapCongr (fun k hk => (hfrK k hk).1)
              rw [this]
              simp [List.append_assoc]
          · rw [lml, lml, if_neg (by simp [hre, hlf]), if_neg (by simp [hlf]), hre, ← hcf]
            exact ihc.2.2.2.1
          · intro nxt hch
            rw [linkedB, if_neg (by simp [hlf])] at hch
            rw [linkedB, if_neg (by simp [hre, hlf]), hre]
            refine hseqT _ ?_ nxt hch
            intro X hX
            rcases List.mem_cons.1 hX with rfl | hX2
            · rw [← hcf]
              exact ⟨fun n2 => ihc.2.2.2.2 n2, ihc.2.2.2.1⟩
            · by_cases hXc : X = c
              · subst hXc
                exact ⟨fun n2 => ihc.2.2.2.2 n2, ihc.2.2.2.1⟩
              · obtain ⟨k, hk, rfl⟩ := List.mem_map.1 hX2
                exact ⟨fun n2 hc2 => by rw [(hfrK k hk).2.2.2.2.1 n2]; exact hc2,
                  (hfrK k hk).2.2.1⟩
        · -- the hole child is a real record
          have hcmem : (⟨lo2, c⟩ : KeyRec) ∈ (getP psA r).recs := by
            rw [hAB]; simp
          have hflatSplit : (getP psA r).recs.flatMap (fun k => reach psA h k.ref) =
              A2.flatMap (fun k => reach psA h k.ref) ++ reach psA h c ++
              B2.flatMap (fun k => reach psA h k.ref) := by
            rw [hAB, List.flatMap_append, List.flatMap_cons]
            simp [List.append_assoc]
          have hndFlat : ((getP psA r).recs.flatMap (fun k => reach psA h k.ref)).Nodup :=
            ((List.nodup_append.1 hndTail.1).2.1)
          have hndSplit : (A2.flatMap (fun k => reach psA h k.ref) ++ reach psA h c ++
              B2.flatMap (fun k => reach psA h k.ref)).Nodup := by
            rw [← hflatSplit]; exact hndFlat
          have hdisF : ∀ y ∈ reach psA h (getP psA r).first, y ∉ reach psA h c := by
            intro y hy hyc
            have hdis := List.disjoint_of_nodup_append hndTail.1
            refine hdis hy ?_
            rw [hflatSplit]
            exact List.mem_append.2 (Or.inl (List.mem_append.2 (Or.inr hyc)))
          have hdisA : ∀ k ∈ A2, ∀ y ∈ reach psA h k.ref, y ∉ reach psA h c := by
            intro k hk y hy hyc
            have h1 := List.disjoint_of_nodup_append
              ((List.nodup_append.1 hndSplit).1)
            exact h1 (List.mem_flatMap.2 ⟨k, hk, hy⟩) hyc
          have hdisB : ∀ k ∈ B2, ∀ y ∈ reach psA h k.ref, y ∉ reach psA h c := by
            intro k hk y hy hyc
            have h1 := List.disjoint_of_nodup_append hndSplit
            exact h1 (List.mem_append.2 (Or.inr hyc)) (List.mem_flatMap.2 ⟨k, hk, hy⟩)
          have hagF : agreeOn (reach psA h (getP psA r).first) psA psB :=
            hagOf _ hvalF hdisF
          have hfrF := frame_agree hlen h (getP psA r).first hagF
          have hagA : ∀ k ∈ A2, agreeOn (reach psA h k.ref) psA psB :=
            fun k hk => hagOf k.ref (hvalK k (by rw [hAB]; simp [hk])) (hdisA k hk)
          have hagB2 : ∀ k ∈ B2, agreeOn (reach psA h k.ref) psA psB :=
            fun k hk => hagOf k.ref (hvalK k (by rw [hAB]; simp [hk])) (hdisB k hk)
          have hfrA := fun k hk => frame_agree hlen h (KeyRec.ref k) (hagA k hk)
          have hfrB := fun k hk => frame_agree hlen h (KeyRec.ref k) (hagB2 k hk)
          refine ⟨?_, ?_, ?_, ?_, ?_⟩
          · refine ⟨hrefB, by rw [hre]; exact hlf, by rw [hre]; exact hf0, ?_, ?_,
              hklo, hkhi, lo2, hi2, ?_, ihc.1⟩
            · rw [hre]
              exact hfrF.2.2.2.1 nv _ _ hgf
            · rw [hre, hAB]
              refine goodKidsAux_rebuild (hAB ▸ hkids) ?_ ?_ ?_
              · exact fun a ha kk hii hg => (hfrA a ha).2.2.2.1 nv kk hii hg
              · rw [← hhi2]
                exact hcgoodB
              · exact fun bb hb kk hii hg => (hfrB bb hb).2.2.2.1 nv kk hii hg
            · exact Or.inr ⟨A2, B2, by rw [hre]; exact hAB, hhi2⟩
          · rw [recsUnder_succ h (by rw [hre]; exact hlf), recsUnder_succ h hlf, hre]
            rw [hfrF.2.2.2.2.2]
            congr 1
            rw [hAB]
            rw [List.flatMap_append, List.flatMap_append, List.flatMap_cons, List.flatMap_cons]
            rw [flatMapCongr (fun k hk => (hfrA k hk).2.2.2.2.2),
              flatMapCongr (fun k hk => (hfrB k hk).2.2.2.2.2), ihc.2.1]
          · obtain ⟨X, Y, e1, e2⟩ := ihc.2.2.1
            refine ⟨r :: (reach psA h (getP psA r).first ++
                A2.flatMap (fun k => reach psA h k.ref) ++ X),
              Y ++ B2.flatMap (fun k => reach psA h k.ref), ?_, ?_⟩
            · rw [reach, if_neg (by simp [hlf]), hflatSplit, e1]
              simp [List.append_assoc]
            · rw [reach, if_neg (by simp [hre, hlf]), hre, hfrF.1, hAB]
              rw [List.flatMap_append, List.flatMap_cons]
              rw [flatMapCongr (fun k hk => (hfrA k hk).1),
                flatMapCongr (fun k hk => (hfrB k hk).1), e2]
              simp [List.append_assoc]
          · rw [lml, lml, if_neg (by simp [hre, hlf]), if_neg (by simp [hlf]), hre]
            exact hfrF.2.2.1
          · intro nxt hch
            rw [linkedB, if_neg (by simp [hlf])] at hch
            rw [linkedB, if_neg (by simp [hre, hlf]), hre]
            refine hseqT _ ?_ nxt hch
            intro X hX
            by_cases hXc : X = c
            · subst hXc
              exact ⟨fun n2 => ihc.2.2.2.2 n2, ihc.2.2.2.1⟩
            · rcases List.mem_cons.1 hX with rfl | hX2
              · exact ⟨fun n2 hc2 => by rw [hfrF.2.2.2.2.1 n2]; exact hc2, hfrF.2.2.1⟩
              · obtain ⟨k, hk, rfl⟩ := List.mem_map.1 hX2
                rw [hAB] at hk
                rcases List.mem_append.1 hk with hk2 | hk2
                · exact ⟨fun n2 hc2 => by rw [(hfrA k hk2).2.2.2.2.1 n2]; exact hc2,
                    (hfrA k hk2).2.2.1⟩
                · rcases List.mem_cons.1 hk2 with rfl | hk3
                  · exact absurd rfl hXc
                  · exact ⟨fun n2 hc2 => by rw [(hfrB k hk3).2.2.2.2.1 n2]; exact hc2,
                      (hfrB k hk3).2.2.1⟩

theorem goodKidsAux_lo_lt {f : Int → Bs → Option Bs → Bool} {hi : Option Bs} :
    ∀ {rs : List KeyRec} {lo : Bs}, goodKidsAux f lo hi rs = true →
    ∀ x ∈ rs, keyLess lo x.key = true := by
  intro rs
  induction rs with
  | nil => intro lo _ x hx; cases hx
  | cons r rest ih =>
    intro lo hg x hx
    simp only [goodKidsAux, Bool.and_eq_true] at hg
    rcases List.mem_cons.1 hx with rfl | hx2
    · exact hg.1.1.1
    · exact keyLess_trans hg.1.1.1 (ih hg.2 x hx2)

theorem goodKidsAux_pairwise {f : Int → Bs → Option Bs → Bool} {hi : Option Bs} :
    ∀ {rs : List KeyRec} {lo : Bs}, goodKidsAux f lo hi rs = true →
    rs.Pairwise (fun a b => keyLess a.key b.key = true) := by
  intro rs
  induction rs with
  | nil => intro lo _; simp
  | cons r rest ih =>
    intro lo hg
    simp only [goodKidsAux, Bool.and_eq_true] at hg
    exact List.pairwise_cons.2 ⟨goodKidsAux_lo_lt hg.2, ih hg.2⟩

theorem leafRecsOk_pairwise {nv : Nat} {lo : Bs} {hi : Option Bs} {l : List KeyRec}
    (h : leafRecsOk nv lo hi l = true) :
    l.Pairwise (fun a b => keyLess a.key b.key = true) :=
  List.chain'_iff_pairwise.1 (leafRecsOk_facts h).2

/-- Where `Insert` lands relative to a split position in a sorted list. -/
theorem insSplit (key : Bs) (v : Int) (R : List KeyRec) (m : Nat)
    (hm : m < R.length)
    (hfresh : ∀ x ∈ R, x.key ≠ key)
    (hsorted : R.Pairwise (fun a b => keyLess a.key b.key = true)) :
    (keyLess key (R.getD m dfltRec).key = true →
      insRecs key v R = insRecs key v (R.take m) ++ R.drop m) ∧
    (keyLess key (R.getD m dfltRec).key = false →
      insRecs key v R = R.take m ++ insRecs key v (R.drop m)) ∧
    R.drop m = R.getD m dfltRec :: R.drop (m + 1) ∧
    (keyLess key (R.getD m dfltRec).key = false →
      insRecs key v (R.drop m) = R.getD m dfltRec :: insRecs key v (R.drop (m + 1))) := by
  have hgetD : R.getD m dfltRec = R[m] := by
    simp [List.getD_eq_getElem?_getD, List.getElem?_eq_getElem hm]
  have hdropm : R.drop m = R.getD m dfltRec :: R.drop (m + 1) := by
    rw [hgetD]
    exact List.drop_eq_getElem_cons hm
  have htd : R.take m ++ R.drop m = R := List.take_append_drop m R
  have hcross : ∀ a ∈ R.take m, keyLess a.key (R.getD m dfltRec).key = true := by
    intro a ha
    have hR : R = R.take m ++ R.drop m := htd.symm
    rw [hR] at hsorted
    have := (List.pairwise_append.1 hsorted).2.2 a ha
    apply this
    rw [hdropm]
    simp
  refine ⟨?_, ?_, hdropm, ?_⟩
  · intro hlt
    conv_lhs => rw [← htd]
    refine insRecs_append_left ?_ _
    intro r1 hr1
    rw [hdropm] at hr1
    simp only [List.head?_cons, Option.some_inj] at hr1
    rw [← hr1]
    exact hlt
  · intro hge
    conv_lhs => rw [← htd]
    refine insRecs_append_right ?_
    intro a ha
    exact keyLess_lt_le (hcross a ha) hge
  · intro hge
    rw [hdropm]
    simp only [insRecs]
    rw [if_neg (by rw [hge]; exact Bool.false_ne_true), if_neg ?_]
    · intro he
      have hmem : R.getD m dfltRec ∈ R := by
        rw [hgetD]
        exact List.getElem_mem hm
      exact hfresh _ hmem he.symm

theorem goodKidsAux_raise_lo {f : Int → Bs → Option Bs → Bool} {lo lo' : Bs}
    {hi : Option Bs} {rs : List KeyRec} (hg : goodKidsAux f lo hi rs = true)
    (hhead : ∀ r1, rs.head? = some r1 → keyLess lo' r1.key = true) :
    goodKidsAux f lo' hi rs = true := by
  cases rs with
  | nil => rfl
  | cons r rest =>
    simp only [goodKidsAux, Bool.and_eq_true] at hg ⊢
    exact ⟨⟨⟨hhead r rfl, hg.1.1.2⟩, hg.1.2⟩, hg.2⟩

theorem linkedSeq_append {f : Int → Int → Bool} {g : Int → Int} :
    ∀ (l1 : List Int) (c2 : Int) (l2 : List Int) (nxt : Int),
    linkedSeq f g (l1 ++ c2 :: l2) nxt =
      (linkedSeq f g l1 (g c2) && linkedSeq f g (c2 :: l2) nxt) := by
  intro l1
  induction l1 with
  | nil => intro c2 l2 nxt; simp [linkedSeq]
  | cons a l1' ih =>
    intro c2 l2 nxt
    cases l1' with
    | nil => simp [linkedSeq]
    | cons b l1'' =>
      simp only [List.cons_append, List.append_eq, linkedSeq]
      rw [← List.cons_append, ih c2 l2 nxt]
      simp [Bool.and_assoc]

theorem splitIns_pg (b4 : Btree) (cap : Nat) (key : Bs) (ref : Int) (t s : Int)
    (h0 : 0 ≤ t) (hlt : t.toNat < b4.pages.length) (hts : t.toNat ≠ s.toNat)
    (hsz : (b4.pg t).size < cap) :
    (match (b4.pg t).insert cap key ref with
      | some p' => b4.setPg t p'
      | none => b4).pg t = { b4.pg t with recs := insRecs key ref (b4.pg t).recs } ∧
    (match (b4.pg t).insert cap key ref with
      | some p' => b4.setPg t p'
      | none => b4).pg s = b4.pg s := by
  have hins : (b4.pg t).insert cap key ref =
      some { b4.pg t with recs := insRecs key ref (b4.pg t).recs } :=
    insert_some cap _ key ref hsz
  rw [hins]
  exact ⟨pg_setPg_self _ _ _ h0 hlt, pg_setPg_ne _ _ _ _ hts⟩

/-- The two pages produced by the splitting phase, under the success of the
half insert. -/
theorem splitPhase_pages (b : Btree) (key : Bs) (ref : Int) (q : Int)
    (h0 : 0 ≤ q) (hlt : q.toNat < b.pages.length)
    (hlow : ((b.pg q).splitP b.cap).1.size < b.cap)
    (hup : ((b.pg q).splitP b.cap).2.1.size < b.cap) :
    (splitPhase b key ref q).1.pg q =
      (if keyLess key ((b.pg q).splitP b.cap).2.2 then
        { { ((b.pg q).splitP b.cap).1 with next := (b.pages.length : Int) } with
          recs := insRecs key ref ((b.pg q).splitP b.cap).1.recs }
      else { ((b.pg q).splitP b.cap).1 with next := (b.pages.length : Int) }) ∧
    (splitPhase b key ref q).1.pg ((b.pages.length : Int)) =
      (if keyLess key ((b.pg q).splitP b.cap).2.2 then
        { ((b.pg q).splitP b.cap).2.1 with next := (b.pg q).next }
      else { { ((b.pg q).splitP b.cap).2.1 with next := (b.pg q).next } with
        recs := insRecs key ref ((b.pg q).splitP b.cap).2.1.recs }) := by
  have hqL : q.toNat ≠ ((b.pages.length : Int)).toNat := by
    simp
    omega
  have hL0 : (0 : Int) ≤ (b.pages.length : Int) := by positivity
  have hq4 : (((b.newPg (b.pg q).isLeaf).2.setPg q
      { ((b.pg q).splitP b.cap).1 with next := (b.pages.length : Int) }).setPg
      ((b.pages.length : Int))
      { ((b.pg q).splitP b.cap).2.1 with next := (b.pg q).next }).pg q =
      { ((b.pg q).splitP b.cap).1 with next := (b.pages.length : Int) } := by
    rw [pg_setPg_ne _ _ _ _ (fun he => hqL he.symm)]
    exact pg_setPg_self _ _ _ h0 (by simp; omega)
  have hL4 : (((b.newPg (b.pg q).isLeaf).2.setPg q
      { ((b.pg q).splitP b.cap).1 with next := (b.pages.length : Int) }).setPg
      ((b.pages.length : Int))
      { ((b.pg q).splitP b.cap).2.1 with next := (b.pg q).next }).pg
      ((b.pages.length : Int)) =
      { ((b.pg q).splitP b.cap).2.1 with next := (b.pg q).next } := by
    refine pg_setPg_self _ _ _ hL0 ?_
    simp [List.length_set]
  have hlen4 : (((b.newPg (b.pg q).isLeaf).2.setPg q
      { ((b.pg q).splitP b.cap).1 with next := (b.pages.length : Int) }).setPg
      ((b.pages.length : Int))
      { ((b.pg q).splitP b.cap).2.1 with next := (b.pg q).next }).pages.length =
      b.pages.length + 1 := by
    simp [List.length_set]
  unfold splitPhase
  simp only [newPg_fst]
  by_cases hkl : keyLess key ((b.pg q).splitP b.cap).2.2 = true
  · rw [if_pos hkl, if_pos hkl, if_pos hkl]
    have hgo := splitIns_pg (((b.newPg (b.pg q).isLeaf).2.setPg q
        { ((b.pg q).splitP b.cap).1 with next := (b.pages.length : Int) }).setPg
        ((b.pages.length : Int))
        { ((b.pg q).splitP b.cap).2.1 with next := (b.pg q).next })
      b.cap key ref q ((b.pages.length : Int)) h0 (by rw [hlen4]; omega) hqL
      (by rw [hq4]; simpa [Page.size] using hlow)
    refine ⟨hgo.1.trans ?_, hgo.2.trans hL4⟩
    rw [hq4]
  · rw [if_neg hkl, if_neg hkl, if_neg hkl]
    have hgo := splitIns_pg (((b.newPg (b.pg q).isLeaf).2.setPg q
        { ((b.pg q).splitP b.cap).1 with next := (b.pages.length : Int) }).setPg
        ((b.pages.length : Int))
        { ((b.pg q).splitP b.cap).2.1 with next := (b.pg q).next })
      b.cap key ref ((b.pages.length : Int)) q hL0 (by rw [hlen4]; omega)
      (fun he => hqL he.symm) (by rw [hL4]; simpa [Page.size] using hup)
    refine ⟨hgo.2.trans hq4, hgo.1.trans ?_⟩
    rw [hL4]

theorem insRecs_ne_nil (k : Bs) (v : Int) (l : List KeyRec) : insRecs k v l ≠ [] := by
  cases l with
  | nil => simp [insRecs]
  | cons r rs =>
    simp only [insRecs]
    split
    · simp
    · split <;> simp

theorem headD_drop_getD (R : List KeyRec) (m : Nat) (hm : m < R.length) :
    (R.drop m).headD dfltRec = R.getD m dfltRec := by
  rw [List.drop_eq_getElem_cons hm]
  simp [List.getD_eq_getElem?_getD, List.getElem?_eq_getElem hm]

theorem linkedSeq_congr {f f' : Int → Int → Bool} {g g' : Int → Int} :
    ∀ {l : List Int} {nxt : Int},
    (∀ x ∈ l, (∀ y, f' x y = f x y) ∧ g' x = g x) →
    linkedSeq f' g' l nxt = linkedSeq f g l nxt := by
  intro l
  induction l with
  | nil => intro nxt _; rfl
  | cons c cs ih =>
    intro nxt hc
    cases cs with
    | nil =>
      simp only [linkedSeq]
      exact (hc c (by simp)).1 nxt
    | cons c2 cs2 =>
      simp only [linkedSeq]
      rw [(hc c2 (by simp)).2, (hc c (by simp)).1 (g c2),
        ih (fun x hx => hc x (by simp [hx]))]

theorem sublist_insRecs (k : Bs) (v : Int) :
    ∀ (l : List KeyRec), (∀ x ∈ l, x.key ≠ k) → l.Sublist (insRecs k v l) := by
  intro l
  induction l with
  | nil => intro _; simp
  | cons r rs ih =>
    intro hfr
    simp only [insRecs]
    by_cases h1 : keyLess k r.key = true
    · rw [if_pos h1]
      exact List.Sublist.cons _ (List.Sublist.refl _)
    · rw [if_neg h1, if_neg (fun he => hfr r (by simp) he.symm)]
      exact List.Sublist.cons₂ _ (ih (fun x hx => hfr x (by simp [hx])))

/-- Every nonempty good descent path carries the key-window conditions at
its top. -/
theorem pathP_key_conds {ps : List Page} {nv : Nat} {k : Bs} :
    ∀ {h : Nat} {path : List Int} {lo : Bs} {hi : Option Bs} {r : Int} {rest : List Int},
    path = r :: rest → pathP ps nv k h path lo hi →
    keyLess k lo = false ∧ inUpper hi k = true := by
  intro h path lo hi r rest hpath hp
  subst hpath
  cases rest with
  | nil =>
    cases h with
    | zero => exact ⟨hp.2.1, hp.2.2⟩
    | succ h2 => exact ⟨hp.2.1, hp.2.2⟩
  | cons c rest2 =>
    cases h with
    | zero => cases hp
    | succ h2 => exact ⟨hp.2.2.2.2.2.1, hp.2.2.2.2.2.2.1⟩

/-- A good descent path for one key is good for another key lying in the
window of the path's last node. -/
theorem pathP_change_key {ps : List Page} {nv : Nat} {k1 k2 : Bs} :
    ∀ (h : Nat) (hw : Nat) (path : List Int) (lo : Bs) (hi : Option Bs),
    pathP ps nv k1 h path lo hi →
    h = hw + (path.length - 1) →
    (∀ lo2 hi2, goodT ps nv hw (lastP path) lo2 hi2 = true →
      keyLess k1 lo2 = false → inUpper hi2 k1 = true →
      keyLess k2 lo2 = false ∧ inUpper hi2 k2 = true) →
    pathP ps nv k2 h path lo hi := by
  intro h
  induction h with
  | zero =>
    intro hw path lo hi hp hlen hcb
    cases path with
    | nil => cases hp
    | cons r rest =>
      cases rest with
      | nil =>
        have hw0 : hw = 0 := by
          have := hlen
          simp at this
          omega
        subst hw0
        obtain ⟨hg, hk1, hk2⟩ := hp
        have hc := hcb lo hi (by simpa [lastP] using hg) hk1 hk2
        exact ⟨hg, hc.1, hc.2⟩
      | cons c rest2 => cases hp
  | succ h ih =>
    intro hw path lo hi hp hlen hcb
    cases path with
    | nil => cases hp
    | cons r rest =>
      cases rest with
      | nil =>
        have hw0 : hw = h + 1 := by
          have := hlen
          simp at this
          omega
        subst hw0
        obtain ⟨hg, hk1, hk2⟩ := hp
        have hc := hcb lo hi (by simpa [lastP] using hg) hk1 hk2
        exact ⟨hg, hc.1, hc.2⟩
      | cons c rest2 =>
        obtain ⟨hok, hlf, hf0, hgf, hkids, hk1lo, hk1hi, lo2, hi2, hhole, hsub⟩ := hp
        rw [lastP_cons_cons] at hcb
        have hlen2 : h = hw + ((c :: rest2).length - 1) := by
          simp at hlen ⊢
          omega
        have hsub2 := ih hw (c :: rest2) lo2 hi2 hsub hlen2 hcb
        have hk2in : keyLess k2 lo2 = false ∧ inUpper hi2 k2 = true :=
          pathP_key_conds rfl hsub2
        have hlift : keyLess k2 lo = false ∧ inUpper hi k2 = true := by
          rcases hhole with ⟨hc, hlo2e, hhi2e⟩ | ⟨A, B, hAB, hhi2e⟩
          · subst hlo2e
            refine ⟨hk2in.1, ?_⟩
            subst hhi2e
            cases hrecs : (getP ps r).recs with
            | nil =>
              rw [hrecs] at hk2in
              exact hk2in.2
            | cons r1 rs =>
              rw [hrecs] at hk2in
              have hr1 : inUpper hi r1.key = true := by
                rw [hrecs] at hkids
                simp only [goodKidsAux, Bool.and_eq_true] at hkids
                exact hkids.1.1.2
              exact inUpper_of_lt (by simpa [headHiK] using hk2in.2) hr1
          · have hdec := goodKidsAux_decomp (hAB ▸ hkids)
            have hlo2gt : keyLess lo lo2 = true := hdec.1
            constructor
            · cases hb : keyLess k2 lo with
              | false => rfl
              | true =>
                have hcon := keyLess_trans hb hlo2gt
                simp [hk2in.1] at hcon
            · subst hhi2e
              cases hB : B with
              | nil =>
                rw [hB] at hk2in
                exact hk2in.2
              | cons b1 bs =>
                rw [hB] at hk2in
                have hb1 : inUpper hi b1.key = true := by
                  have hd4 := hdec.2.2.2.1
                  rw [hB] at hd4
                  simp only [goodKidsAux, Bool.and_eq_true] at hd4
                  exact hd4.1.1.2
                exact inUpper_of_lt (by simpa [headHiK] using hk2in.2) hb1
        exact ⟨hok, hlf, hf0, hgf, hkids, hlift.1, hlift.2, lo2, hi2, hhole, hsub2⟩

/-- Leaf-level split surgery: the overfull virtual leaf is replaced by its
two halves with the pending record placed according to the split key;
content, reach, leftmost leaf and sibling chain transform accordingly. -/
theorem splitT_leaf {ps psA psB : List Page} {nv cap : Nat} {t L cp : Int} {kp : Bs}
    (hcap2 : 2 ≤ cap)
    (ht0 : 0 ≤ t) (htlt : t.toNat < ps.length)
    (hL : L = (ps.length : Int))
    (hlf : (getP ps t).isLeaf = true)
    (hfull : (getP ps t).size = cap)
    (hfresh : ∀ x ∈ (getP ps t).recs, x.key ≠ kp)
    (hsortR : (getP ps t).recs.Pairwise (fun a b => keyLess a.key b.key = true))
    (hA : psA = ps.set t.toNat
      { getP ps t with recs := insRecs kp cp (getP ps t).recs })
    (hlenB : ps.length + 1 ≤ psB.length)
    (hBt : getP psB t =
      (if keyLess kp (((getP ps t).splitP cap).2.2) then
        { { ((getP ps t).splitP cap).1 with next := L } with
          recs := insRecs kp cp ((getP ps t).splitP cap).1.recs }
      else { ((getP ps t).splitP cap).1 with next := L }))
    (hBL : getP psB L =
      (if keyLess kp (((getP ps t).splitP cap).2.2) then
        { ((getP ps t).splitP cap).2.1 with next := (getP ps t).next }
      else { { ((getP ps t).splitP cap).2.1 with next := (getP ps t).next } with
        recs := insRecs kp cp ((getP ps t).splitP cap).2.1.recs })) :
    (∀ lo2 hi2, goodT psA nv 0 t lo2 hi2 = true →
      keyLess lo2 (((getP ps t).splitP cap).2.2) = true ∧
      inUpper hi2 (((getP ps t).splitP cap).2.2) = true ∧
      goodT psB nv 0 t lo2 (some (((getP ps t).splitP cap).2.2)) = true ∧
      goodT psB nv 0 L (((getP ps t).splitP cap).2.2) hi2 = true) ∧
    recsUnder psB 0 t ++ recsUnder psB 0 L = recsUnder psA 0 t ∧
    (∃ RL RU, reach psA 0 t = RL ++ RU ∧ reach psB 0 t = RL ∧
      reach psB 0 L = L :: RU) ∧
    lml psB 0 t = lml psA 0 t ∧
    (∀ nxt, linkedB psA 0 t nxt = true →
      linkedB psB 0 t (lml psB 0 L) = true ∧ linkedB psB 0 L nxt = true) := by
  have hAt : getP psA t = { getP ps t with recs := insRecs kp cp (getP ps t).recs } := by
    rw [hA]
    exact getP_set_self2 ps t _ ht0 htlt
  have hRlen : (getP ps t).recs.length = cap := by
    simpa [Page.size, hlf] using hfull
  have hmlt : cap / 2 < (getP ps t).recs.length := by omega
  have hsp : (getP ps t).splitP cap =
      ({ getP ps t with recs := (getP ps t).recs.take (cap / 2) },
       ⟨true, -1, -1, (getP ps t).recs.drop (cap / 2)⟩,
       (((getP ps t).recs.drop (cap / 2)).headD dfltRec).key) := by
    unfold Page.splitP
    rw [if_pos hlf]
  have hSKkey : (((getP ps t).splitP cap)).2.2 =
      ((getP ps t).recs.getD (cap / 2) dfltRec).key := by
    rw [hsp, headD_drop_getD _ _ hmlt]
  obtain ⟨hposIns, hnegIns, hdropm, hnegHead⟩ :=
    insSplit kp cp (getP ps t).recs (cap / 2) hmlt hfresh hsortR
  have hrefB_t : refOkP psB t = true := by
    simp only [refOkP, Bool.and_eq_true, decide_eq_true_eq]
    exact ⟨ht0, by omega⟩
  have hL0 : 0 ≤ L := by rw [hL]; positivity
  have hLtoNat : L.toNat = ps.length := by rw [hL]; simp
  have hrefB_L : refOkP psB L = true := by
    simp only [refOkP, Bool.and_eq_true, decide_eq_true_eq]
    refine ⟨hL0, ?_⟩
    rw [hLtoNat]
    omega
  by_cases hkl : keyLess kp (((getP ps t).splitP cap)).2.2 = true
  · rw [if_pos hkl] at hBt hBL
    have hklG : keyLess kp ((getP ps t).recs.getD (cap / 2) dfltRec).key = true := by
      rw [← hSKkey]
      exact hkl
    have hRV : insRecs kp cp (getP ps t).recs =
        insRecs kp cp ((getP ps t).recs.take (cap / 2)) ++
          (getP ps t).recs.drop (cap / 2) := hposIns hklG
    have hBtrecs : (getP psB t).recs =
        insRecs kp cp ((getP ps t).recs.take (cap / 2)) := by
      rw [hBt, hsp]
    have hBLrecs : (getP psB L).recs = (getP ps t).recs.drop (cap / 2) := by
      rw [hBL, hsp]
    have hBtleaf : (getP psB t).isLeaf = true := by
      rw [hBt, hsp]
      exact hlf
    have hBLleaf : (getP psB L).isLeaf = true := by
      rw [hBL, hsp]
    have hBtnext : (getP psB t).next = L := by rw [hBt]
    have hBLnext : (getP psB L).next = (getP ps t).next := by rw [hBL]
    refine ⟨?_, ?_, ⟨[t], [], rfl, rfl, rfl⟩, rfl, ?_⟩
    · intro lo2 hi2 hg
      simp only [goodT, Bool.and_eq_true] at hg
      have hlr2 : leafRecsOk nv lo2 hi2 (insRecs kp cp (getP ps t).recs) = true := by
        have := hg.2
        rw [hAt] at this
        exact this
      rw [hRV, hdropm] at hlr2
      obtain ⟨s1, s2, s3⟩ := leafRecsOk_append_split hlr2
      have hpre := insRecs_ne_nil kp cp ((getP ps t).recs.take (cap / 2))
      have hlo2SK : keyLess lo2 ((getP ps t).recs.getD (cap / 2) dfltRec).key = true := by
        cases hpe : insRecs kp cp ((getP ps t).recs.take (cap / 2)) with
        | nil => exact absurd hpe hpre
        | cons a0 arest =>
          have ha0 := (leafRecsOk_facts (hpe ▸ s1)).1 a0 (by simp)
          exact keyLess_le_lt ha0.1 (s3 a0 (by rw [hpe]; simp))
      have hupSK : inUpper hi2 ((getP ps t).recs.getD (cap / 2) dfltRec).key = true :=
        ((leafRecsOk_facts s2).1 ((getP ps t).recs.getD (cap / 2) dfltRec) (by simp)).2.1
      refine ⟨?_, ?_, ?_, ?_⟩
      · rw [hSKkey]
        exact hlo2SK
      · rw [hSKkey]
        exact hupSK
      · simp only [goodT, Bool.and_eq_true]
        refine ⟨⟨hrefB_t, hBtleaf⟩, ?_⟩
        rw [hBtrecs, hSKkey]
        exact s1
      · simp only [goodT, Bool.and_eq_true]
        refine ⟨⟨hrefB_L, hBLleaf⟩, ?_⟩
        rw [hBLrecs, hdropm, hSKkey]
        exact s2
    · rw [recsUnder_zero, recsUnder_zero, recsUnder_zero, hBtrecs, hBLrecs, hAt]
      exact hRV.symm
    · intro nxt hch
      have hch2 : (getP ps t).next = nxt := by
        simp only [linkedB, beq_iff_eq] at hch
        rw [hAt] at hch
        exact hch
      refine ⟨?_, ?_⟩
      · simp only [linkedB, beq_iff_eq]
        rw [hBtnext]
        rfl
      · simp only [linkedB, beq_iff_eq]
        rw [hBLnext]
        exact hch2
  · rw [if_neg hkl] at hBt hBL
    have hklG : keyLess kp ((getP ps t).recs.getD (cap / 2) dfltRec).key = false := by
      rw [← hSKkey]
      simpa using hkl
    have hRV : insRecs kp cp (getP ps t).recs =
        (getP ps t).recs.take (cap / 2) ++
          insRecs kp cp ((getP ps t).recs.drop (cap / 2)) := hnegIns hklG
    have hHead : insRecs kp cp ((getP ps t).recs.drop (cap / 2)) =
        (getP ps t).recs.getD (cap / 2) dfltRec ::
          insRecs kp cp ((getP ps t).recs.drop (cap / 2 + 1)) := hnegHead hklG
    have hBtrecs : (getP psB t).recs = (getP ps t).recs.take (cap / 2) := by
      rw [hBt, hsp]
    have hBLrecs : (getP psB L).recs =
        insRecs kp cp ((getP ps t).recs.drop (cap / 2)) := by
      rw [hBL, hsp]
    have hBtleaf : (getP psB t).isLeaf = true := by
      rw [hBt, hsp]
      exact hlf
    have hBLleaf : (getP psB L).isLeaf = true := by
      rw [hBL, hsp]
    have hBtnext : (getP psB t).next = L := by rw [hBt]
    have hBLnext : (getP psB L).next = (getP ps t).next := by rw [hBL]
    have htm : (getP ps t).recs.take (cap / 2) ≠ [] := by
      have hlt : ((getP ps t).recs.take (cap / 2)).length = cap / 2 := by
        rw [List.length_take]
        omega
      intro he
      rw [he] at hlt
      simp at hlt
      omega
    refine ⟨?_, ?_, ⟨[t], [], rfl, rfl, rfl⟩, rfl, ?_⟩
    · intro lo2 hi2 hg
      simp only [goodT, Bool.and_eq_true] at hg
      have hlr2 : leafRecsOk nv lo2 hi2 (insRecs kp cp (getP ps t).recs) = true := by
        have := hg.2
        rw [hAt] at this
        exact this
      rw [hRV, hHead] at hlr2
      obtain ⟨s1, s2, s3⟩ := leafRecsOk_append_split hlr2
      have hlo2SK : keyLess lo2 ((getP ps t).recs.getD (cap / 2) dfltRec).key = true := by
        cases hpe : (getP ps t).recs.take (cap / 2) with
        | nil => exact absurd hpe htm
        | cons a0 arest =>
          have ha0 := (leafRecsOk_facts (hpe ▸ s1)).1 a0 (by simp)
          exact keyLess_le_lt ha0.1 (s3 a0 (by rw [hpe]; simp))
      have hupSK : inUpper hi2 ((getP ps t).recs.getD (cap / 2) dfltRec).key = true :=
        ((leafRecsOk_facts s2).1 ((getP ps t).recs.getD (cap / 2) dfltRec) (by simp)).2.1
      refine ⟨?_, ?_, ?_, ?_⟩
      · rw [hSKkey]
        exact hlo2SK
      · rw [hSKkey]
        exact hupSK
      · simp only [goodT, Bool.and_eq_true]
        refine ⟨⟨hrefB_t, hBtleaf⟩, ?_⟩
        rw [hBtrecs, hSKkey]
        exact s1
      · simp only [goodT, Bool.and_eq_true]
        refine ⟨⟨hrefB_L, hBLleaf⟩, ?_⟩
        rw [hBLrecs, hHead, hSKkey]
        exact s2
    · rw [recsUnder_zero, recsUnder_zero, recsUnder_zero, hBtrecs, hBLrecs, hAt]
      exact hRV.symm
    · intro nxt hch
      have hch2 : (getP ps t).next = nxt := by
        simp only [linkedB, beq_iff_eq] at hch
        rw [hAt] at hch
        exact hch
      refine ⟨?_, ?_⟩
      · simp only [linkedB, beq_iff_eq]
        rw [hBtnext]
        rfl
      · simp only [linkedB, beq_iff_eq]
        rw [hBLnext]
        exact hch2

/-- Internal-node split surgery, abstract form: the virtual overfull
internal page at `t` carries records `LR ++ SKrec :: UR`; after the split
`t` keeps `LR`, the fresh page `L` takes `UR` with `SKrec.ref` as its
"first" child, and `SKrec.key` is the separator. -/
theorem splitT_int_core {psA psB : List Page} {nv : Nat} {h2 : Nat} {t L : Int}
    {LR UR : List KeyRec} {SKrec : KeyRec}
    (hAt_leaf : (getP psA t).isLeaf = false)
    (hAt_recs : (getP psA t).recs = LR ++ SKrec :: UR)
    (hBt_leaf : (getP psB t).isLeaf = false)
    (hBt_first : (getP psB t).first = (getP psA t).first)
    (hBt_recs : (getP psB t).recs = LR)
    (hBt_next : (getP psB t).next = L)
    (hBL_leaf : (getP psB L).isLeaf = false)
    (hBL_first : (getP psB L).first = SKrec.ref)
    (hBL_recs : (getP psB L).recs = UR)
    (hBL_next : (getP psB L).next = (getP psA t).next)
    (hrefB_t : refOkP psB t = true) (hrefB_L : refOkP psB L = true)
    (hlenAB : psA.length ≤ psB.length)
    (hnd : (reach psA (h2 + 1) t).Nodup)
    (hout : ∀ s : Int, s ∈ reach psA (h2 + 1) t → s ≠ t → getP psB s = getP psA s) :
    (∀ lo2 hi2, goodT psA nv (h2 + 1) t lo2 hi2 = true →
      keyLess lo2 SKrec.key = true ∧ inUpper hi2 SKrec.key = true ∧
      goodT psB nv (h2 + 1) t lo2 (some SKrec.key) = true ∧
      goodT psB nv (h2 + 1) L SKrec.key hi2 = true) ∧
    recsUnder psB (h2 + 1) t ++ recsUnder psB (h2 + 1) L = recsUnder psA (h2 + 1) t ∧
    (∃ RL RU, reach psA (h2 + 1) t = RL ++ RU ∧ reach psB (h2 + 1) t = RL ∧
      reach psB (h2 + 1) L = L :: RU) ∧
    lml psB (h2 + 1) t = lml psA (h2 + 1) t ∧
    (∀ nxt, linkedB psA (h2 + 1) t nxt = true →
      linkedB psB (h2 + 1) t (lml psB (h2 + 1) L) = true ∧
      linkedB psB (h2 + 1) L nxt = true) := by
  have hexp : reach psA (h2 + 1) t = t :: (reach psA h2 (getP psA t).first ++
      (getP psA t).recs.flatMap (fun r => reach psA h2 r.ref)) := by
    rw [reach, if_neg (by simp [hAt_leaf])]
  have hndt : t ∉ (reach psA h2 (getP psA t).first ++
      (getP psA t).recs.flatMap (fun r => reach psA h2 r.ref)) ∧
      (reach psA h2 (getP psA t).first ++
        (getP psA t).recs.flatMap (fun r => reach psA h2 r.ref)).Nodup := by
    have := hnd
    rw [hexp, List.nodup_cons] at this
    exact this
  have hchild : ∀ c : Int, c ∈ (getP psA t).first ::
      (getP psA t).recs.map (fun r => r.ref) →
      reach psB h2 c = reach psA h2 c ∧
      (∀ lo3 hi3, goodT psA nv h2 c lo3 hi3 = true → goodT psB nv h2 c lo3 hi3 = true) ∧
      (∀ nxt, linkedB psB h2 c nxt = linkedB psA h2 c nxt) ∧
      recsUnder psB h2 c = recsUnder psA h2 c ∧
      lml psB h2 c = lml psA h2 c := by
    intro c hc
    have hsub : ∀ s ∈ reach psA h2 c, s ∈ reach psA h2 (getP psA t).first ++
        (getP psA t).recs.flatMap (fun r => reach psA h2 r.ref) := by
      intro s hs
      rcases List.mem_cons.1 hc with rfl | hc2
      · exact List.mem_append.2 (Or.inl hs)
      · obtain ⟨x, hx, hxc⟩ := List.mem_map.1 hc2
        exact List.mem_append.2 (Or.inr (List.mem_flatMap.2 ⟨x, hx, hxc ▸ hs⟩))
    have hag : agreeOn (reach psA h2 c) psA psB := by
      intro s hs
      refine hout s ?_ ?_
      · rw [hexp]
        exact List.mem_cons.2 (Or.inr (hsub s hs))
      · intro he
        exact hndt.1 (he ▸ hsub s hs)
    obtain ⟨f1, f2, f3, f4, f5, f6⟩ := frame_agree hlenAB h2 c hag
    exact ⟨f1, fun lo3 hi3 => f4 nv lo3 hi3, f5, f6, f3⟩
  have hmemF : (getP psA t).first ∈ (getP psA t).first ::
      (getP psA t).recs.map (fun r => r.ref) := by simp
  have hmemL : ∀ x ∈ LR, x.ref ∈ (getP psA t).first ::
      (getP psA t).recs.map (fun r => r.ref) := by
    intro x hx
    refine List.mem_cons.2 (Or.inr ?_)
    rw [hAt_recs]
    exact List.mem_map.2 ⟨x, by simp [hx], rfl⟩
  have hmemU : ∀ x ∈ UR, x.ref ∈ (getP psA t).first ::
      (getP psA t).recs.map (fun r => r.ref) := by
    intro x hx
    refine List.mem_cons.2 (Or.inr ?_)
    rw [hAt_recs]
    exact List.mem_map.2 ⟨x, by simp [hx], rfl⟩
  have hmemSK : SKrec.ref ∈ (getP psA t).first ::
      (getP psA t).recs.map (fun r => r.ref) := by
    refine List.mem_cons.2 (Or.inr ?_)
    rw [hAt_recs]
    exact List.mem_map.2 ⟨SKrec, by simp, rfl⟩
  refine ⟨?_, ?_, ?_, ?_, ?_⟩
  · -- window-generic goodness transfer
    intro lo2 hi2 hg
    simp only [goodT, Bool.and_eq_true, Bool.not_eq_true', decide_eq_true_eq] at hg
    obtain ⟨⟨⟨⟨hok, hnl⟩, hf0⟩, hgf⟩, hkids⟩ := hg
    rw [hAt_recs] at hkids
    obtain ⟨g1, g2, g3, g4, g5⟩ := goodKidsAux_split2.1 hkids
    have hloSK : keyLess lo2 SKrec.key = true :=
      keyLess_le_lt (lastKeyD_ge g1) g2
    have hheads : headHiK (getP psA t).recs hi2 = headHiK LR (some SKrec.key) := by
      rw [hAt_recs]
      exact headHiK_append LR SKrec UR hi2
    refine ⟨hloSK, g3, ?_, ?_⟩
    · simp only [goodT, Bool.and_eq_true, Bool.not_eq_true', decide_eq_true_eq]
      refine ⟨⟨⟨⟨hrefB_t, hBt_leaf⟩, ?_⟩, ?_⟩, ?_⟩
      · rw [hBt_first]
        exact hf0
      · rw [hBt_first, hBt_recs]
        refine (hchild _ hmemF).2.1 lo2 (headHiK LR (some SKrec.key)) ?_
        rw [← hheads]
        exact hgf
      · rw [hBt_recs]
        refine goodKidsAux_mono ?_ _ _ g1
        intro r hr k hiw hgr
        exact (hchild r.ref (hmemL r hr)).2.1 k hiw hgr
    · simp only [goodT, Bool.and_eq_true, Bool.not_eq_true', decide_eq_true_eq]
      refine ⟨⟨⟨⟨hrefB_L, hBL_leaf⟩, ?_⟩, ?_⟩, ?_⟩
      · rw [hBL_first]
        exact (reach_ok h2 SKrec.ref SKrec.key (headHiK UR hi2) g4 SKrec.ref
          (self_mem_reach psA h2 SKrec.ref)).1
      · rw [hBL_first, hBL_recs]
        exact (hchild _ hmemSK).2.1 SKrec.key (headHiK UR hi2) g4
      · rw [hBL_recs]
        refine goodKidsAux_mono ?_ _ _ g5
        intro r hr k hiw hgr
        exact (hchild r.ref (hmemU r hr)).2.1 k hiw hgr
  · -- contents
    rw [recsUnder_succ h2 hAt_leaf, recsUnder_succ h2 hBt_leaf,
      recsUnder_succ h2 hBL_leaf, hAt_recs, hBt_first, hBt_recs, hBL_first, hBL_recs]
    rw [(hchild _ hmemF).2.2.2.1, (hchild _ hmemSK).2.2.2.1]
    rw [flatMapCongr (fun x hx => (hchild x.ref (hmemL x hx)).2.2.2.1),
      flatMapCongr (fun x hx => (hchild x.ref (hmemU x hx)).2.2.2.1)]
    rw [List.flatMap_append, List.flatMap_cons]
    simp [List.append_assoc]
  · -- reach splice
    refine ⟨t :: (reach psA h2 (getP psA t).first ++
        LR.flatMap (fun r => reach psA h2 r.ref)),
      reach psA h2 SKrec.ref ++ UR.flatMap (fun r => reach psA h2 r.ref), ?_, ?_, ?_⟩
    · rw [hexp, hAt_recs, List.flatMap_append, List.flatMap_cons]
      simp [List.append_assoc]
    · rw [reach, if_neg (by simp [hBt_leaf]), hBt_first, hBt_recs]
      rw [(hchild _ hmemF).1,
        flatMapCongr (fun x hx => (hchild x.ref (hmemL x hx)).1)]
    · rw [reach, if_neg (by simp [hBL_leaf]), hBL_first, hBL_recs]
      rw [(hchild _ hmemSK).1,
        flatMapCongr (fun x hx => (hchild x.ref (hmemU x hx)).1)]
  · -- leftmost leaf
    simp only [lml]
    rw [if_neg (by simp [hBt_leaf]), if_neg (by simp [hAt_leaf]), hBt_first]
    exact (hchild _ hmemF).2.2.2.2
  · -- sibling chain
    intro nxt hch
    have hch2 : (linkedSeq (linkedB psA h2) (lml psA h2)
        ((getP psA t).first :: LR.map (fun r => r.ref)) (lml psA h2 SKrec.ref) &&
        linkedSeq (linkedB psA h2) (lml psA h2)
        (SKrec.ref :: UR.map (fun r => r.ref)) nxt) = true := by
      have hc := hch
      simp only [linkedB] at hc
      rw [if_neg (by simp [hAt_leaf]), hAt_recs] at hc
      simp only [List.map_append, List.map_cons] at hc
      rw [← List.cons_append, linkedSeq_append] at hc
      exact hc
    rw [Bool.and_eq_true] at hch2
    have hlmlL : lml psB (h2 + 1) L = lml psA h2 SKrec.ref := by
      simp only [lml]
      rw [if_neg (by simp [hBL_leaf]), hBL_first]
      exact (hchild _ hmemSK).2.2.2.2
    constructor
    · have hcongr : ∀ x ∈ (getP psA t).first :: LR.map (fun r => r.ref),
          (∀ y, linkedB psB h2 x y = linkedB psA h2 x y) ∧
          lml psB h2 x = lml psA h2 x := by
        intro x hx
        rcases List.mem_cons.1 hx with rfl | hx2
        · exact ⟨(hchild _ hmemF).2.2.1, (hchild _ hmemF).2.2.2.2⟩
        · obtain ⟨y, hy, hyx⟩ := List.mem_map.1 hx2
          exact hyx ▸ ⟨(hchild y.ref (hmemL y hy)).2.2.1,
            (hchild y.ref (hmemL y hy)).2.2.2.2⟩
      simp only [linkedB]
      rw [if_neg (by simp [hBt_leaf]), hBt_first, hBt_recs, hlmlL,
        linkedSeq_congr hcongr]
      exact hch2.1
    · have hcongr : ∀ x ∈ SKrec.ref :: UR.map (fun r => r.ref),
          (∀ y, linkedB psB h2 x y = linkedB psA h2 x y) ∧
          lml psB h2 x = lml psA h2 x := by
        intro x hx
        rcases List.mem_cons.1 hx with rfl | hx2
        · exact ⟨(hchild _ hmemSK).2.2.1, (hchild _ hmemSK).2.2.2.2⟩
        · obtain ⟨y, hy, hyx⟩ := List.mem_map.1 hx2
          exact hyx ▸ ⟨(hchild y.ref (hmemU y hy)).2.2.1,
            (hchild y.ref (hmemU y hy)).2.2.2.2⟩
      simp only [linkedB]
      rw [if_neg (by simp [hBL_leaf]), hBL_first, hBL_recs,
        linkedSeq_congr hcongr]
      exact hch2.2

/-- Internal-node split surgery for the pages actually produced by the
splitting phase on a full internal page carrying a pending separator. -/
theorem splitT_int {ps psA psB : List Page} {nv cap : Nat} {h2 : Nat} {t L cp : Int}
    {kp : Bs}
    (hcap2 : 2 ≤ cap)
    (ht0 : 0 ≤ t) (htlt : t.toNat < ps.length)
    (hL : L = (ps.length : Int))
    (hlf : (getP ps t).isLeaf = false)
    (hfull : (getP ps t).size = cap)
    (hfresh : ∀ x ∈ (getP ps t).recs, x.key ≠ kp)
    (hsortR : (getP ps t).recs.Pairwise (fun a b => keyLess a.key b.key = true))
    (hA : psA = ps.set t.toNat
      { getP ps t with recs := insRecs kp cp (getP ps t).recs })
    (hlenB : ps.length + 1 ≤ psB.length)
    (hBt : getP psB t =
      (if keyLess kp (((getP ps t).splitP cap).2.2) then
        { { ((getP ps t).splitP cap).1 with next := L } with
          recs := insRecs kp cp ((getP ps t).splitP cap).1.recs }
      else { ((getP ps t).splitP cap).1 with next := L }))
    (hBL : getP psB L =
      (if keyLess kp (((getP ps t).splitP cap).2.2) then
        { ((getP ps t).splitP cap).2.1 with next := (getP ps t).next }
      else { { ((getP ps t).splitP cap).2.1 with next := (getP ps t).next } with
        recs := insRecs kp cp ((getP ps t).splitP cap).2.1.recs }))
    (hnd : (reach psA (h2 + 1) t).Nodup)
    (hout : ∀ s : Int, s ∈ reach psA (h2 + 1) t → s ≠ t → getP psB s = getP psA s) :
    (∀ lo2 hi2, goodT psA nv (h2 + 1) t lo2 hi2 = true →
      keyLess lo2 (((getP ps t).splitP cap).2.2) = true ∧
      inUpper hi2 (((getP ps t).splitP cap).2.2) = true ∧
      goodT psB nv (h2 + 1) t lo2 (some (((getP ps t).splitP cap).2.2)) = true ∧
      goodT psB nv (h2 + 1) L (((getP ps t).splitP cap).2.2) hi2 = true) ∧
    recsUnder psB (h2 + 1) t ++ recsUnder psB (h2 + 1) L = recsUnder psA (h2 + 1) t ∧
    (∃ RL RU, reach psA (h2 + 1) t = RL ++ RU ∧ reach psB (h2 + 1) t = RL ∧
      reach psB (h2 + 1) L = L :: RU) ∧
    lml psB (h2 + 1) t = lml psA (h2 + 1) t ∧
    (∀ nxt, linkedB psA (h2 + 1) t nxt = true →
      linkedB psB (h2 + 1) t (lml psB (h2 + 1) L) = true ∧
      linkedB psB (h2 + 1) L nxt = true) := by
  have hAt : getP psA t = { getP ps t with recs := insRecs kp cp (getP ps t).recs } := by
    rw [hA]
    exact getP_set_self2 ps t _ ht0 htlt
  have hRlen : (getP ps t).recs.length + 1 = cap := by
    simpa [Page.size, hlf] using hfull
  have hm1lt : cap / 2 - 1 < (getP ps t).recs.length := by omega
  have hsp : (getP ps t).splitP cap =
      ({ getP ps t with recs := (getP ps t).recs.take (cap / 2 - 1) },
       ⟨false, ((getP ps t).recs.getD (cap / 2 - 1) dfltRec).ref, -1,
        (getP ps t).recs.drop (cap / 2)⟩,
       ((getP ps t).recs.getD (cap / 2 - 1) dfltRec).key) := by
    unfold Page.splitP
    rw [if_neg (by simp [hlf])]
  have hSKkey : (((getP ps t).splitP cap)).2.2 =
      ((getP ps t).recs.getD (cap / 2 - 1) dfltRec).key := by
    rw [hsp]
  obtain ⟨hposIns, hnegIns, hdropm1, hnegHead⟩ :=
    insSplit kp cp (getP ps t).recs (cap / 2 - 1) hm1lt hfresh hsortR
  have harith : cap / 2 - 1 + 1 = cap / 2 := by omega
  rw [harith] at hdropm1 hnegHead
  have hAt_leaf : (getP psA t).isLeaf = false := by
    rw [hAt]
    exact hlf
  have hrefB_t : refOkP psB t = true := by
    simp only [refOkP, Bool.and_eq_true, decide_eq_true_eq]
    exact ⟨ht0, by omega⟩
  have hL0 : 0 ≤ L := by rw [hL]; positivity
  have hLtoNat : L.toNat = ps.length := by rw [hL]; simp
  have hrefB_L : refOkP psB L = true := by
    simp only [refOkP, Bool.and_eq_true, decide_eq_true_eq]
    refine ⟨hL0, ?_⟩
    rw [hLtoNat]
    omega
  rw [hSKkey]
  by_cases hkl : keyLess kp (((getP ps t).splitP cap)).2.2 = true
  · rw [if_pos hkl] at hBt hBL
    have hklG : keyLess kp ((getP ps t).recs.getD (cap / 2 - 1) dfltRec).key = true := by
      rw [← hSKkey]
      exact hkl
    have hAt_recs : (getP psA t).recs =
        insRecs kp cp ((getP ps t).recs.take (cap / 2 - 1)) ++
          (getP ps t).recs.getD (cap / 2 - 1) dfltRec ::
            (getP ps t).recs.drop (cap / 2) := by
      rw [hAt]
      show insRecs kp cp (getP ps t).recs = _
      rw [hposIns hklG, hdropm1]
    have hBt_recs : (getP psB t).recs =
        insRecs kp cp ((getP ps t).recs.take (cap / 2 - 1)) := by
      rw [hBt, hsp]
    have hBt_first : (getP psB t).first = (getP psA t).first := by
      rw [hBt, hsp, hAt]
    have hBt_leaf : (getP psB t).isLeaf = false := by
      rw [hBt, hsp]
      exact hlf
    have hBt_next : (getP psB t).next = L := by rw [hBt]
    have hBL_leaf : (getP psB L).isLeaf = false := by
      rw [hBL, hsp]
    have hBL_first : (getP psB L).first =
        ((getP ps t).recs.getD (cap / 2 - 1) dfltRec).ref := by
      rw [hBL, hsp]
    have hBL_recs : (getP psB L).recs = (getP ps t).recs.drop (cap / 2) := by
      rw [hBL, hsp]
    have hBL_next : (getP psB L).next = (getP psA t).next := by
      rw [hBL, hAt]
    exact splitT_int_core hAt_leaf hAt_recs hBt_leaf hBt_first hBt_recs hBt_next
      hBL_leaf hBL_first hBL_recs hBL_next hrefB_t hrefB_L
      (by rw [hA, length_set_eq]; omega) hnd hout
  · rw [if_neg hkl] at hBt hBL
    have hklG : keyLess kp ((getP ps t).recs.getD (cap / 2 - 1) dfltRec).key = false := by
      rw [← hSKkey]
      simpa using hkl
    have hAt_recs : (getP psA t).recs =
        (getP ps t).recs.take (cap / 2 - 1) ++
          (getP ps t).recs.getD (cap / 2 - 1) dfltRec ::
            insRecs kp cp ((getP ps t).recs.drop (cap / 2)) := by
      rw [hAt]
      show insRecs kp cp (getP ps t).recs = _
      rw [hnegIns hklG, hnegHead hklG]
    have hBt_recs : (getP psB t).recs = (getP ps t).recs.take (cap / 2 - 1) := by
      rw [hBt, hsp]
    have hBt_first : (getP psB t).first = (getP psA t).first := by
      rw [hBt, hsp, hAt]
    have hBt_leaf : (getP psB t).isLeaf = false := by
      rw [hBt, hsp]
      exact hlf
    have hBt_next : (getP psB t).next = L := by rw [hBt]
    have hBL_leaf : (getP psB L).isLeaf = false := by
      rw [hBL, hsp]
    have hBL_first : (getP psB L).first =
        ((getP ps t).recs.getD (cap / 2 - 1) dfltRec).ref := by
      rw [hBL, hsp]
    have hBL_recs : (getP psB L).recs =
        insRecs kp cp ((getP ps t).recs.drop (cap / 2)) := by
      rw [hBL, hsp]
    have hBL_next : (getP psB L).next = (getP psA t).next := by
      rw [hBL, hAt]
    exact splitT_int_core hAt_leaf hAt_recs hBt_leaf hBt_first hBt_recs hBt_next
      hBL_leaf hBL_first hBL_recs hBL_next hrefB_t hrefB_L
      (by rw [hA, length_set_eq]; omega) hnd hout

/-- Parent-level reassembly when the split child sits in the parent's
"first" slot: inserting the separator record in front preserves goodness,
content, leftmost leaf and the chain, and splices the fresh page into the
reachable set. -/
theorem parSwap_first {psA psB : List Page} {nv hT : Nat} {par t L : Int} {SK : Bs}
    {lo0 : Bs} {hi0 : Option Bs}
    (ht0 : 0 ≤ t) (hLfresh : psA.length ≤ L.toNat)
    (hlenAB : psA.length ≤ psB.length)
    (hg0 : goodT psA nv (hT + 1) par lo0 hi0 = true)
    (hnd : (reach psA (hT + 1) par).Nodup)
    (hdiff : ∀ s : Int, s.toNat ≠ par.toNat → s.toNat ≠ t.toNat → s.toNat ≠ L.toNat →
      getP psB s = getP psA s)
    (hBpar : getP psB par =
      { getP psA par with recs := insRecs SK L (getP psA par).recs })
    (hfirst : (getP psA par).first = t)
    (hT1 : ∀ lo2 hi2, goodT psA nv hT t lo2 hi2 = true →
      keyLess lo2 SK = true ∧ inUpper hi2 SK = true ∧
      goodT psB nv hT t lo2 (some SK) = true ∧ goodT psB nv hT L SK hi2 = true)
    (hT2 : recsUnder psB hT t ++ recsUnder psB hT L = recsUnder psA hT t)
    (hT3 : ∃ RL RU, reach psA hT t = RL ++ RU ∧ reach psB hT t = RL ∧
      reach psB hT L = L :: RU)
    (hT4 : lml psB hT t = lml psA hT t)
    (hT5 : ∀ nxt, linkedB psA hT t nxt = true →
      linkedB psB hT t (lml psB hT L) = true ∧ linkedB psB hT L nxt = true) :
    (∀ lo2 hi2, goodT psA nv (hT + 1) par lo2 hi2 = true →
      goodT psB nv (hT + 1) par lo2 hi2 = true) ∧
    recsUnder psB (hT + 1) par = recsUnder psA (hT + 1) par ∧
    (∃ X Y, reach psA (hT + 1) par = X ++ Y ∧
      reach psB (hT + 1) par = X ++ L :: Y) ∧
    lml psB (hT + 1) par = lml psA (hT + 1) par ∧
    (∀ nxt, linkedB psA (hT + 1) par nxt = true →
      linkedB psB (hT + 1) par nxt = true) := by
  have hg0c := hg0
  simp only [goodT, Bool.and_eq_true, Bool.not_eq_true', decide_eq_true_eq] at hg0c
  obtain ⟨⟨⟨⟨hok0, hpar_leaf⟩, hf00⟩, hgf0⟩, hkids0⟩ := hg0c
  have hpar0 : 0 ≤ par ∧ par.toNat < psA.length := by
    simpa [refOkP, Bool.and_eq_true, decide_eq_true_eq] using hok0
  have hrange : ∀ x ∈ reach psA (hT + 1) par, 0 ≤ x ∧ x.toNat < psA.length :=
    reach_ok (hT + 1) par lo0 hi0 hg0
  have hexp : reach psA (hT + 1) par = par :: (reach psA hT t ++
      (getP psA par).recs.flatMap (fun r => reach psA hT r.ref)) := by
    rw [reach, if_neg (by simp [hpar_leaf]), hfirst]
  have hndp : par ∉ (reach psA hT t ++
      (getP psA par).recs.flatMap (fun r => reach psA hT r.ref)) ∧
      (reach psA hT t ++
        (getP psA par).recs.flatMap (fun r => reach psA hT r.ref)).Nodup := by
    have := hnd
    rw [hexp, List.nodup_cons] at this
    exact this
  obtain ⟨ndF, ndK, disjFK⟩ := List.nodup_append.1 hndp.2
  have hchildP : ∀ x ∈ (getP psA par).recs,
      reach psB hT x.ref = reach psA hT x.ref ∧
      (∀ lo3 hi3, goodT psA nv hT x.ref lo3 hi3 = true →
        goodT psB nv hT x.ref lo3 hi3 = true) ∧
      (∀ nxt, linkedB psB hT x.ref nxt = linkedB psA hT x.ref nxt) ∧
      recsUnder psB hT x.ref = recsUnder psA hT x.ref ∧
      lml psB hT x.ref = lml psA hT x.ref := by
    intro x hx
    have hsubfl : ∀ s ∈ reach psA hT x.ref,
        s ∈ (getP psA par).recs.flatMap (fun r => reach psA hT r.ref) :=
      fun s hs => List.mem_flatMap.2 ⟨x, hx, hs⟩
    have hag : agreeOn (reach psA hT x.ref) psA psB := by
      intro s hs
      have hstail : s ∈ reach psA hT t ++
          (getP psA par).recs.flatMap (fun r => reach psA hT r.ref) :=
        List.mem_append.2 (Or.inr (hsubfl s hs))
      have hsr : s ∈ reach psA (hT + 1) par := by
        rw [hexp]
        exact List.mem_cons.2 (Or.inr hstail)
      have hsrange := hrange s hsr
      refine hdiff s ?_ ?_ ?_
      · intro he
        have : s = par := by omega
        exact hndp.1 (this ▸ hstail)
      · intro he
        have hst : s = t := by omega
        exact disjFK (hst ▸ self_mem_reach psA hT t) (hsubfl s hs)
      · omega
    obtain ⟨f1, f2, f3, f4, f5, f6⟩ := frame_agree hlenAB hT x.ref hag
    exact ⟨f1, fun lo3 hi3 => f4 nv lo3 hi3, f5, f6, f3⟩
  have hBleaf : (getP psB par).isLeaf = false := by
    rw [hBpar]
    exact hpar_leaf
  have hBfirst : (getP psB par).first = t := by
    rw [hBpar]
    exact hfirst
  have hplace : insRecs SK L (getP psA par).recs =
      ⟨SK, L⟩ :: (getP psA par).recs := by
    cases hrecs : (getP psA par).recs with
    | nil => rfl
    | cons r1 rest =>
      have hgf0t : goodT psA nv hT t lo0 (headHiK (r1 :: rest) hi0) = true := by
        rw [← hrecs]
        rw [hfirst] at hgf0
        exact hgf0
      have hw := hT1 lo0 (headHiK (r1 :: rest) hi0) hgf0t
      have hSKr1 : keyLess SK r1.key = true := by
        simpa [headHiK] using hw.2.1
      simp only [insRecs]
      rw [if_pos hSKr1]
  have hBrecs : (getP psB par).recs = ⟨SK, L⟩ :: (getP psA par).recs := by
    rw [hBpar]
    show insRecs SK L (getP psA par).recs = _
    exact hplace
  refine ⟨?_, ?_, ?_, ?_, ?_⟩
  · -- goodness transfer
    intro lo2 hi2 hg
    simp only [goodT, Bool.and_eq_true, Bool.not_eq_true', decide_eq_true_eq] at hg ⊢
    obtain ⟨⟨⟨⟨hok, hnl⟩, hf0⟩, hgf⟩, hkids⟩ := hg
    rw [hfirst] at hgf hf0
    have hw := hT1 lo2 (headHiK (getP psA par).recs hi2) hgf
    refine ⟨⟨⟨⟨?_, hBleaf⟩, ?_⟩, ?_⟩, ?_⟩
    · simp only [refOkP, Bool.and_eq_true, decide_eq_true_eq]
      have := hpar0
      exact ⟨this.1, by omega⟩
    · rw [hBfirst]
      exact hf0
    · rw [hBfirst, hBrecs]
      exact hw.2.2.1
    · rw [hBrecs]
      simp only [goodKidsAux, Bool.and_eq_true]
      have hupSK : inUpper hi2 SK = true := by
        cases hrecs : (getP psA par).recs with
        | nil =>
          have := hw.2.1
          rw [hrecs] at this
          exact this
        | cons r1 rest =>
          have hSKr1 : keyLess SK r1.key = true := by
            have := hw.2.1
            rw [hrecs] at this
            simpa [headHiK] using this
          have hr1up : inUpper hi2 r1.key = true := by
            rw [hrecs] at hkids
            simp only [goodKidsAux, Bool.and_eq_true] at hkids
            exact hkids.1.1.2
          exact inUpper_of_lt hSKr1 hr1up
      refine ⟨⟨⟨hw.1, hupSK⟩, hw.2.2.2⟩, ?_⟩
      have hraise : goodKidsAux (goodT psA nv hT) SK hi2 (getP psA par).recs = true := by
        refine goodKidsAux_raise_lo hkids ?_
        intro r1 hr1
        have := hw.2.1
        cases hrecs : (getP psA par).recs with
        | nil => rw [hrecs] at hr1; cases hr1
        | cons r1' rest =>
          rw [hrecs] at hr1 this
          simp only [List.head?_cons, Option.some_inj] at hr1
          subst hr1
          simpa [headHiK] using this
      refine goodKidsAux_mono ?_ _ _ hraise
      intro r hr k hiw hgr
      exact (hchildP r hr).2.1 k hiw hgr
  · -- contents
    rw [recsUnder_succ hT hBleaf, recsUnder_succ hT hpar_leaf, hBfirst, hfirst, hBrecs,
      List.flatMap_cons,
      flatMapCongr (fun x hx => (hchildP x hx).2.2.2.1), ← List.append_assoc, hT2]
  · -- reach splice
    obtain ⟨RL, RU, e1, e2, e3⟩ := hT3
    refine ⟨par :: RL, RU ++ (getP psA par).recs.flatMap (fun r => reach psA hT r.ref),
      ?_, ?_⟩
    · rw [hexp, e1]
      simp [List.append_assoc]
    · rw [reach, if_neg (by simp [hBleaf]), hBfirst, hBrecs, e2, List.flatMap_cons, e3,
        flatMapCongr (fun x hx => (hchildP x hx).1)]
      simp [List.append_assoc]
  · -- leftmost leaf
    simp only [lml]
    rw [if_neg (by simp [hBleaf]), if_neg (by simp [hpar_leaf]), hBfirst, hfirst]
    exact hT4
  · -- chain
    intro nxt hch
    simp only [linkedB] at hch ⊢
    rw [if_neg (by simp [hpar_leaf]), hfirst] at hch
    rw [if_neg (by simp [hBleaf]), hBfirst, hBrecs]
    cases hrecs : (getP psA par).recs with
    | nil =>
      rw [hrecs] at hch
      simp only [List.map_nil, linkedSeq] at hch ⊢
      simp only [Bool.and_eq_true]
      exact ⟨(hT5 nxt hch).1, (hT5 nxt hch).2⟩
    | cons r1 rest =>
      rw [hrecs] at hch
      simp only [List.map_cons, linkedSeq, Bool.and_eq_true] at hch ⊢
      obtain ⟨hc1, hc2⟩ := hch
      have h5 := hT5 (lml psA hT r1.ref) hc1
      refine ⟨h5.1, ?_, ?_⟩
      · rw [(hchildP r1 (by rw [hrecs]; simp)).2.2.2.2]
        exact h5.2
      · have hcongr : ∀ x ∈ r1.ref :: rest.map (fun r => r.ref),
            (∀ y, linkedB psB hT x y = linkedB psA hT x y) ∧
            lml psB hT x = lml psA hT x := by
          intro x hx
          rcases List.mem_cons.1 hx with rfl | hx2
          · exact ⟨(hchildP r1 (by rw [hrecs]; simp)).2.2.1,
              (hchildP r1 (by rw [hrecs]; simp)).2.2.2.2⟩
          · obtain ⟨y, hy, hyx⟩ := List.mem_map.1 hx2
            have hym : y ∈ (getP psA par).recs := by
              rw [hrecs]
              simp [hy]
            exact hyx ▸ ⟨(hchildP y hym).2.2.1, (hchildP y hym).2.2.2.2⟩
        rw [linkedSeq_congr hcongr]
        exact hc2

/-- Parent-level reassembly when the split child sits in a real record
slot of the parent: inserting the separator record right after it
preserves goodness, content, leftmost leaf and the chain, and splices the
fresh page into the reachable set. -/
theorem parSwap_rec {psA psB : List Page} {nv hT : Nat} {par t L : Int} {SK sep : Bs}
    {A B : List KeyRec} {lo0 : Bs} {hi0 : Option Bs}
    (ht0 : 0 ≤ t) (hLfresh : psA.length ≤ L.toNat)
    (hlenAB : psA.length ≤ psB.length)
    (hg0 : goodT psA nv (hT + 1) par lo0 hi0 = true)
    (hnd : (reach psA (hT + 1) par).Nodup)
    (hdiff : ∀ s : Int, s.toNat ≠ par.toNat → s.toNat ≠ t.toNat → s.toNat ≠ L.toNat →
      getP psB s = getP psA s)
    (hBpar : getP psB par =
      { getP psA par with recs := insRecs SK L (getP psA par).recs })
    (hAB : (getP psA par).recs = A ++ ⟨sep, t⟩ :: B)
    (hT1 : ∀ lo2 hi2, goodT psA nv hT t lo2 hi2 = true →
      keyLess lo2 SK = true ∧ inUpper hi2 SK = true ∧
      goodT psB nv hT t lo2 (some SK) = true ∧ goodT psB nv hT L SK hi2 = true)
    (hT2 : recsUnder psB hT t ++ recsUnder psB hT L = recsUnder psA hT t)
    (hT3 : ∃ RL RU, reach psA hT t = RL ++ RU ∧ reach psB hT t = RL ∧
      reach psB hT L = L :: RU)
    (hT4 : lml psB hT t = lml psA hT t)
    (hT5 : ∀ nxt, linkedB psA hT t nxt = true →
      linkedB psB hT t (lml psB hT L) = true ∧ linkedB psB hT L nxt = true) :
    (∀ lo2 hi2, goodT psA nv (hT + 1) par lo2 hi2 = true →
      goodT psB nv (hT + 1) par lo2 hi2 = true) ∧
    recsUnder psB (hT + 1) par = recsUnder psA (hT + 1) par ∧
    (∃ X Y, reach psA (hT + 1) par = X ++ Y ∧
      reach psB (hT + 1) par = X ++ L :: Y) ∧
    lml psB (hT + 1) par = lml psA (hT + 1) par ∧
    (∀ nxt, linkedB psA (hT + 1) par nxt = true →
      linkedB psB (hT + 1) par nxt = true) := by
  have hg0c := hg0
  simp only [goodT, Bool.and_eq_true, Bool.not_eq_true', decide_eq_true_eq] at hg0c
  obtain ⟨⟨⟨⟨hok0, hpar_leaf⟩, hf00⟩, hgf0⟩, hkids0⟩ := hg0c
  have hpar0 : 0 ≤ par ∧ par.toNat < psA.length := by
    simpa [refOkP, Bool.and_eq_true, decide_eq_true_eq] using hok0
  have hrange : ∀ x ∈ reach psA (hT + 1) par, 0 ≤ x ∧ x.toNat < psA.length :=
    reach_ok (hT + 1) par lo0 hi0 hg0
  have hexp : reach psA (hT + 1) par = par :: (reach psA hT (getP psA par).first ++
      (getP psA par).recs.flatMap (fun r => reach psA hT r.ref)) := by
    rw [reach, if_neg (by simp [hpar_leaf])]
  have hndp : par ∉ (reach psA hT (getP psA par).first ++
      (getP psA par).recs.flatMap (fun r => reach psA hT r.ref)) ∧
      (reach psA hT (getP psA par).first ++
        (getP psA par).recs.flatMap (fun r => reach psA hT r.ref)).Nodup := by
    have := hnd
    rw [hexp, List.nodup_cons] at this
    exact this
  have hflat : (getP psA par).recs.flatMap (fun r => reach psA hT r.ref) =
      A.flatMap (fun r => reach psA hT r.ref) ++
      (reach psA hT t ++ B.flatMap (fun r => reach psA hT r.ref)) := by
    rw [hAB, List.flatMap_append, List.flatMap_cons]
  obtain ⟨ndRF, ndRest, disj1⟩ := List.nodup_append.1 hndp.2
  rw [hflat] at ndRest disj1
  obtain ⟨ndFA, ndRtFB, disj2⟩ := List.nodup_append.1 ndRest
  obtain ⟨ndRt, ndFB, disj3⟩ := List.nodup_append.1 ndRtFB
  have htRt : t ∈ reach psA hT t := self_mem_reach psA hT t
  have hframe : ∀ c : Int,
      (∀ s ∈ reach psA hT c, s ∈ reach psA hT (getP psA par).first ++
        (getP psA par).recs.flatMap (fun r => reach psA hT r.ref)) →
      t ∉ reach psA hT c →
      reach psB hT c = reach psA hT c ∧
      (∀ lo3 hi3, goodT psA nv hT c lo3 hi3 = true →
        goodT psB nv hT c lo3 hi3 = true) ∧
      (∀ nxt, linkedB psB hT c nxt = linkedB psA hT c nxt) ∧
      recsUnder psB hT c = recsUnder psA hT c ∧
      lml psB hT c = lml psA hT c := by
    intro c hsubc hnt
    have hag : agreeOn (reach psA hT c) psA psB := by
      intro s hs
      have hstail := hsubc s hs
      have hsr : s ∈ reach psA (hT + 1) par := by
        rw [hexp]
        exact List.mem_cons.2 (Or.inr hstail)
      have hsrange := hrange s hsr
      refine hdiff s ?_ ?_ ?_
      · intro he
        have : s = par := by omega
        exact hndp.1 (this ▸ hstail)
      · intro he
        have hst : s = t := by omega
        exact hnt (hst ▸ hs)
      · omega
    obtain ⟨f1, f2, f3, f4, f5, f6⟩ := frame_agree hlenAB hT c hag
    exact ⟨f1, fun lo3 hi3 => f4 nv lo3 hi3, f5, f6, f3⟩
  have hfrF := hframe (getP psA par).first
    (fun s hs => List.mem_append.2 (Or.inl hs))
    (fun ht' => disj1 ht'
      (List.mem_append.2 (Or.inr (List.mem_append.2 (Or.inl htRt)))))
  have hfrA : ∀ x ∈ A,
      reach psB hT x.ref = reach psA hT x.ref ∧
      (∀ lo3 hi3, goodT psA nv hT x.ref lo3 hi3 = true →
        goodT psB nv hT x.ref lo3 hi3 = true) ∧
      (∀ nxt, linkedB psB hT x.ref nxt = linkedB psA hT x.ref nxt) ∧
      recsUnder psB hT x.ref = recsUnder psA hT x.ref ∧
      lml psB hT x.ref = lml psA hT x.ref := by
    intro x hx
    refine hframe x.ref ?_ ?_
    · intro s hs
      refine List.mem_append.2 (Or.inr (List.mem_flatMap.2 ⟨x, ?_, hs⟩))
      rw [hAB]
      exact List.mem_append.2 (Or.inl hx)
    · intro ht'
      exact disj2 (List.mem_flatMap.2 ⟨x, hx, ht'⟩) (List.mem_append.2 (Or.inl htRt))
  have hfrB : ∀ x ∈ B,
      reach psB hT x.ref = reach psA hT x.ref ∧
      (∀ lo3 hi3, goodT psA nv hT x.ref lo3 hi3 = true →
        goodT psB nv hT x.ref lo3 hi3 = true) ∧
      (∀ nxt, linkedB psB hT x.ref nxt = linkedB psA hT x.ref nxt) ∧
      recsUnder psB hT x.ref = recsUnder psA hT x.ref ∧
      lml psB hT x.ref = lml psA hT x.ref := by
    intro x hx
    refine hframe x.ref ?_ ?_
    · intro s hs
      refine List.mem_append.2 (Or.inr (List.mem_flatMap.2 ⟨x, ?_, hs⟩))
      rw [hAB]
      simp [hx]
    · intro ht'
      exact disj3 htRt (List.mem_flatMap.2 ⟨x, hx, ht'⟩)
  have hBleaf : (getP psB par).isLeaf = false := by
    rw [hBpar]
    exact hpar_leaf
  have hBfirst : (getP psB par).first = (getP psA par).first := by
    rw [hBpar]
  have hkids0' := hkids0
  rw [hAB] at hkids0'
  obtain ⟨a10, a20, a30, a40, a50⟩ := goodKidsAux_split2.1 hkids0'
  have hw0 := hT1 sep (headHiK B hi0) a40
  have hplace : insRecs SK L (getP psA par).recs =
      A ++ ⟨sep, t⟩ :: ⟨SK, L⟩ :: B := by
    rw [hAB]
    have hd5 := (goodKidsAux_decomp hkids0').2.2.2.2
    have h1 : ∀ a ∈ A ++ [(⟨sep, t⟩ : KeyRec)], keyLess a.key SK = true := by
      intro a ha
      rcases List.mem_append.1 ha with ha2 | ha2
      · exact keyLess_trans (hd5 a ha2).2 hw0.1
      · simp only [List.mem_singleton] at ha2
        subst ha2
        exact hw0.1
    have h2 : ∀ r1 : KeyRec, B.head? = some r1 → keyLess SK r1.key = true := by
      intro r1 hr1
      cases hB : B with
      | nil => rw [hB] at hr1; cases hr1
      | cons b1 bs =>
        rw [hB] at hr1
        simp only [List.head?_cons, Option.some_inj] at hr1
        subst hr1
        have := hw0.2.1
        rw [hB] at this
        simpa [headHiK] using this
    have hmid := @insRecs_sorted_mid SK L (A ++ [⟨sep, t⟩]) B h1 h2
    simpa using hmid
  have hBrecs : (getP psB par).recs = A ++ ⟨sep, t⟩ :: ⟨SK, L⟩ :: B := by
    rw [hBpar]
    show insRecs SK L (getP psA par).recs = _
    exact hplace
  refine ⟨?_, ?_, ?_, ?_, ?_⟩
  · -- goodness transfer
    intro lo2 hi2 hg
    simp only [goodT, Bool.and_eq_true, Bool.not_eq_true', decide_eq_true_eq] at hg ⊢
    obtain ⟨⟨⟨⟨hok, hnl⟩, hf0⟩, hgf⟩, hkids⟩ := hg
    have hkids' := hkids
    rw [hAB] at hkids'
    obtain ⟨a1, a2, a3, a4, a5⟩ := goodKidsAux_split2.1 hkids'
    have hw := hT1 sep (headHiK B hi2) a4
    have hupSK : inUpper hi2 SK = true := by
      cases hB : B with
      | nil =>
        have := hw.2.1
        rw [hB] at this
        exact this
      | cons b1 bs =>
        have h1 : keyLess SK b1.key = true := by
          have := hw.2.1
          rw [hB] at this
          simpa [headHiK] using this
        have h2 : inUpper hi2 b1.key = true := by
          have := a5
          rw [hB] at this
          simp only [goodKidsAux, Bool.and_eq_true] at this
          exact this.1.1.2
        exact inUpper_of_lt h1 h2
    have hraise : goodKidsAux (goodT psA nv hT) SK hi2 B = true := by
      refine goodKidsAux_raise_lo a5 ?_
      intro r1 hr1
      cases hB : B with
      | nil => rw [hB] at hr1; cases hr1
      | cons b1 bs =>
        rw [hB] at hr1
        simp only [List.head?_cons, Option.some_inj] at hr1
        subst hr1
        have := hw.2.1
        rw [hB] at this
        simpa [headHiK] using this
    refine ⟨⟨⟨⟨?_, hBleaf⟩, ?_⟩, ?_⟩, ?_⟩
    · simp only [refOkP, Bool.and_eq_true, decide_eq_true_eq]
      exact ⟨hpar0.1, by omega⟩
    · rw [hBfirst]
      exact hf0
    · rw [hBfirst, hBrecs, headHiK_append]
      have hgf2 := hgf
      rw [hAB, headHiK_append] at hgf2
      exact hfrF.2.1 lo2 (headHiK A (some (⟨sep, t⟩ : KeyRec).key)) hgf2
    · rw [hBrecs]
      refine goodKidsAux_split2.2 ⟨?_, a2, a3, ?_, ?_⟩
      · refine goodKidsAux_mono ?_ _ _ a1
        intro r hr k hiw hgr
        exact (hfrA r hr).2.1 k hiw hgr
      · exact hw.2.2.1
      · simp only [goodKidsAux, Bool.and_eq_true]
        refine ⟨⟨⟨hw.1, hupSK⟩, hw.2.2.2⟩, ?_⟩
        refine goodKidsAux_mono ?_ _ _ hraise
        intro r hr k hiw hgr
        exact (hfrB r hr).2.1 k hiw hgr
  · -- contents
    have hmid : ∀ l : List KeyRec,
        recsUnder psB hT t ++ (recsUnder psB hT L ++ l) =
        recsUnder psA hT t ++ l := by
      intro l
      rw [← List.append_assoc, hT2]
    rw [recsUnder_succ hT hBleaf, recsUnder_succ hT hpar_leaf, hBfirst, hBrecs, hAB,
      hfrF.2.2.2.1]
    rw [List.flatMap_append, List.flatMap_append, List.flatMap_cons, List.flatMap_cons,
      List.flatMap_cons]
    rw [flatMapCongr (fun x hx => (hfrA x hx).2.2.2.1),
      flatMapCongr (fun x hx => (hfrB x hx).2.2.2.1)]
    simp only [List.append_assoc]
    rw [hmid]
  · -- reach splice
    obtain ⟨RL, RU, e1, e2, e3⟩ := hT3
    refine ⟨par :: (reach psA hT (getP psA par).first ++
        (A.flatMap (fun r => reach psA hT r.ref) ++ RL)),
      RU ++ B.flatMap (fun r => reach psA hT r.ref), ?_, ?_⟩
    · rw [hexp, hflat, e1]
      simp [List.append_assoc]
    · rw [reach, if_neg (by simp [hBleaf]), hBfirst, hBrecs, hfrF.1]
      rw [List.flatMap_append, List.flatMap_cons, List.flatMap_cons]
      rw [flatMapCongr (fun x hx => (hfrA x hx).1),
        flatMapCongr (fun x hx => (hfrB x hx).1), e2, e3]
      simp [List.append_assoc]
  · -- leftmost leaf
    simp only [lml]
    rw [if_neg (by simp [hBleaf]), if_neg (by simp [hpar_leaf]), hBfirst]
    exact hfrF.2.2.2.2
  · -- chain
    intro nxt hch
    simp only [linkedB] at hch ⊢
    rw [if_neg (by simp [hpar_leaf]), hAB] at hch
    rw [if_neg (by simp [hBleaf]), hBfirst, hBrecs]
    simp only [List.map_append, List.map_cons] at hch ⊢
    rw [← List.cons_append, linkedSeq_append] at hch
    rw [← List.cons_append, linkedSeq_append]
    rw [Bool.and_eq_true] at hch
    obtain ⟨hc1, hc2⟩ := hch
    simp only [Bool.and_eq_true]
    have hcongr1 : ∀ x ∈ (getP psA par).first :: A.map (fun r => r.ref),
        (∀ y, linkedB psB hT x y = linkedB psA hT x y) ∧
        lml psB hT x = lml psA hT x := by
      intro x hx
      rcases List.mem_cons.1 hx with rfl | hx2
      · exact ⟨hfrF.2.2.1, hfrF.2.2.2.2⟩
      · obtain ⟨y, hy, hyx⟩ := List.mem_map.1 hx2
        exact hyx ▸ ⟨(hfrA y hy).2.2.1, (hfrA y hy).2.2.2.2⟩
    refine ⟨?_, ?_⟩
    · rw [hT4, linkedSeq_congr hcongr1]
      exact hc1
    · cases hB : B with
      | nil =>
        rw [hB] at hc2
        simp only [List.map_nil, linkedSeq] at hc2 ⊢
        simp only [Bool.and_eq_true]
        exact ⟨(hT5 nxt hc2).1, (hT5 nxt hc2).2⟩
      | cons b1 bs =>
        rw [hB] at hc2
        simp only [List.map_cons, linkedSeq, Bool.and_eq_true] at hc2 ⊢
        obtain ⟨hd1, hd2⟩ := hc2
        have h5 := hT5 (lml psA hT b1.ref) hd1
        have hb1m : b1 ∈ B := by rw [hB]; simp
        refine ⟨h5.1, ?_, ?_⟩
        · rw [(hfrB b1 hb1m).2.2.2.2]
          exact h5.2
        · have hcongr2 : ∀ x ∈ b1.ref :: bs.map (fun r => r.ref),
              (∀ y, linkedB psB hT x y = linkedB psA hT x y) ∧
              lml psB hT x = lml psA hT x := by
            intro x hx
            rcases List.mem_cons.1 hx with rfl | hx2
            · exact ⟨(hfrB b1 hb1m).2.2.1, (hfrB b1 hb1m).2.2.2.2⟩
            · obtain ⟨y, hy, hyx⟩ := List.mem_map.1 hx2
              have hym : y ∈ B := by rw [hB]; simp [hy]
              exact hyx ▸ ⟨(hfrB y hym).2.2.1, (hfrB y hym).2.2.2.2⟩
          rw [linkedSeq_congr hcongr2]
          exact hd2

/-- The reachable set of the subtree at the end of a good descent prefix
is a duplicate-free sublist of the root's. -/
theorem pathP_last_reach_sublist {ps : List Page} {nv : Nat} {key : Bs} :
    ∀ (h : Nat) (path : List Int) (lo : Bs) (hi : Option Bs) (r0 : Int) (hw : Nat),
    pathP ps nv key h path lo hi → path.head? = some r0 →
    h = hw + (path.length - 1) →
    (reach ps hw (lastP path)).Sublist (reach ps h r0) := by
  intro h
  induction h with
  | zero =>
    intro path lo hi r0 hw hp hh hlenh
    cases path with
    | nil => cases hh
    | cons r rest =>
      simp only [List.head?_cons, Option.some_inj] at hh
      subst hh
      cases rest with
      | nil =>
        have hw0 : hw = 0 := by
          have := hlenh
          simp at this
          omega
        subst hw0
        simp only [lastP, List.getLastD]
        exact List.Sublist.refl _
      | cons c rest2 => cases hp
  | succ h ih =>
    intro path lo hi r0 hw hp hh hlenh
    cases path with
    | nil => cases hh
    | cons r rest =>
      simp only [List.head?_cons, Option.some_inj] at hh
      subst hh
      cases rest with
      | nil =>
        have hw0 : hw = h + 1 := by
          have := hlenh
          simp at this
          omega
        subst hw0
        simp only [lastP, List.getLastD]
        exact List.Sublist.refl _
      | cons c rest2 =>
        obtain ⟨hok, hlf, hf0, hgf, hkids, hklo, hkhi, lo2, hi2, hhole, hsub⟩ := hp
        have hlenh2 : h = hw + ((c :: rest2).length - 1) := by
          simp at hlenh ⊢
          omega
        have hsubl : (reach ps h c).Sublist (reach ps (h + 1) r) := by
          rcases hhole with ⟨hc, -, -⟩ | ⟨A, B, hAB, -⟩
          · rw [hc]
            exact reach_first_sublist hlf
          · exact @reach_kid_sublist ps h r ⟨lo2, c⟩ hlf (by rw [hAB]; simp)
        rw [lastP_cons_cons]
        exact (ih (c :: rest2) lo2 hi2 c hw hsub rfl hlenh2).trans hsubl

/-- The last two nodes of a good descent prefix: the parent is good on its
window, the child occupies a hole of the parent, and the key lies in the
child's window. -/
theorem pathP_last_pair {ps : List Page} {nv : Nat} {key : Bs} :
    ∀ (h : Nat) (hw : Nat) (path : List Int) (lo : Bs) (hi : Option Bs),
    pathP ps nv key h path lo hi → 2 ≤ path.length →
    h = hw + (path.length - 1) →
    ∃ loP hiP lo2 hi2,
      goodT ps nv (hw + 1) (lastP path.dropLast) loP hiP = true ∧
      holeAt (getP ps (lastP path.dropLast)) loP hiP (lastP path) lo2 hi2 ∧
      goodT ps nv hw (lastP path) lo2 hi2 = true ∧
      keyLess key lo2 = false ∧ inUpper hi2 key = true := by
  intro h
  induction h with
  | zero =>
    intro hw path lo hi hp hlen hlenh
    cases path with
    | nil => simp at hlen
    | cons r rest =>
      cases rest with
      | nil => simp at hlen
      | cons c rest2 => cases hp
  | succ h ih =>
    intro hw path lo hi hp hlen hlenh
    cases path with
    | nil => simp at hlen
    | cons r rest =>
      cases rest with
      | nil => simp at hlen
      | cons c rest2 =>
        obtain ⟨hok, hlf, hf0, hgf, hkids, hklo, hkhi, lo2, hi2, hhole, hsub⟩ := hp
        cases rest2 with
        | nil =>
          have hw1 : hw = h := by
            have := hlenh
            simp at this
            omega
          subst hw1
          have hgc : goodT ps nv hw c lo2 hi2 = true := pathP_head_good hsub rfl
          have hkc := pathP_key_conds rfl hsub
          refine ⟨lo, hi, lo2, hi2, ?_, ?_, hgc, hkc.1, hkc.2⟩
          · simp only [List.dropLast, lastP, List.getLastD]
            simp only [goodT, Bool.and_eq_true]
            exact ⟨⟨⟨⟨hok, by simp [hlf]⟩, by simpa using hf0⟩, hgf⟩, hkids⟩
          · simpa [List.dropLast, lastP, List.getLastD] using hhole
        | cons c2 rest3 =>
          have hlenh2 : h = hw + ((c :: c2 :: rest3).length - 1) := by
            simp at hlenh ⊢
            omega
          obtain ⟨loP, hiP, lo3, hi3, g1, g2, g3, g4, g5⟩ :=
            ih hw (c :: c2 :: rest3) lo2 hi2 hsub (by simp) hlenh2
          refine ⟨loP, hiP, lo3, hi3, ?_, ?_, by rw [lastP_cons_cons]; exact g3, g4, g5⟩
          · show goodT ps nv (hw + 1)
              (lastP ((r :: c :: c2 :: rest3).dropLast)) loP hiP = true
            have hdl : (r :: c :: c2 :: rest3).dropLast =
                r :: (c :: c2 :: rest3).dropLast := rfl
            rw [hdl]
            have hne : (c :: c2 :: rest3).dropLast = c :: (c2 :: rest3).dropLast := rfl
            rw [hne, lastP_cons_cons, ← hne]
            exact g1
          · have hdl : (r :: c :: c2 :: rest3).dropLast =
                r :: (c :: c2 :: rest3).dropLast := rfl
            rw [hdl]
            have hne : (c :: c2 :: rest3).dropLast = c :: (c2 :: rest3).dropLast := rfl
            rw [hne, lastP_cons_cons, ← hne, lastP_cons_cons]
            exact g2

theorem splitIns_pages (b4 : Btree) (cap : Nat) (key : Bs) (ref : Int) (t : Int)
    (hsz : (b4.pg t).size < cap) :
    (match (b4.pg t).insert cap key ref with
      | some p' => b4.setPg t p'
      | none => b4).pages =
      b4.pages.set t.toNat { b4.pg t with recs := insRecs key ref (b4.pg t).recs } := by
  have hins := insert_some cap (b4.pg t) key ref hsz
  rw [hins]
  rfl

/-- The arena after the splitting phase, as an explicit list. -/
theorem splitPhase_pages_list (b : Btree) (key : Bs) (ref : Int) (q : Int)
    (h0 : 0 ≤ q) (hlt : q.toNat < b.pages.length)
    (hlow : ((b.pg q).splitP b.cap).1.size < b.cap)
    (hup : ((b.pg q).splitP b.cap).2.1.size < b.cap) :
    (splitPhase b key ref q).1.pages =
      ((b.pages ++ [(⟨(b.pg q).isLeaf, -1, -1, []⟩ : Page)]).set q.toNat
        (if keyLess key ((b.pg q).splitP b.cap).2.2 then
          { { ((b.pg q).splitP b.cap).1 with next := (b.pages.length : Int) } with
            recs := insRecs key ref ((b.pg q).splitP b.cap).1.recs }
        else { ((b.pg q).splitP b.cap).1 with next := (b.pages.length : Int) })).set
        b.pages.length
        (if keyLess key ((b.pg q).splitP b.cap).2.2 then
          { ((b.pg q).splitP b.cap).2.1 with next := (b.pg q).next }
        else { { ((b.pg q).splitP b.cap).2.1 with next := (b.pg q).next } with
          recs := insRecs key ref ((b.pg q).splitP b.cap).2.1.recs }) := by
  have hqL : q.toNat ≠ ((b.pages.length : Int)).toNat := by
    simp
    omega
  have hL0 : (0 : Int) ≤ (b.pages.length : Int) := by positivity
  have hq4 : (((b.newPg (b.pg q).isLeaf).2.setPg q
      { ((b.pg q).splitP b.cap).1 with next := (b.pages.length : Int) }).setPg
      ((b.pages.length : Int))
      { ((b.pg q).splitP b.cap).2.1 with next := (b.pg q).next }).pg q =
      { ((b.pg q).splitP b.cap).1 with next := (b.pages.length : Int) } := by
    rw [pg_setPg_ne _ _ _ _ (fun he => hqL he.symm)]
    exact pg_setPg_self _ _ _ h0 (by simp; omega)
  have hL4 : (((b.newPg (b.pg q).isLeaf).2.setPg q
      { ((b.pg q).splitP b.cap).1 with next := (b.pages.length : Int) }).setPg
      ((b.pages.length : Int))
      { ((b.pg q).splitP b.cap).2.1 with next := (b.pg q).next }).pg
      ((b.pages.length : Int)) =
      { ((b.pg q).splitP b.cap).2.1 with next := (b.pg q).next } := by
    refine pg_setPg_self _ _ _ hL0 ?_
    simp [List.length_set]
  unfold splitPhase
  simp only [newPg_fst]
  by_cases hkl : keyLess key ((b.pg q).splitP b.cap).2.2 = true
  · rw [if_pos hkl, if_pos hkl, if_pos hkl]
    rw [splitIns_pages _ b.cap key ref q (by rw [hq4]; simpa [Page.size] using hlow)]
    show ((((b.pages ++ [(⟨(b.pg q).isLeaf, -1, -1, []⟩ : Page)]).set q.toNat
        { ((b.pg q).splitP b.cap).1 with next := (b.pages.length : Int) }).set
        ((b.pages.length : Int)).toNat
        { ((b.pg q).splitP b.cap).2.1 with next := (b.pg q).next }).set q.toNat _) = _
    rw [hq4]
    rw [List.set_comm _ _ _ hqL, List.set_set, ← List.set_comm _ _ _ hqL]
    have htn : ((b.pages.length : Int)).toNat = b.pages.length := by simp
    rw [htn]
  · rw [if_neg hkl, if_neg hkl, if_neg hkl]
    rw [splitIns_pages _ b.cap key ref ((b.pages.length : Int))
      (by rw [hL4]; simpa [Page.size] using hup)]
    show ((((b.pages ++ [(⟨(b.pg q).isLeaf, -1, -1, []⟩ : Page)]).set q.toNat
        { ((b.pg q).splitP b.cap).1 with next := (b.pages.length : Int) }).set
        ((b.pages.length : Int)).toNat
        { ((b.pg q).splitP b.cap).2.1 with next := (b.pg q).next }).set
        ((b.pages.length : Int)).toNat _) = _
    rw [hL4]
    rw [List.set_set]
    have htn : ((b.pages.length : Int)).toNat = b.pages.length := by simp
    rw [htn]

theorem allLeafRecs_append (ps : List Page) (x : Page) :
    allLeafRecs (ps ++ [x]) =
      allLeafRecs ps ++ (if x.isLeaf then x.recs else []) := by
  simp [allLeafRecs, List.flatMap_append]

theorem allLeafRecs_set {ps : List Page} {i : Nat} (hi : i < ps.length) (p : Page) :
    allLeafRecs (ps.set i p) = allLeafRecs (ps.take i) ++
      ((if p.isLeaf then p.recs else []) ++ allLeafRecs (ps.drop (i + 1))) ∧
    allLeafRecs ps = allLeafRecs (ps.take i) ++
      ((if ps[i].isLeaf then ps[i].recs else []) ++ allLeafRecs (ps.drop (i + 1))) := by
  constructor
  · rw [List.set_eq_take_append_cons_drop, if_pos hi]
    simp only [allLeafRecs, List.flatMap_append, List.flatMap_cons]
  · conv_lhs => rw [← List.take_append_drop i ps, List.drop_eq_getElem_cons hi]
    simp only [allLeafRecs, List.flatMap_append, List.flatMap_cons]

/-- The virtual arena: the page at `t` with the pending record inserted
regardless of capacity.  The overfull intermediate states of `split` are
exactly trees over such arenas. -/
def vset (ps : List Page) (t : Int) (key : Bs) (c : Int) : List Page :=
  ps.set t.toNat { getP ps t with recs := insRecs key c (getP ps t).recs }

/-- The invariant carried through the recursion of `split`: the path leads
from the root to a full page which, with the pending record virtually
inserted, forms a well-formed tree of the stated height. -/
def splitInv (b : Btree) (nv : Nat) (key : Bs) (ref : Int) (pageRefs : List Int)
    (hT : Nat) : Prop :=
  2 ≤ pageRefs.length ∧
  pageRefs.head? = some b.root ∧
  2 ≤ b.cap ∧ b.cap % 2 = 0 ∧
  0 ≤ lastP pageRefs ∧ (lastP pageRefs).toNat < b.pages.length ∧
  (b.pg (lastP pageRefs)).size = b.cap ∧
  (∀ x ∈ (b.pg (lastP pageRefs)).recs, x.key ≠ key) ∧
  (∀ p ∈ b.pages, p.size ≤ b.cap) ∧
  pathP (vset b.pages (lastP pageRefs) key ref) nv key
    (hT + (pageRefs.length - 1)) pageRefs [] none ∧
  (reach (vset b.pages (lastP pageRefs) key ref)
    (hT + (pageRefs.length - 1)) b.root).Nodup ∧
  linkedB (vset b.pages (lastP pageRefs) key ref)
    (hT + (pageRefs.length - 1)) b.root (-1) = true ∧
  (∀ l ∈ reach (vset b.pages (lastP pageRefs) key ref)
      (hT + (pageRefs.length - 1)) b.root,
    (getP (vset b.pages (lastP pageRefs) key ref) l).isLeaf = true →
    (getP (vset b.pages (lastP pageRefs) key ref) l).recs ≠ []) ∧
  (∀ p ∈ vset b.pages (lastP pageRefs) key ref, p.isLeaf = false →
    ∀ r ∈ p.recs,
      r.key ∈ (allLeafRecs (vset b.pages (lastP pageRefs) key ref)).map
        (fun x => x.key))

theorem lastRef_eq_lastP : ∀ l : List Int, lastRef l = lastP l := by
  intro l
  induction l with
  | nil => rfl
  | cons a rest ih =>
    cases rest with
    | nil => rfl
    | cons b rest2 =>
      have h1 : lastRef (a :: b :: rest2) = lastRef (b :: rest2) := by
        simp [lastRef]
      rw [h1, ih, lastP_cons_cons]

theorem dropLast_head {l : List Int} (hlen : 2 ≤ l.length) :
    l.dropLast.head? = l.head? := by
  cases l with
  | nil => simp at hlen
  | cons a rest =>
    cases rest with
    | nil => simp at hlen
    | cons b rest2 => rfl

theorem parentRefOf_eq_lastP_dropLast :
    ∀ {l : List Int}, 2 ≤ l.length → parentRefOf l = lastP l.dropLast := by
  intro l
  induction l with
  | nil => intro h; simp at h
  | cons a rest ih =>
    intro hlen
    cases rest with
    | nil => simp at hlen
    | cons b rest2 =>
      cases rest2 with
      | nil => rfl
      | cons c rest3 =>
        have h1 : parentRefOf (a :: b :: c :: rest3) =
            parentRefOf (b :: c :: rest3) := by
          show (a :: b :: c :: rest3).getD ((a :: b :: c :: rest3).length - 2) 0 = _
          have harr : (a :: b :: c :: rest3).length - 2 =
              ((b :: c :: rest3).length - 2) + 1 := by
            simp
          rw [harr, List.getD_cons_succ]
          rfl
        have h2 : (a :: b :: c :: rest3).dropLast =
            a :: (b :: c :: rest3).dropLast := rfl
        have h3 : (b :: c :: rest3).dropLast = b :: (c :: rest3).dropLast := rfl
        rw [h1, ih (by simp), h2, h3, lastP_cons_cons, ← h3]

theorem nodup_par_last {l : List Int} (hnd : l.Nodup) (hlen : 2 ≤ l.length) :
    parentRefOf l ≠ lastRef l := by
  have h1 : parentRefOf l = l[l.length - 2] := by
    simp [parentRefOf, List.getD_eq_getElem?_getD,
      List.getElem?_eq_getElem (by omega : l.length - 2 < l.length)]
  have h2 : lastRef l = l[l.length - 1] := by
    simp [lastRef, List.getD_eq_getElem?_getD,
      List.getElem?_eq_getElem (by omega : l.length - 1 < l.length)]
  rw [h1, h2]
  intro he
  have := List.Nodup.getElem_inj_iff hnd |>.1 he
  omega

theorem splitP_halves_size {cap : Nat} (hcap2 : 2 ≤ cap) (p : Page)
    (hfull : p.size = cap) :
    (p.splitP cap).1.size < cap ∧ (p.splitP cap).2.1.size < cap := by
  by_cases hlf : p.isLeaf = true
  · have hlen : p.recs.length = cap := by simpa [Page.size, hlf] using hfull
    unfold Page.splitP
    rw [if_pos hlf]
    constructor
    · simp only [Page.size, hlf, if_pos, List.length_take]
      simp [hlen]
      omega
    · simp only [Page.size, List.length_drop]
      simp [hlen]
      omega
  · have hlf2 : p.isLeaf = false := by simpa using hlf
    have hlen : p.recs.length + 1 = cap := by simpa [Page.size, hlf2] using hfull
    unfold Page.splitP
    rw [if_neg (by simp [hlf2])]
    constructor
    · simp only [Page.size, hlf2, List.length_take]
      simp
      omega
    · simp only [Page.size, List.length_drop]
      simp
      omega

theorem insRecs_length {k : Bs} {v : Int} {l : List KeyRec}
    (hfr : ∀ x ∈ l, x.key ≠ k)
    (hch : List.Chain' (fun a b : KeyRec => keyLess a.key b.key = true) l) :
    (insRecs k v l).length = l.length + 1 := by
  obtain ⟨X, Y, hXY, hins, -, -⟩ := insRecs_decomp hfr hch
  rw [hins, hXY]
  simp only [List.length_append, List.length_cons]
  omega

theorem allLeafRecs_set_congr {ps : List Page} {i : Nat} (hi : i < ps.length)
    {p : Page}
    (hcon : (if p.isLeaf then p.recs else []) =
      (if ps[i].isLeaf then ps[i].recs else [])) :
    allLeafRecs (ps.set i p) = allLeafRecs ps := by
  obtain ⟨h1, h2⟩ := allLeafRecs_set hi p
  rw [h1, h2, hcon]

theorem getP_getElem {ps : List Page} {r : Int} (h : r.toNat < ps.length) :
    ps[r.toNat] = getP ps r := by
  simp [getP, List.getD_eq_getElem?_getD, List.getElem?_eq_getElem h]

theorem insRecs_self_mem (k : Bs) (v : Int) :
    ∀ l : List KeyRec, (⟨k, v⟩ : KeyRec) ∈ insRecs k v l := by
  intro l
  induction l with
  | nil => simp [insRecs]
  | cons r rs ih =>
    simp only [insRecs]
    split
    · simp
    · split
      · simp
      · simp [ih]

theorem set_append_concat {ps : List Page} {i : Nat} (hi : i < ps.length)
    (f PL PU : Page) :
    ((ps ++ [f]).set i PL).set ps.length PU = (ps.set i PL) ++ [PU] := by
  rw [List.set_append, if_pos (by simpa using hi), List.set_append,
    if_neg (by simp)]
  simp

/-- The splitting phase as a whole-tree equation: the lower half replaces
the split page in place and the upper half is appended. -/
theorem splitPhase_concat (b : Btree) (key : Bs) (ref : Int) (q : Int)
    (h0 : 0 ≤ q) (hlt : q.toNat < b.pages.length)
    (hlow : ((b.pg q).splitP b.cap).1.size < b.cap)
    (hup : ((b.pg q).splitP b.cap).2.1.size < b.cap) :
    (splitPhase b key ref q).1 = { b with pages :=
      (b.pages.set q.toNat
        (if keyLess key ((b.pg q).splitP b.cap).2.2 then
          { { ((b.pg q).splitP b.cap).1 with next := (b.pages.length : Int) } with
            recs := insRecs key ref ((b.pg q).splitP b.cap).1.recs }
        else { ((b.pg q).splitP b.cap).1 with next := (b.pages.length : Int) })) ++
      [(if keyLess key ((b.pg q).splitP b.cap).2.2 then
          { ((b.pg q).splitP b.cap).2.1 with next := (b.pg q).next }
        else { { ((b.pg q).splitP b.cap).2.1 with next := (b.pg q).next } with
          recs := insRecs key ref ((b.pg q).splitP b.cap).2.1.recs })] } := by
  obtain ⟨ps', hb5, hlen, hsk, hnpr, hout⟩ := splitPhase_facts b key ref q
  have hpg := splitPhase_pages_list b key ref q h0 hlt hlow hup
  have hshape : (splitPhase b key ref q).1 =
      { b with pages := (splitPhase b key ref q).1.pages } := by
    rw [hb5]
  rw [hshape, hpg, set_append_concat hlt]

theorem splitP_fst_isLeaf (N : Nat) (p : Page) : (p.splitP N).1.isLeaf = p.isLeaf := by
  unfold Page.splitP
  split <;> rfl

theorem splitP_snd_isLeaf (N : Nat) (p : Page) : (p.splitP N).2.1.isLeaf = p.isLeaf := by
  unfold Page.splitP
  split
  · rename_i hl
    simp [hl]
  · rename_i hl
    simp only []
    symm
    simpa using hl

theorem insRecs_mem_sub (k : Bs) (v : Int) :
    ∀ (l : List KeyRec) (x : KeyRec), x ∈ insRecs k v l → x = ⟨k, v⟩ ∨ x ∈ l := by
  intro l
  induction l with
  | nil =>
    intro x hx
    simp [insRecs] at hx
    exact Or.inl hx
  | cons r rs ih =>
    intro x hx
    simp only [insRecs] at hx
    split at hx
    · rcases List.mem_cons.1 hx with rfl | hx2
      · exact Or.inl rfl
      · exact Or.inr hx2
    · split at hx
      · rcases List.mem_cons.1 hx with rfl | hx2
        · exact Or.inl rfl
        · exact Or.inr (by simp [hx2])
      · rcases List.mem_cons.1 hx with rfl | hx2
        · exact Or.inr (by simp)
        · rcases ih x hx2 with h | h
          · exact Or.inl h
          · exact Or.inr (by simp [h])

theorem size_with_insRecs (p : Page) (k : Bs) (v : Int)
    (hfr : ∀ x ∈ p.recs, x.key ≠ k)
    (hch : List.Chain' (fun a c : KeyRec => keyLess a.key c.key = true) p.recs) :
    Page.size { p with recs := insRecs k v p.recs } = p.size + 1 := by
  by_cases hlf : p.isLeaf = true
  · simp [Page.size, hlf, insRecs_length hfr hch]
  · simp only [Bool.not_eq_true] at hlf
    simp [Page.size, hlf, insRecs_length hfr hch]

theorem size_with_next (p : Page) (n : Int) :
    Page.size { p with next := n } = p.size := by
  simp [Page.size]

theorem perm_mid_concat {α : Type} (TK DR P Q : List α) :
    ((TK ++ (P ++ DR)) ++ Q).Perm (TK ++ ((P ++ Q) ++ DR)) := by
  have h1 : (TK ++ (P ++ DR)) ++ Q = TK ++ (P ++ (DR ++ Q)) := by
    simp [List.append_assoc]
  have h2 : TK ++ ((P ++ Q) ++ DR) = TK ++ (P ++ (Q ++ DR)) := by
    simp [List.append_assoc]
  rw [h1, h2]
  exact List.Perm.append_left TK (List.Perm.append_left P List.perm_append_comm)

theorem allLeafRecs_mem {ps : List Page} {i : Nat} (hi : i < ps.length)
    (hl : ps[i].isLeaf = true) {x : KeyRec} (hx : x ∈ ps[i].recs) :
    x ∈ allLeafRecs ps := by
  have h2 := (allLeafRecs_set hi ps[i]).2
  rw [h2, if_pos hl]
  exact List.mem_append_right _ (List.mem_append_left _ hx)

/-- The separator key returned by splitting the page at `t`. -/
def splitSK (b : Btree) (t : Int) : Bs := ((b.pg t).splitP b.cap).2.2

/-- The lower half left in place by `splitPhase`, with the pending record
inserted when its key falls below the separator. -/
def splitPL (b : Btree) (key : Bs) (ref : Int) (t : Int) : Page :=
  if keyLess key (splitSK b t) then
    { { ((b.pg t).splitP b.cap).1 with next := ((b.pages.length : Int)) } with
      recs := insRecs key ref ((b.pg t).splitP b.cap).1.recs }
  else { ((b.pg t).splitP b.cap).1 with next := ((b.pages.length : Int)) }

/-- The upper half appended by `splitPhase`, with the pending record
inserted when its key is at or above the separator. -/
def splitPU (b : Btree) (key : Bs) (ref : Int) (t : Int) : Page :=
  if keyLess key (splitSK b t) then
    { ((b.pg t).splitP b.cap).2.1 with next := (b.pg t).next }
  else { { ((b.pg t).splitP b.cap).2.1 with next := (b.pg t).next } with
    recs := insRecs key ref ((b.pg t).splitP b.cap).2.1.recs }

/-- The tree produced by `splitPhase` in canonical form. -/
def splitB5 (b : Btree) (key : Bs) (ref : Int) (t : Int) : Btree :=
  { b with pages := (b.pages.set t.toNat (splitPL b key ref t)) ++
      [splitPU b key ref t] }

/-- The arena after the split with the separator virtually inserted into
the parent. -/
def vsplit (b : Btree) (key : Bs) (ref : Int) (t par : Int) : List Page :=
  vset (splitB5 b key ref t).pages par (splitSK b t) ((b.pages.length : Int))

theorem splitPhase_B5 (b : Btree) (key : Bs) (ref : Int) (q : Int)
    (h0 : 0 ≤ q) (hlt : q.toNat < b.pages.length)
    (hlow : ((b.pg q).splitP b.cap).1.size < b.cap)
    (hup : ((b.pg q).splitP b.cap).2.1.size < b.cap) :
    (splitPhase b key ref q).1 = splitB5 b key ref q := by
  rw [splitPhase_concat b key ref q h0 hlt hlow hup]
  rfl

/-- One step of the splitting recursion: from the carried invariant, the
splitting phase produces the canonical two-half arena, and with the
separator virtually inserted into the parent the whole tree keeps the
descent path, uniqueness of references, the leaf chain, the multiset of
leaf records, leaf non-emptiness and separator coverage. -/
theorem splitStep (b : Btree) (nv : Nat) (key : Bs) (ref : Int)
    (pageRefs : List Int) (hT : Nat)
    (hinv : splitInv b nv key ref pageRefs hT) :
    splitPhase b key ref (lastP pageRefs) =
      (splitB5 b key ref (lastP pageRefs), splitSK b (lastP pageRefs),
        ((b.pages.length : Int))) ∧
    0 ≤ parentRefOf pageRefs ∧
    (parentRefOf pageRefs).toNat < b.pages.length ∧
    (splitB5 b key ref (lastP pageRefs)).pg (parentRefOf pageRefs) =
      b.pg (parentRefOf pageRefs) ∧
    (b.pg (parentRefOf pageRefs)).isLeaf = false ∧
    (∀ p ∈ (splitB5 b key ref (lastP pageRefs)).pages, p.size ≤ b.cap) ∧
    (∀ x ∈ (b.pg (parentRefOf pageRefs)).recs,
      x.key ≠ splitSK b (lastP pageRefs)) ∧
    List.Chain' (fun a c : KeyRec => keyLess a.key c.key = true)
      (b.pg (parentRefOf pageRefs)).recs ∧
    pathP (vsplit b key ref (lastP pageRefs) (parentRefOf pageRefs)) nv
      (splitSK b (lastP pageRefs)) (hT + (pageRefs.length - 1))
      pageRefs.dropLast [] none ∧
    (reach (vsplit b key ref (lastP pageRefs) (parentRefOf pageRefs))
      (hT + (pageRefs.length - 1)) b.root).Nodup ∧
    linkedB (vsplit b key ref (lastP pageRefs) (parentRefOf pageRefs))
      (hT + (pageRefs.length - 1)) b.root (-1) = true ∧
    recsUnder (vsplit b key ref (lastP pageRefs) (parentRefOf pageRefs))
      (hT + (pageRefs.length - 1)) b.root =
      recsUnder (vset b.pages (lastP pageRefs) key ref)
        (hT + (pageRefs.length - 1)) b.root ∧
    (allLeafRecs (vsplit b key ref (lastP pageRefs) (parentRefOf pageRefs))).Perm
      (allLeafRecs (vset b.pages (lastP pageRefs) key ref)) ∧
    (∀ l ∈ reach (vsplit b key ref (lastP pageRefs) (parentRefOf pageRefs))
        (hT + (pageRefs.length - 1)) b.root,
      (getP (vsplit b key ref (lastP pageRefs) (parentRefOf pageRefs)) l).isLeaf =
        true →
      (getP (vsplit b key ref (lastP pageRefs) (parentRefOf pageRefs)) l).recs ≠
        []) ∧
    (∀ p ∈ vsplit b key ref (lastP pageRefs) (parentRefOf pageRefs),
      p.isLeaf = false → ∀ r ∈ p.recs,
      r.key ∈ (allLeafRecs
        (vsplit b key ref (lastP pageRefs) (parentRefOf pageRefs))).map
        (fun x => x.key)) := by
  obtain ⟨hlen2, hhead, hcap2, hcapev, ht0, htlt, hfull, hfresh, hsizes, hpath,
    hnd, hlink, hNE, hSEP⟩ := hinv
  have hhalves := splitP_halves_size hcap2 (b.pg (lastP pageRefs)) hfull
  have hconc := splitPhase_B5 b key ref (lastP pageRefs) ht0 htlt hhalves.1 hhalves.2
  obtain ⟨ps', hb5f, hlenf, hskf, hnprf, houtf⟩ :=
    splitPhase_facts b key ref (lastP pageRefs)
  have heq : splitPhase b key ref (lastP pageRefs) =
      (splitB5 b key ref (lastP pageRefs), splitSK b (lastP pageRefs),
        ((b.pages.length : Int))) := by
    have h1 : splitPhase b key ref (lastP pageRefs) =
        ((splitPhase b key ref (lastP pageRefs)).1,
         (splitPhase b key ref (lastP pageRefs)).2.1,
         (splitPhase b key ref (lastP pageRefs)).2.2) := rfl
    rw [h1, hconc, hskf, hnprf]
    rfl
  have hpsVlen : (vset b.pages (lastP pageRefs) key ref).length =
      b.pages.length := by
    simp [vset, length_set_eq]
  have hB5len : (splitB5 b key ref (lastP pageRefs)).pages.length =
      b.pages.length + 1 := by
    simp [splitB5, length_set_eq]
  have hV2len : (vsplit b key ref (lastP pageRefs)
      (parentRefOf pageRefs)).length = b.pages.length + 1 := by
    simp [vsplit, vset, length_set_eq, splitB5]
  have hndpath : pageRefs.Nodup :=
    pathP_nodup (hT + (pageRefs.length - 1)) pageRefs [] none b.root hpath
      hhead hnd
  have hparne : parentRefOf pageRefs ≠ lastP pageRefs := by
    have h1 := nodup_par_last hndpath hlen2
    rw [lastRef_eq_lastP] at h1
    exact h1
  obtain ⟨loP, hiP, lo2, hi2, hgPar0, hhole0, hgT, hklo2, hkhi2⟩ :=
    pathP_last_pair (hT + (pageRefs.length - 1)) hT pageRefs [] none hpath
      hlen2 rfl
  rw [← parentRefOf_eq_lastP_dropLast hlen2] at hgPar0 hhole0
  have hparok := reach_ok (hT + 1) (parentRefOf pageRefs) loP hiP hgPar0
    (parentRefOf pageRefs) (self_mem_reach _ _ _)
  have hpar0 : 0 ≤ parentRefOf pageRefs := hparok.1
  have hparlt : (parentRefOf pageRefs).toNat < b.pages.length := by
    have h2 := hparok.2
    rwa [hpsVlen] at h2
  have hparT : (parentRefOf pageRefs).toNat ≠ (lastP pageRefs).toNat := by
    intro he
    exact hparne (by omega)
  have hVpar : getP (vset b.pages (lastP pageRefs) key ref)
      (parentRefOf pageRefs) = b.pg (parentRefOf pageRefs) := by
    simp only [vset]
    exact getP_set_ne _ _ _ _ (fun he => hparT he.symm)
  have hVt : getP (vset b.pages (lastP pageRefs) key ref) (lastP pageRefs) =
      { b.pg (lastP pageRefs) with
        recs := insRecs key ref (b.pg (lastP pageRefs)).recs } := by
    simp only [vset]
    exact getP_set_self2 b.pages (lastP pageRefs) _ ht0 htlt
  have hgParc := hgPar0
  simp only [goodT, Bool.and_eq_true, Bool.not_eq_true', decide_eq_true_eq]
    at hgParc
  obtain ⟨⟨⟨⟨hokp, hleafp⟩, hf0p⟩, hgfp⟩, hkidsp⟩ := hgParc
  have hparleaf : (b.pg (parentRefOf pageRefs)).isLeaf = false := by
    rw [← hVpar]
    exact hleafp
  have hchainp : List.Chain' (fun a c : KeyRec => keyLess a.key c.key = true)
      (b.pg (parentRefOf pageRefs)).recs := by
    rw [← hVpar]
    exact List.chain'_iff_pairwise.2 (goodKidsAux_pairwise hkidsp)
  have hpathD := pathP_dropLast (hT + (pageRefs.length - 1)) pageRefs [] none
    hpath hlen2
  have hheadD : pageRefs.dropLast.head? = some b.root := by
    rw [dropLast_head hlen2]
    exact hhead
  have hlenD : (hT + (pageRefs.length - 1)) =
      (hT + 1) + (pageRefs.dropLast.length - 1) := by
    simp only [List.length_dropLast]
    omega
  have hsubP := pathP_last_reach_sublist (hT + (pageRefs.length - 1))
    pageRefs.dropLast [] none b.root (hT + 1) hpathD hheadD hlenD
  rw [← parentRefOf_eq_lastP_dropLast hlen2] at hsubP
  have hndP : (reach (vset b.pages (lastP pageRefs) key ref) (hT + 1)
      (parentRefOf pageRefs)).Nodup := hnd.sublist hsubP
  have hexpP : reach (vset b.pages (lastP pageRefs) key ref) (hT + 1)
      (parentRefOf pageRefs) =
      parentRefOf pageRefs ::
        (reach (vset b.pages (lastP pageRefs) key ref) hT
            (getP (vset b.pages (lastP pageRefs) key ref)
              (parentRefOf pageRefs)).first ++
          (getP (vset b.pages (lastP pageRefs) key ref)
            (parentRefOf pageRefs)).recs.flatMap
            (fun r => reach (vset b.pages (lastP pageRefs) key ref) hT r.ref)) := by
    rw [reach, if_neg (by simp [hleafp])]
  have hliftT : ∀ s ∈ reach (vset b.pages (lastP pageRefs) key ref) hT
      (lastP pageRefs),
      s ∈ reach (vset b.pages (lastP pageRefs) key ref) hT
          (getP (vset b.pages (lastP pageRefs) key ref)
            (parentRefOf pageRefs)).first ++
        (getP (vset b.pages (lastP pageRefs) key ref)
          (parentRefOf pageRefs)).recs.flatMap
          (fun r => reach (vset b.pages (lastP pageRefs) key ref) hT r.ref) := by
    intro s hs
    rcases hhole0 with ⟨hcf, -, -⟩ | ⟨A, B, hABp, -⟩
    · refine List.mem_append_left _ ?_
      rw [← hcf]
      exact hs
    · refine List.mem_append_right _ ?_
      refine List.mem_flatMap.2 ⟨⟨lo2, lastP pageRefs⟩, ?_, hs⟩
      rw [hABp]
      exact List.mem_append_right _ (List.mem_cons_self _ _)
  have hsortR : (b.pg (lastP pageRefs)).recs.Pairwise
      (fun a c => keyLess a.key c.key = true) := by
    cases hT with
    | zero =>
      have hgc := hgT
      simp only [goodT, Bool.and_eq_true] at hgc
      have hpw := leafRecsOk_pairwise hgc.2
      rw [hVt] at hpw
      exact List.Pairwise.sublist
        (sublist_insRecs key ref (b.pg (lastP pageRefs)).recs hfresh) hpw
    | succ h2 =>
      have hgc := hgT
      simp only [goodT, Bool.and_eq_true] at hgc
      have hpw := goodKidsAux_pairwise hgc.2
      rw [hVt] at hpw
      exact List.Pairwise.sublist
        (sublist_insRecs key ref (b.pg (lastP pageRefs)).recs hfresh) hpw
  have hB5t : getP (splitB5 b key ref (lastP pageRefs)).pages (lastP pageRefs) =
      splitPL b key ref (lastP pageRefs) := by
    show getP ((b.pages.set (lastP pageRefs).toNat
      (splitPL b key ref (lastP pageRefs))) ++
      [splitPU b key ref (lastP pageRefs)]) (lastP pageRefs) = _
    rw [getP_append_lt _ _ _ (by rw [length_set_eq]; exact htlt)]
    exact getP_set_self2 _ _ _ ht0 htlt
  have hB5L : getP (splitB5 b key ref (lastP pageRefs)).pages
      ((b.pages.length : Int)) = splitPU b key ref (lastP pageRefs) := by
    show getP ((b.pages.set (lastP pageRefs).toNat
      (splitPL b key ref (lastP pageRefs))) ++
      [splitPU b key ref (lastP pageRefs)]) ((b.pages.length : Int)) = _
    have h1 := getP_append_self
      (b.pages.set (lastP pageRefs).toNat (splitPL b key ref (lastP pageRefs)))
      (splitPU b key ref (lastP pageRefs))
    rw [length_set_eq] at h1
    exact h1
  have hB5par : getP (splitB5 b key ref (lastP pageRefs)).pages
      (parentRefOf pageRefs) = b.pg (parentRefOf pageRefs) := by
    show getP ((b.pages.set (lastP pageRefs).toNat
      (splitPL b key ref (lastP pageRefs))) ++
      [splitPU b key ref (lastP pageRefs)]) (parentRefOf pageRefs) = _
    rw [getP_append_lt _ _ _ (by rw [length_set_eq]; exact hparlt)]
    exact getP_set_ne _ _ _ _ (fun he => hparT he.symm)
  have hB5par' : getP ((b.pages.set (lastP pageRefs).toNat
      (splitPL b key ref (lastP pageRefs))) ++
      [splitPU b key ref (lastP pageRefs)]) (parentRefOf pageRefs) =
      b.pg (parentRefOf pageRefs) := hB5par
  have hB5out : ∀ s : Int, s.toNat ≠ (lastP pageRefs).toNat →
      s.toNat ≠ b.pages.length →
      getP (splitB5 b key ref (lastP pageRefs)).pages s = b.pg s := by
    intro s h1 h2
    show getP ((b.pages.set (lastP pageRefs).toNat
      (splitPL b key ref (lastP pageRefs))) ++
      [splitPU b key ref (lastP pageRefs)]) s = _
    rw [getP_append_ne _ _ _ (by rw [length_set_eq]; exact h2)]
    exact getP_set_ne _ _ _ _ (fun he => h1 he.symm)
  have hparlt2 : (parentRefOf pageRefs).toNat <
      (splitB5 b key ref (lastP pageRefs)).pages.length := by
    rw [hB5len]
    omega
  have hV2par : getP (vsplit b key ref (lastP pageRefs) (parentRefOf pageRefs))
      (parentRefOf pageRefs) =
      { b.pg (parentRefOf pageRefs) with
        recs := insRecs (splitSK b (lastP pageRefs)) ((b.pages.length : Int))
          (b.pg (parentRefOf pageRefs)).recs } := by
    simp only [vsplit, vset]
    rw [getP_set_self2 _ _ _ hpar0 hparlt2, hB5par]
  have hV2t : getP (vsplit b key ref (lastP pageRefs) (parentRefOf pageRefs))
      (lastP pageRefs) = splitPL b key ref (lastP pageRefs) := by
    simp only [vsplit, vset]
    rw [getP_set_ne _ _ _ _ hparT]
    exact hB5t
  have hparLne : (parentRefOf pageRefs).toNat ≠
      ((b.pages.length : Int)).toNat := by
    simp
    omega
  have hV2L : getP (vsplit b key ref (lastP pageRefs) (parentRefOf pageRefs))
      ((b.pages.length : Int)) = splitPU b key ref (lastP pageRefs) := by
    simp only [vsplit, vset]
    rw [getP_set_ne _ _ _ _ hparLne]
    exact hB5L
  have hV2out : ∀ s : Int, s.toNat ≠ (lastP pageRefs).toNat →
      s.toNat ≠ b.pages.length → s.toNat ≠ (parentRefOf pageRefs).toNat →
      getP (vsplit b key ref (lastP pageRefs) (parentRefOf pageRefs)) s =
        getP (vset b.pages (lastP pageRefs) key ref) s := by
    intro s h1 h2 h3
    simp only [vsplit, vset]
    rw [getP_set_ne _ _ _ _ (fun he => h3 he.symm), hB5out s h1 h2]
    exact (getP_set_ne _ _ _ _ (fun he => h1 he.symm)).symm
  have hTpack :
      (∀ lo3 hi3, goodT (vset b.pages (lastP pageRefs) key ref) nv hT
          (lastP pageRefs) lo3 hi3 = true →
        keyLess lo3 (splitSK b (lastP pageRefs)) = true ∧
        inUpper hi3 (splitSK b (lastP pageRefs)) = true ∧
        goodT (vsplit b key ref (lastP pageRefs) (parentRefOf pageRefs)) nv hT
          (lastP pageRefs) lo3 (some (splitSK b (lastP pageRefs))) = true ∧
        goodT (vsplit b key ref (lastP pageRefs) (parentRefOf pageRefs)) nv hT
          ((b.pages.length : Int)) (splitSK b (lastP pageRefs)) hi3 = true) ∧
      recsUnder (vsplit b key ref (lastP pageRefs) (parentRefOf pageRefs)) hT
          (lastP pageRefs) ++
        recsUnder (vsplit b key ref (lastP pageRefs) (parentRefOf pageRefs)) hT
          ((b.pages.length : Int)) =
        recsUnder (vset b.pages (lastP pageRefs) key ref) hT (lastP pageRefs) ∧
      (∃ RL RU, reach (vset b.pages (lastP pageRefs) key ref) hT
          (lastP pageRefs) = RL ++ RU ∧
        reach (vsplit b key ref (lastP pageRefs) (parentRefOf pageRefs)) hT
          (lastP pageRefs) = RL ∧
        reach (vsplit b key ref (lastP pageRefs) (parentRefOf pageRefs)) hT
          ((b.pages.length : Int)) = ((b.pages.length : Int)) :: RU) ∧
      lml (vsplit b key ref (lastP pageRefs) (parentRefOf pageRefs)) hT
          (lastP pageRefs) =
        lml (vset b.pages (lastP pageRefs) key ref) hT (lastP pageRefs) ∧
      (∀ nxt, linkedB (vset b.pages (lastP pageRefs) key ref) hT
          (lastP pageRefs) nxt = true →
        linkedB (vsplit b key ref (lastP pageRefs) (parentRefOf pageRefs)) hT
          (lastP pageRefs)
          (lml (vsplit b key ref (lastP pageRefs) (parentRefOf pageRefs)) hT
            ((b.pages.length : Int))) = true ∧
        linkedB (vsplit b key ref (lastP pageRefs) (parentRefOf pageRefs)) hT
          ((b.pages.length : Int)) nxt = true) := by
    cases hT with
    | zero =>
      have hlf : (b.pg (lastP pageRefs)).isLeaf = true := by
        have h2 := hgT
        simp only [goodT, Bool.and_eq_true] at h2
        have h3 := h2.1.2
        rw [hVt] at h3
        exact h3
      exact splitT_leaf hcap2 ht0 htlt rfl hlf hfull hfresh hsortR rfl
        (by rw [hV2len]) hV2t hV2L
    | succ h2 =>
      have hlf : (b.pg (lastP pageRefs)).isLeaf = false := by
        have h3 := hgT
        simp only [goodT, Bool.and_eq_true, Bool.not_eq_true'] at h3
        have h4 := h3.1.1.1.2
        rw [hVt] at h4
        exact h4
      have hndt : (reach (vset b.pages (lastP pageRefs) key ref) (h2 + 1)
          (lastP pageRefs)).Nodup := by
        have hsubt := pathP_last_reach_sublist ((h2 + 1) + (pageRefs.length - 1))
          pageRefs [] none b.root (h2 + 1) hpath hhead rfl
        exact hnd.sublist hsubt
      have hndP2 := hndP
      rw [hexpP] at hndP2
      have hheadnot := (List.nodup_cons.1 hndP2).1
      have hout : ∀ s : Int,
          s ∈ reach (vset b.pages (lastP pageRefs) key ref) (h2 + 1)
            (lastP pageRefs) → s ≠ lastP pageRefs →
          getP (vsplit b key ref (lastP pageRefs) (parentRefOf pageRefs)) s =
            getP (vset b.pages (lastP pageRefs) key ref) s := by
        intro s hs hst
        have hsr := reach_ok (h2 + 1) (lastP pageRefs) lo2 hi2 hgT s hs
        have hs0 := hsr.1
        have hslt : s.toNat < b.pages.length := by
          rw [← hpsVlen]
          exact hsr.2
        have hsp : s ≠ parentRefOf pageRefs := by
          intro he
          exact hheadnot (he ▸ hliftT s hs)
        have h1 : s.toNat ≠ (lastP pageRefs).toNat := by
          intro he
          exact hst (by omega)
        have h5 : s.toNat ≠ b.pages.length := by omega
        have h3 : s.toNat ≠ (parentRefOf pageRefs).toNat := by
          intro he
          exact hsp (by omega)
        exact hV2out s h1 h5 h3
      exact splitT_int hcap2 ht0 htlt rfl hlf hfull hfresh hsortR rfl
        (by rw [hV2len]) hV2t hV2L hndt hout
  have hLfresh : (vset b.pages (lastP pageRefs) key ref).length ≤
      ((b.pages.length : Int)).toNat := by
    rw [hpsVlen]
    simp
  have hlenAB : (vset b.pages (lastP pageRefs) key ref).length ≤
      (vsplit b key ref (lastP pageRefs) (parentRefOf pageRefs)).length := by
    rw [hpsVlen, hV2len]
    omega
  have hBparV2 : getP (vsplit b key ref (lastP pageRefs) (parentRefOf pageRefs))
      (parentRefOf pageRefs) =
      { getP (vset b.pages (lastP pageRefs) key ref) (parentRefOf pageRefs) with
        recs := insRecs (splitSK b (lastP pageRefs)) ((b.pages.length : Int))
          (getP (vset b.pages (lastP pageRefs) key ref)
            (parentRefOf pageRefs)).recs } := by
    rw [hV2par, hVpar]
  have hdiff : ∀ s : Int, s.toNat ≠ (parentRefOf pageRefs).toNat →
      s.toNat ≠ (lastP pageRefs).toNat →
      s.toNat ≠ ((b.pages.length : Int)).toNat →
      getP (vsplit b key ref (lastP pageRefs) (parentRefOf pageRefs)) s =
        getP (vset b.pages (lastP pageRefs) key ref) s := by
    intro s h1 h2 h3
    exact hV2out s h2 (by simpa using h3) h1
  have hPpack :
      (∀ lo3 hi3, goodT (vset b.pages (lastP pageRefs) key ref) nv (hT + 1)
          (parentRefOf pageRefs) lo3 hi3 = true →
        goodT (vsplit b key ref (lastP pageRefs) (parentRefOf pageRefs)) nv
          (hT + 1) (parentRefOf pageRefs) lo3 hi3 = true) ∧
      recsUnder (vsplit b key ref (lastP pageRefs) (parentRefOf pageRefs))
          (hT + 1) (parentRefOf pageRefs) =
        recsUnder (vset b.pages (lastP pageRefs) key ref) (hT + 1)
          (parentRefOf pageRefs) ∧
      (∃ X Y, reach (vset b.pages (lastP pageRefs) key ref) (hT + 1)
          (parentRefOf pageRefs) = X ++ Y ∧
        reach (vsplit b key ref (lastP pageRefs) (parentRefOf pageRefs))
          (hT + 1) (parentRefOf pageRefs) = X ++ ((b.pages.length : Int)) :: Y) ∧
      lml (vsplit b key ref (lastP pageRefs) (parentRefOf pageRefs)) (hT + 1)
          (parentRefOf pageRefs) =
        lml (vset b.pages (lastP pageRefs) key ref) (hT + 1)
          (parentRefOf pageRefs) ∧
      (∀ nxt, linkedB (vset b.pages (lastP pageRefs) key ref) (hT + 1)
          (parentRefOf pageRefs) nxt = true →
        linkedB (vsplit b key ref (lastP pageRefs) (parentRefOf pageRefs))
          (hT + 1) (parentRefOf pageRefs) nxt = true) := by
    obtain ⟨hT1, hT2, hT3, hT4, hT5⟩ := hTpack
    rcases hhole0 with ⟨hcf, -, -⟩ | ⟨A, B, hABp, -⟩
    · exact parSwap_first ht0 hLfresh hlenAB hgPar0 hndP hdiff hBparV2 hcf.symm
        hT1 hT2 hT3 hT4 hT5
    · exact parSwap_rec ht0 hLfresh hlenAB hgPar0 hndP hdiff hBparV2 hABp
        hT1 hT2 hT3 hT4 hT5
  have hframeOut : ∀ s : Int, 0 ≤ s →
      s.toNat < (vset b.pages (lastP pageRefs) key ref).length →
      s ∉ reach (vset b.pages (lastP pageRefs) key ref) (hT + 1)
        (parentRefOf pageRefs) →
      getP (vsplit b key ref (lastP pageRefs) (parentRefOf pageRefs)) s =
        getP (vset b.pages (lastP pageRefs) key ref) s := by
    intro s hs0 hslt hsnm
    have h3 : s.toNat ≠ (parentRefOf pageRefs).toNat := by
      intro he
      apply hsnm
      have he2 : s = parentRefOf pageRefs := by omega
      rw [he2]
      exact self_mem_reach _ _ _
    have h1 : s.toNat ≠ (lastP pageRefs).toNat := by
      intro he
      apply hsnm
      have he2 : s = lastP pageRefs := by omega
      rw [he2, hexpP]
      exact List.mem_cons_of_mem _ (hliftT _ (self_mem_reach _ _ _))
    have h2 : s.toNat ≠ b.pages.length := by
      rw [hpsVlen] at hslt
      omega
    exact hV2out s h1 h2 h3
  have hswap := pathSwap hlenAB hframeOut hPpack.1 hPpack.2.1 hPpack.2.2.1
    hPpack.2.2.2.1 hPpack.2.2.2.2 (hT + (pageRefs.length - 1))
    pageRefs.dropLast [] none b.root hpathD hheadD
    (parentRefOf_eq_lastP_dropLast hlen2).symm hlenD hnd
  have hparmemV2 : (⟨splitSK b (lastP pageRefs), ((b.pages.length : Int))⟩ :
      KeyRec) ∈ (getP (vsplit b key ref (lastP pageRefs)
        (parentRefOf pageRefs)) (parentRefOf pageRefs)).recs := by
    rw [hV2par]
    exact insRecs_self_mem _ _ _
  have hpath2 : pathP (vsplit b key ref (lastP pageRefs)
      (parentRefOf pageRefs)) nv (splitSK b (lastP pageRefs))
      (hT + (pageRefs.length - 1)) pageRefs.dropLast [] none := by
    refine pathP_change_key (hT + (pageRefs.length - 1)) (hT + 1)
      pageRefs.dropLast [] none hswap.1 hlenD ?_
    intro lo3 hi3 hg3 hk1 hk2
    rw [← parentRefOf_eq_lastP_dropLast hlen2] at hg3
    simp only [goodT, Bool.and_eq_true, Bool.not_eq_true', decide_eq_true_eq]
      at hg3
    obtain ⟨-, hkids3⟩ := hg3
    obtain ⟨A2, B2, hA2B2⟩ := List.append_of_mem hparmemV2
    rw [hA2B2] at hkids3
    have hd := goodKidsAux_decomp hkids3
    exact ⟨keyLess_asymm hd.1, hd.2.1⟩
  have hnd2 : (reach (vsplit b key ref (lastP pageRefs)
      (parentRefOf pageRefs)) (hT + (pageRefs.length - 1)) b.root).Nodup := by
    obtain ⟨X, Y, hXY, hXY2⟩ := hswap.2.2.1
    rw [hXY2]
    refine List.nodup_middle.2 (List.nodup_cons.2 ⟨?_, ?_⟩)
    · intro hmem
      rw [← hXY] at hmem
      have h2 := (reach_ok (hT + (pageRefs.length - 1)) b.root [] none
        (pathP_head_good hpath hhead) _ hmem).2
      rw [hpsVlen] at h2
      simp at h2
    · rw [← hXY]
      exact hnd
  have hlink2 := hswap.2.2.2.2 (-1) hlink
  have hssPL : ((b.pg (lastP pageRefs)).splitP b.cap).1.recs ⊆
      (b.pg (lastP pageRefs)).recs := by
    unfold Page.splitP
    split
    · exact List.take_subset _ _
    · exact List.take_subset _ _
  have hssPU : ((b.pg (lastP pageRefs)).splitP b.cap).2.1.recs ⊆
      (b.pg (lastP pageRefs)).recs := by
    unfold Page.splitP
    split
    · exact List.drop_subset _ _
    · exact List.drop_subset _ _
  have hslPL : (((b.pg (lastP pageRefs)).splitP b.cap).1.recs).Sublist
      (b.pg (lastP pageRefs)).recs := by
    unfold Page.splitP
    split
    · exact List.take_sublist _ _
    · exact List.take_sublist _ _
  have hslPU : (((b.pg (lastP pageRefs)).splitP b.cap).2.1.recs).Sublist
      (b.pg (lastP pageRefs)).recs := by
    unfold Page.splitP
    split
    · exact List.drop_sublist _ _
    · exact List.drop_sublist _ _
  have hfreshPL : ∀ x ∈ ((b.pg (lastP pageRefs)).splitP b.cap).1.recs,
      x.key ≠ key := fun x hx => hfresh x (hssPL hx)
  have hfreshPU : ∀ x ∈ ((b.pg (lastP pageRefs)).splitP b.cap).2.1.recs,
      x.key ≠ key := fun x hx => hfresh x (hssPU hx)
  have hchainPL : List.Chain' (fun a c : KeyRec => keyLess a.key c.key = true)
      ((b.pg (lastP pageRefs)).splitP b.cap).1.recs :=
    List.chain'_iff_pairwise.2 (hsortR.sublist hslPL)
  have hchainPU : List.Chain' (fun a c : KeyRec => keyLess a.key c.key = true)
      ((b.pg (lastP pageRefs)).splitP b.cap).2.1.recs :=
    List.chain'_iff_pairwise.2 (hsortR.sublist hslPU)
  have hsizePL : (splitPL b key ref (lastP pageRefs)).size ≤ b.cap := by
    unfold splitPL
    split
    · have h2 : Page.size { { ((b.pg (lastP pageRefs)).splitP b.cap).1 with
          next := ((b.pages.length : Int)) } with
          recs := insRecs key ref
            ((b.pg (lastP pageRefs)).splitP b.cap).1.recs } =
          Page.size { ((b.pg (lastP pageRefs)).splitP b.cap).1 with
            next := ((b.pages.length : Int)) } + 1 :=
        size_with_insRecs _ key ref hfreshPL hchainPL
      rw [size_with_next] at h2
      rw [h2]
      omega
    · rw [size_with_next]
      omega
  have hsizePU : (splitPU b key ref (lastP pageRefs)).size ≤ b.cap := by
    unfold splitPU
    split
    · rw [size_with_next]
      omega
    · have h2 : Page.size { { ((b.pg (lastP pageRefs)).splitP b.cap).2.1 with
          next := (b.pg (lastP pageRefs)).next } with
          recs := insRecs key ref
            ((b.pg (lastP pageRefs)).splitP b.cap).2.1.recs } =
          Page.size { ((b.pg (lastP pageRefs)).splitP b.cap).2.1 with
            next := (b.pg (lastP pageRefs)).next } + 1 :=
        size_with_insRecs _ key ref hfreshPU hchainPU
      rw [size_with_next] at h2
      rw [h2]
      omega
  have hsizes5 : ∀ p ∈ (splitB5 b key ref (lastP pageRefs)).pages,
      p.size ≤ b.cap := by
    intro p hp
    simp only [splitB5] at hp
    rcases List.mem_append.1 hp with hp2 | hp2
    · rcases List.mem_or_eq_of_mem_set hp2 with hp3 | hp3
      · exact hsizes p hp3
      · rw [hp3]
        exact hsizePL
    · have hp3 : p = splitPU b key ref (lastP pageRefs) := by simpa using hp2
      rw [hp3]
      exact hsizePU
  have hSKwin := hTpack.1 lo2 hi2 hgT
  have hfreshSK : ∀ x ∈ (b.pg (parentRefOf pageRefs)).recs,
      x.key ≠ splitSK b (lastP pageRefs) := by
    intro x hx hxk
    have hx2 : x ∈ (getP (vset b.pages (lastP pageRefs) key ref)
        (parentRefOf pageRefs)).recs := by
      rw [hVpar]
      exact hx
    rcases hhole0 with ⟨hcf, hlo2e, hhi2e⟩ | ⟨A, B, hABp, hhi2e⟩
    · obtain ⟨A2, B2, hA2⟩ := List.append_of_mem hx2
      have hk2 := hkidsp
      rw [hA2] at hk2
      have hd := goodKidsAux_decomp hk2
      have hup := hSKwin.2.1
      rw [hhi2e, hA2] at hup
      cases A2 with
      | nil =>
        simp only [List.nil_append, headHiK, inUpper] at hup
        rw [hxk] at hup
        rw [keyLess_irrefl] at hup
        simp at hup
      | cons a2 rest2 =>
        simp only [List.cons_append, headHiK, inUpper] at hup
        have hax := (hd.2.2.2.2 a2 (List.mem_cons_self _ _)).2
        have htr := keyLess_trans hup hax
        rw [hxk] at htr
        rw [keyLess_irrefl] at htr
        simp at htr
    · have hk2 := hkidsp
      rw [hABp] at hk2
      have hd := goodKidsAux_decomp hk2
      have hSKlo := hSKwin.1
      rw [hABp] at hx2
      rcases List.mem_append.1 hx2 with hxA | hxR
      · have h1 := (hd.2.2.2.2 x hxA).2
        have h5 := keyLess_trans h1 hSKlo
        rw [hxk, keyLess_irrefl] at h5
        simp at h5
      · rcases List.mem_cons.1 hxR with hxe | hxB
        · have h3 : lo2 = splitSK b (lastP pageRefs) := by
            rw [hxe] at hxk
            exact hxk
          have h5 := hSKwin.1
          rw [h3, keyLess_irrefl] at h5
          simp at h5
        · have hup := hSKwin.2.1
          rw [hhi2e] at hup
          cases B with
          | nil => simp at hxB
          | cons b1 restB =>
            simp only [headHiK, inUpper] at hup
            rcases List.mem_cons.1 hxB with hxb1 | hxB2
            · have h3 : x.key = b1.key := by rw [hxb1]
              rw [h3] at hxk
              rw [hxk, keyLess_irrefl] at hup
              simp at hup
            · have hd42 := hd.2.2.2.1
              simp only [goodKidsAux, Bool.and_eq_true] at hd42
              have htail := hd42.2
              have hblt := goodKidsAux_lo_lt htail x hxB2
              have htr := keyLess_trans hup hblt
              rw [hxk, keyLess_irrefl] at htr
              simp at htr
  have hPLleaf : (splitPL b key ref (lastP pageRefs)).isLeaf =
      (b.pg (lastP pageRefs)).isLeaf := by
    unfold splitPL
    split
    · show ((b.pg (lastP pageRefs)).splitP b.cap).1.isLeaf = _
      exact splitP_fst_isLeaf _ _
    · show ((b.pg (lastP pageRefs)).splitP b.cap).1.isLeaf = _
      exact splitP_fst_isLeaf _ _
  have hPUleaf : (splitPU b key ref (lastP pageRefs)).isLeaf =
      (b.pg (lastP pageRefs)).isLeaf := by
    unfold splitPU
    split
    · show ((b.pg (lastP pageRefs)).splitP b.cap).2.1.isLeaf = _
      exact splitP_snd_isLeaf _ _
    · show ((b.pg (lastP pageRefs)).splitP b.cap).2.1.isLeaf = _
      exact splitP_snd_isLeaf _ _
  have hA1 : allLeafRecs (vsplit b key ref (lastP pageRefs)
      (parentRefOf pageRefs)) =
      allLeafRecs (splitB5 b key ref (lastP pageRefs)).pages := by
    refine allLeafRecs_set_congr hparlt2 ?_
    rw [getP_getElem hparlt2, hB5par]
    rw [if_neg (by simp [hB5par, hparleaf]), if_neg (by simp [hparleaf])]
  have hA2 : allLeafRecs (splitB5 b key ref (lastP pageRefs)).pages =
      allLeafRecs (b.pages.set (lastP pageRefs).toNat
        (splitPL b key ref (lastP pageRefs))) ++
      (if (splitPU b key ref (lastP pageRefs)).isLeaf then
        (splitPU b key ref (lastP pageRefs)).recs else []) := by
    show allLeafRecs ((b.pages.set (lastP pageRefs).toNat
      (splitPL b key ref (lastP pageRefs))) ++
      [splitPU b key ref (lastP pageRefs)]) = _
    exact allLeafRecs_append _ _
  obtain ⟨hb1, -⟩ := allLeafRecs_set htlt (splitPL b key ref (lastP pageRefs))
  obtain ⟨hc1, -⟩ := allLeafRecs_set htlt
    ({ getP b.pages (lastP pageRefs) with
      recs := insRecs key ref (getP b.pages (lastP pageRefs)).recs })
  have hc1' : allLeafRecs (vset b.pages (lastP pageRefs) key ref) =
      allLeafRecs (b.pages.take (lastP pageRefs).toNat) ++
      ((if ({ getP b.pages (lastP pageRefs) with
          recs := insRecs key ref (getP b.pages (lastP pageRefs)).recs } :
            Page).isLeaf then
        insRecs key ref (getP b.pages (lastP pageRefs)).recs else []) ++
        allLeafRecs (b.pages.drop ((lastP pageRefs).toNat + 1))) := hc1
  have hperm : (allLeafRecs (vsplit b key ref (lastP pageRefs)
      (parentRefOf pageRefs))).Perm
      (allLeafRecs (vset b.pages (lastP pageRefs) key ref)) := by
    cases hlfT : (b.pg (lastP pageRefs)).isLeaf with
    | true =>
      have hPLl : (splitPL b key ref (lastP pageRefs)).isLeaf = true := by
        rw [hPLleaf]
        exact hlfT
      have hPUl : (splitPU b key ref (lastP pageRefs)).isLeaf = true := by
        rw [hPUleaf]
        exact hlfT
      have hl1 : (getP (vsplit b key ref (lastP pageRefs)
          (parentRefOf pageRefs)) (lastP pageRefs)).isLeaf = true := by
        rw [hV2t]
        exact hPLl
      have hl2 : (getP (vsplit b key ref (lastP pageRefs)
          (parentRefOf pageRefs)) ((b.pages.length : Int))).isLeaf = true := by
        rw [hV2L]
        exact hPUl
      have hl3 : (getP (vset b.pages (lastP pageRefs) key ref)
          (lastP pageRefs)).isLeaf = true := by
        rw [hVt]
        exact hlfT
      have hTvl : ({ getP b.pages (lastP pageRefs) with
          recs := insRecs key ref (getP b.pages (lastP pageRefs)).recs } :
            Page).isLeaf = true := hlfT
      have hcontent : (splitPL b key ref (lastP pageRefs)).recs ++
          (splitPU b key ref (lastP pageRefs)).recs =
          insRecs key ref (b.pg (lastP pageRefs)).recs := by
        have h2 := hTpack.2.1
        rw [recsUnder_leaf hT hl1, recsUnder_leaf hT hl2, recsUnder_leaf hT hl3,
          hV2t, hV2L, hVt] at h2
        exact h2
      have e1 : allLeafRecs (vsplit b key ref (lastP pageRefs)
          (parentRefOf pageRefs)) =
          (allLeafRecs (b.pages.take (lastP pageRefs).toNat) ++
            ((splitPL b key ref (lastP pageRefs)).recs ++
              allLeafRecs (b.pages.drop ((lastP pageRefs).toNat + 1)))) ++
          (splitPU b key ref (lastP pageRefs)).recs := by
        rw [hA1, hA2, if_pos hPUl, hb1, if_pos hPLl]
      have e2 : allLeafRecs (vset b.pages (lastP pageRefs) key ref) =
          allLeafRecs (b.pages.take (lastP pageRefs).toNat) ++
            (insRecs key ref (b.pg (lastP pageRefs)).recs ++
              allLeafRecs (b.pages.drop ((lastP pageRefs).toNat + 1))) := by
        rw [hc1', if_pos hTvl]
        rfl
      rw [e1, e2]
      refine List.Perm.trans (perm_mid_concat _ _ _ _) ?_
      rw [hcontent]
    | false =>
      have hPLl : (splitPL b key ref (lastP pageRefs)).isLeaf = false := by
        rw [hPLleaf]
        exact hlfT
      have hPUl : (splitPU b key ref (lastP pageRefs)).isLeaf = false := by
        rw [hPUleaf]
        exact hlfT
      have hTvl : ({ getP b.pages (lastP pageRefs) with
          recs := insRecs key ref (getP b.pages (lastP pageRefs)).recs } :
            Page).isLeaf = false := hlfT
      have e1 : allLeafRecs (vsplit b key ref (lastP pageRefs)
          (parentRefOf pageRefs)) =
          allLeafRecs (b.pages.take (lastP pageRefs).toNat) ++
            ([] ++ allLeafRecs (b.pages.drop ((lastP pageRefs).toNat + 1))) := by
        rw [hA1, hA2, if_neg (by simp [hPUl]), hb1, if_neg (by simp [hPLl])]
        simp
      have e2 : allLeafRecs (vset b.pages (lastP pageRefs) key ref) =
          allLeafRecs (b.pages.take (lastP pageRefs).toNat) ++
            ([] ++ allLeafRecs (b.pages.drop ((lastP pageRefs).toNat + 1))) := by
        rw [hc1', if_neg (by rw [hTvl]; simp)]
      rw [e1, e2]
  have hNE2 : ∀ l ∈ reach (vsplit b key ref (lastP pageRefs)
      (parentRefOf pageRefs)) (hT + (pageRefs.length - 1)) b.root,
      (getP (vsplit b key ref (lastP pageRefs) (parentRefOf pageRefs))
        l).isLeaf = true →
      (getP (vsplit b key ref (lastP pageRefs) (parentRefOf pageRefs))
        l).recs ≠ [] := by
    intro l hl hleaf
    obtain ⟨X, Y, hXY, hXY2⟩ := hswap.2.2.1
    rw [hXY2] at hl
    have hcases : l = ((b.pages.length : Int)) ∨
        l ∈ reach (vset b.pages (lastP pageRefs) key ref)
          (hT + (pageRefs.length - 1)) b.root := by
      rcases List.mem_append.1 hl with h1 | h1
      · exact Or.inr (by rw [hXY]; exact List.mem_append_left _ h1)
      · rcases List.mem_cons.1 h1 with h2 | h2
        · exact Or.inl h2
        · exact Or.inr (by rw [hXY]; exact List.mem_append_right _ h2)
    rcases hcases with hlL | hlV
    · rw [hlL] at hleaf ⊢
      rw [hV2L] at hleaf ⊢
      rw [hPUleaf] at hleaf
      unfold splitPU
      split
      · show ((b.pg (lastP pageRefs)).splitP b.cap).2.1.recs ≠ []
        have hlen : (b.pg (lastP pageRefs)).recs.length = b.cap := by
          simpa [Page.size, hleaf] using hfull
        unfold Page.splitP
        rw [if_pos hleaf]
        show (b.pg (lastP pageRefs)).recs.drop (b.cap / 2) ≠ []
        intro he
        have h5 := congrArg List.length he
        simp only [List.length_drop, hlen, List.length_nil] at h5
        omega
      · show insRecs key ref ((b.pg (lastP pageRefs)).splitP b.cap).2.1.recs ≠ []
        exact insRecs_ne_nil _ _ _
    · by_cases h1 : l.toNat = (lastP pageRefs).toNat
      · have hgl : getP (vsplit b key ref (lastP pageRefs)
            (parentRefOf pageRefs)) l = splitPL b key ref (lastP pageRefs) := by
          have h6 : getP (vsplit b key ref (lastP pageRefs)
              (parentRefOf pageRefs)) l =
              getP (vsplit b key ref (lastP pageRefs) (parentRefOf pageRefs))
                (lastP pageRefs) := by
            simp [getP, h1]
          rw [h6, hV2t]
        rw [hgl] at hleaf ⊢
        rw [hPLleaf] at hleaf
        unfold splitPL
        split
        · show insRecs key ref
            ((b.pg (lastP pageRefs)).splitP b.cap).1.recs ≠ []
          exact insRecs_ne_nil _ _ _
        · show ((b.pg (lastP pageRefs)).splitP b.cap).1.recs ≠ []
          have hlen : (b.pg (lastP pageRefs)).recs.length = b.cap := by
            simpa [Page.size, hleaf] using hfull
          unfold Page.splitP
          rw [if_pos hleaf]
          show (b.pg (lastP pageRefs)).recs.take (b.cap / 2) ≠ []
          intro he
          have h5 := congrArg List.length he
          simp only [List.length_take, hlen, List.length_nil] at h5
          omega
      · by_cases h3 : l.toNat = (parentRefOf pageRefs).toNat
        · have hgl : getP (vsplit b key ref (lastP pageRefs)
              (parentRefOf pageRefs)) l =
              getP (vsplit b key ref (lastP pageRefs) (parentRefOf pageRefs))
                (parentRefOf pageRefs) := by
            simp [getP, h3]
          rw [hgl, hV2par] at hleaf
          have h4 : (b.pg (parentRefOf pageRefs)).isLeaf = true := hleaf
          rw [hparleaf] at h4
          simp at h4
        · by_cases h2 : l.toNat = b.pages.length
          · have h4 := (reach_ok (hT + (pageRefs.length - 1)) b.root [] none
              (pathP_head_good hpath hhead) l hlV).2
            rw [hpsVlen] at h4
            omega
          · have hgl := hV2out l h1 h2 h3
            rw [hgl] at hleaf ⊢
            exact hNE l hlV hleaf
  have hsubT := sublist_insRecs key ref (b.pg (lastP pageRefs)).recs hfresh
  have hSEP2 : ∀ p ∈ vsplit b key ref (lastP pageRefs) (parentRefOf pageRefs),
      p.isLeaf = false → ∀ r ∈ p.recs,
      r.key ∈ (allLeafRecs (vsplit b key ref (lastP pageRefs)
        (parentRefOf pageRefs))).map (fun x => x.key) := by
    have hmapperm := hperm.map (fun x : KeyRec => x.key)
    have hTvmem : ({ b.pg (lastP pageRefs) with
        recs := insRecs key ref (b.pg (lastP pageRefs)).recs } : Page) ∈
        vset b.pages (lastP pageRefs) key ref := by
      have hbound : (lastP pageRefs).toNat <
          (vset b.pages (lastP pageRefs) key ref).length := by
        rw [hpsVlen]
        exact htlt
      have hgev : (vset b.pages (lastP pageRefs) key ref)[(lastP
          pageRefs).toNat] = ({ b.pg (lastP pageRefs) with
          recs := insRecs key ref (b.pg (lastP pageRefs)).recs } : Page) := by
        rw [getP_getElem hbound]
        exact hVt
      exact hgev ▸ List.getElem_mem hbound
    have hTvSEP : (b.pg (lastP pageRefs)).isLeaf = false →
        ∀ x ∈ insRecs key ref (b.pg (lastP pageRefs)).recs,
          x.key ∈ (allLeafRecs (vset b.pages (lastP pageRefs) key ref)).map
            (fun s => s.key) := by
      intro hTl x hx
      exact hSEP _ hTvmem hTl x hx
    intro p hp hpl r hr
    rw [hmapperm.mem_iff]
    have hp2 : p ∈ ((b.pages.set (lastP pageRefs).toNat
        (splitPL b key ref (lastP pageRefs))) ++
        [splitPU b key ref (lastP pageRefs)]).set
        (parentRefOf pageRefs).toNat
        ({ getP ((b.pages.set (lastP pageRefs).toNat
            (splitPL b key ref (lastP pageRefs))) ++
            [splitPU b key ref (lastP pageRefs)]) (parentRefOf pageRefs) with
          recs := insRecs (splitSK b (lastP pageRefs)) ((b.pages.length : Int))
            (getP ((b.pages.set (lastP pageRefs).toNat
              (splitPL b key ref (lastP pageRefs))) ++
              [splitPU b key ref (lastP pageRefs)])
              (parentRefOf pageRefs)).recs } : Page) := hp
    rcases List.mem_or_eq_of_mem_set hp2 with hmem | hmem
    · rcases List.mem_append.1 hmem with h2 | h2
      · rcases List.mem_or_eq_of_mem_set h2 with h3 | h3
        · obtain ⟨i, hi, hieq⟩ := List.mem_iff_getElem.1 h3
          by_cases hit : i = (lastP pageRefs).toNat
          · subst hit
            have hpt : p = b.pg (lastP pageRefs) := by
              rw [← hieq]
              exact getP_getElem htlt
            have hTl : (b.pg (lastP pageRefs)).isLeaf = false := by
              rw [← hpt]
              exact hpl
            refine hTvSEP hTl r ?_
            refine hsubT.subset ?_
            rw [← hpt]
            exact hr
          · have hbound2 : i < (vset b.pages (lastP pageRefs) key ref).length := by
              rw [hpsVlen]
              omega
            have hgi : (vset b.pages (lastP pageRefs) key ref)[i] = p := by
              show (b.pages.set (lastP pageRefs).toNat
                ({ getP b.pages (lastP pageRefs) with
                  recs := insRecs key ref (getP b.pages (lastP pageRefs)).recs } : Page))[i] = p
              rw [List.getElem_set_ne (fun he => hit he.symm)]
              exact hieq
            have hpmem : p ∈ vset b.pages (lastP pageRefs) key ref :=
              hgi ▸ List.getElem_mem hbound2
            exact hSEP p hpmem hpl r hr
        · rw [h3] at hpl hr
          have hTl : (b.pg (lastP pageRefs)).isLeaf = false := by
            rw [← hPLleaf]
            exact hpl
          refine hTvSEP hTl r ?_
          revert hr
          unfold splitPL
          split
          · intro hr
            have hr2 : r ∈ insRecs key ref
                ((b.pg (lastP pageRefs)).splitP b.cap).1.recs := hr
            rcases insRecs_mem_sub key ref _ r hr2 with h4 | h4
            · rw [h4]
              exact insRecs_self_mem _ _ _
            · exact hsubT.subset (hssPL h4)
          · intro hr
            have hr2 : r ∈ ((b.pg (lastP pageRefs)).splitP b.cap).1.recs := hr
            exact hsubT.subset (hssPL hr2)
      · have h3 : p = splitPU b key ref (lastP pageRefs) := by simpa using h2
        rw [h3] at hpl hr
        have hTl : (b.pg (lastP pageRefs)).isLeaf = false := by
          rw [← hPUleaf]
          exact hpl
        refine hTvSEP hTl r ?_
        revert hr
        unfold splitPU
        split
        · intro hr
          have hr2 : r ∈ ((b.pg (lastP pageRefs)).splitP b.cap).2.1.recs := hr
          exact hsubT.subset (hssPU hr2)
        · intro hr
          have hr2 : r ∈ insRecs key ref
              ((b.pg (lastP pageRefs)).splitP b.cap).2.1.recs := hr
          rcases insRecs_mem_sub key ref _ r hr2 with h4 | h4
          · rw [h4]
            exact insRecs_self_mem _ _ _
          · exact hsubT.subset (hssPU h4)
    · rw [hmem] at hr
      have hr2 : r ∈ insRecs (splitSK b (lastP pageRefs))
          ((b.pages.length : Int))
          (getP ((b.pages.set (lastP pageRefs).toNat
            (splitPL b key ref (lastP pageRefs))) ++
            [splitPU b key ref (lastP pageRefs)])
            (parentRefOf pageRefs)).recs := hr
      rw [hB5par'] at hr2
      rcases insRecs_mem_sub _ _ _ r hr2 with h4 | h4
      · rw [h4]
        show splitSK b (lastP pageRefs) ∈
          (allLeafRecs (vset b.pages (lastP pageRefs) key ref)).map
            (fun s => s.key)
        cases hlfT : (b.pg (lastP pageRefs)).isLeaf with
        | true =>
          have hlen : (b.pg (lastP pageRefs)).recs.length = b.cap := by
            simpa [Page.size, hlfT] using hfull
          have hne : (b.pg (lastP pageRefs)).recs.drop (b.cap / 2) ≠ [] := by
            intro he
            have h5 := congrArg List.length he
            simp only [List.length_drop, hlen, List.length_nil] at h5
            omega
          obtain ⟨r0, rest0, hr0⟩ := List.exists_cons_of_ne_nil hne
          have hSKval : splitSK b (lastP pageRefs) = r0.key := by
            show ((b.pg (lastP pageRefs)).splitP b.cap).2.2 = r0.key
            unfold Page.splitP
            rw [if_pos hlfT]
            show (((b.pg (lastP pageRefs)).recs.drop (b.cap / 2)).headD
              dfltRec).key = r0.key
            rw [hr0]
            rfl
          have hr0mem : r0 ∈ (b.pg (lastP pageRefs)).recs := by
            have h6 : r0 ∈ (b.pg (lastP pageRefs)).recs.drop (b.cap / 2) := by
              rw [hr0]
              exact List.mem_cons_self _ _
            exact List.drop_subset _ _ h6
          have hbound : (lastP pageRefs).toNat <
              (vset b.pages (lastP pageRefs) key ref).length := by
            rw [hpsVlen]
            exact htlt
          have hgeV : (vset b.pages (lastP pageRefs) key ref)[(lastP
              pageRefs).toNat] = ({ b.pg (lastP pageRefs) with
              recs := insRecs key ref (b.pg (lastP pageRefs)).recs } : Page) := by
            rw [getP_getElem hbound]
            exact hVt
          have h6 : r0 ∈ (vset b.pages (lastP pageRefs) key
              ref)[(lastP pageRefs).toNat].recs := by
            rw [hgeV]
            show r0 ∈ insRecs key ref (b.pg (lastP pageRefs)).recs
            exact hsubT.subset hr0mem
          have h7 : (vset b.pages (lastP pageRefs) key
              ref)[(lastP pageRefs).toNat].isLeaf = true := by
            rw [hgeV]
            exact hlfT
          have h8 := allLeafRecs_mem hbound h7 h6
          rw [hSKval]
          exact List.mem_map.2 ⟨r0, h8, rfl⟩
        | false =>
          have hlen : (b.pg (lastP pageRefs)).recs.length + 1 = b.cap := by
            simpa [Page.size, hlfT] using hfull
          have hidx : b.cap / 2 - 1 < (b.pg (lastP pageRefs)).recs.length := by
            omega
          have hSKval : splitSK b (lastP pageRefs) =
              ((b.pg (lastP pageRefs)).recs.getD (b.cap / 2 - 1) dfltRec).key := by
            show ((b.pg (lastP pageRefs)).splitP b.cap).2.2 = _
            unfold Page.splitP
            rw [if_neg (by simp [hlfT])]
          have hmemr : (b.pg (lastP pageRefs)).recs.getD (b.cap / 2 - 1)
              dfltRec ∈ (b.pg (lastP pageRefs)).recs := by
            rw [List.getD_eq_getElem?_getD, List.getElem?_eq_getElem hidx]
            simp only [Option.getD_some]
            exact List.getElem_mem hidx
          have h6 := hTvSEP hlfT ((b.pg (lastP pageRefs)).recs.getD
            (b.cap / 2 - 1) dfltRec) (hsubT.subset hmemr)
          rw [hSKval]
          exact h6
      · have hparmem : b.pg (parentRefOf pageRefs) ∈
            vset b.pages (lastP pageRefs) key ref := by
          have hbound : (parentRefOf pageRefs).toNat <
              (vset b.pages (lastP pageRefs) key ref).length := by
            rw [hpsVlen]
            exact hparlt
          have hgeV : (vset b.pages (lastP pageRefs) key
              ref)[(parentRefOf pageRefs).toNat] =
              b.pg (parentRefOf pageRefs) := by
            rw [getP_getElem hbound]
            exact hVpar
          exact hgeV ▸ List.getElem_mem hbound
        exact hSEP _ hparmem hparleaf r h4
  exact ⟨heq, hpar0, hparlt, hB5par, hparleaf, hsizes5, hfreshSK, hchainp,
    hpath2, hnd2, hlink2, hswap.2.1, hperm, hNE2, hSEP2⟩

end Btr
